import Mathlib

/-!
# Strudel backend: pattern parsing and event scheduling

A shallow embedding of `src/backend/strudel.go` (`parseStrudelPattern`,
`extractPatternElements`, `generateAudioEvents`, `detectInstrument`) together
with the Go library routines those functions call (`strings.TrimSpace`,
`strings.Fields`, `strings.Trim`, `strings.ToLower`, `strconv.Atoi` and the
`regexp` matcher for the four patterns that occur in the source).

Modelling conventions
* A Go string holding valid UTF-8 is a list of runes, `Str = List Char`.
* Go `int` is the 64-bit signed integer of the usual build targets; `Atoi`
  reports a range error outside of it.
* `float64` arithmetic is IEEE 754 binary64 with round to nearest, ties to even
  (`F64` for finite values, `Float64` with the zeros, infinities and NaN); the
  exponent range is not bounded, as the values this program computes from Go
  `int` operands neither overflow nor underflow. Only the waveform formulas,
  which call `math.Exp` and `math.Sin`, are read over the reals.
* `regexp` matching is leftmost-first (the match a backtracking search finds
  first), all quantifiers greedy.
-/

namespace Strudel

/-- A Go string (valid UTF-8), as its sequence of runes. -/
abbrev Str := List Char

/-! ## Character classes -/

/-- Code point of `c` lies in the closed range `lo..hi`. -/
def inRange (lo hi : Nat) (c : Char) : Bool := decide (lo ≤ c.toNat) && decide (c.toNat ≤ hi)

/-- Go `unicode.IsSpace`: the Unicode `White_Space` property. -/
def unicodeIsSpace (c : Char) : Bool :=
  inRange 0x09 0x0d c || inRange 0x20 0x20 c || inRange 0x85 0x85 c || inRange 0xa0 0xa0 c
    || inRange 0x1680 0x1680 c || inRange 0x2000 0x200a c || inRange 0x2028 0x2029 c
    || inRange 0x202f 0x202f c || inRange 0x205f 0x205f c || inRange 0x3000 0x3000 c

/-- Regexp class `\s`, which is `[\t\n\f\r ]`. -/
def reSpace (c : Char) : Bool :=
  inRange 0x09 0x0a c || inRange 0x0c 0x0d c || inRange 0x20 0x20 c

/-- Regexp class `\w`, which is `[0-9A-Za-z_]`. -/
def reWord (c : Char) : Bool :=
  inRange 0x30 0x39 c || inRange 0x41 0x5a c || inRange 0x61 0x7a c || inRange 0x5f 0x5f c

/-- Regexp class `\d`, which is `[0-9]`. -/
def reDigit (c : Char) : Bool := inRange 0x30 0x39 c

/-- Regexp `.` without the `s` flag: any rune except the line feed. -/
def reDot (c : Char) : Bool := !inRange 0x0a 0x0a c

/-- Regexp literal `\$`. -/
def reDollar (c : Char) : Bool := inRange 0x24 0x24 c

/-- Regexp literal `"`. -/
def reQuote (c : Char) : Bool := inRange 0x22 0x22 c

/-- Regexp class `[^"]` (a negated class also matches the line feed). -/
def reNotQuote (c : Char) : Bool := !inRange 0x22 0x22 c

/-- Regexp class `[a-g]`. -/
def reNoteLetter (c : Char) : Bool := inRange 0x61 0x67 c

/-- Regexp class `[#b]`. -/
def reAccidental (c : Char) : Bool := inRange 0x23 0x23 c || inRange 0x62 0x62 c

/-- Regexp literal for one fixed rune. -/
def reLit (x : Char) (c : Char) : Bool := inRange x.toNat x.toNat c

/-! ## Go `strings` and `strconv` routines -/

/-- Go `strings.TrimSpace`: drop leading and trailing `unicode.IsSpace` runes. -/
def trimSpace (s : Str) : Str :=
  ((s.dropWhile unicodeIsSpace).reverse.dropWhile unicodeIsSpace).reverse

/-- Membership of a rune in a cutset string. -/
def inCutset (cutset : Str) (c : Char) : Bool := cutset.any (fun x => x.toNat == c.toNat)

/-- Go `strings.Trim`: drop leading and trailing runes contained in `cutset`. -/
def trim (s cutset : Str) : Str :=
  ((s.dropWhile (inCutset cutset)).reverse.dropWhile (inCutset cutset)).reverse

/-- The scanning loop of Go `strings.Fields`: `cur` is the field being read
(empty when the scan is between fields). -/
def fieldsLoop : Str → Str → List Str
  | cur, [] => if cur.isEmpty then [] else [cur]
  | cur, c :: s =>
    if unicodeIsSpace c then
      (if cur.isEmpty then fieldsLoop [] s else cur :: fieldsLoop [] s)
    else fieldsLoop (cur ++ [c]) s

/-- Go `strings.Fields`: the maximal runs of non-space runes, in order. -/
def fields (s : Str) : List Str := fieldsLoop [] s

/-- Go `unicode.ToLower`. On ASCII it shifts `A..Z` to `a..z`; above ASCII it
consults the Unicode case tables, which are a parameter `tbl` of the model. -/
def unicodeToLower (tbl : Char → Char) (c : Char) : Char :=
  if c.toNat ≤ 0x7f then
    (if inRange 0x41 0x5a c then Char.ofNat (c.toNat + 32) else c)
  else tbl c

/-- Go `strings.ToLower`. -/
def toLower (tbl : Char → Char) (s : Str) : Str := s.map (unicodeToLower tbl)

/-- Largest value of a Go `int` (64-bit). -/
def maxInt : Nat := 2 ^ 63 - 1

/-- Value of a run of decimal digits. -/
def digitsVal (ds : Str) : Nat := ds.foldl (fun acc c => acc * 10 + (c.toNat - 0x30)) 0

/-- Go `strconv.Atoi`: optional sign, then one or more decimal digits; `none`
stands for a syntax or range error. -/
def atoi (s : Str) : Option Int :=
  let neg : Bool := match s with
    | c :: _ => reLit '-' c
    | [] => false
  let signed : Bool := match s with
    | c :: _ => reLit '-' c || reLit '+' c
    | [] => false
  let ds : Str := if signed then s.drop 1 else s
  if ds.isEmpty || !ds.all reDigit then none
  else if neg then
    (if digitsVal ds ≤ maxInt + 1 then some (-(digitsVal ds : Int)) else none)
  else
    (if digitsVal ds ≤ maxInt then some (digitsVal ds : Int) else none)

/-! ## Regular expressions

The patterns of the source are sequences of anchors, single-rune classes with
an optional greedy quantifier, and capture groups around one such item. -/

/-- The regexp constructs used by the source. -/
inductive Re where
  /-- `^` (no `m` flag): beginning of text. -/
  | bot : Re
  /-- `$` (no `m` flag): end of text. -/
  | eot : Re
  /-- One rune of a class. -/
  | cls : (Char → Bool) → Re
  /-- Greedy `x?`. -/
  | opt : (Char → Bool) → Re
  /-- Greedy `x*`. -/
  | star : (Char → Bool) → Re
  /-- Greedy `x+`. -/
  | plus : (Char → Bool) → Re
  /-- Capture group `( ... )`. -/
  | grp : Re → Re

/-- Outcome of a match attempt: end position and the capture spans in group order. -/
abbrev MatchEnd := Nat × List (Nat × Nat)

/-- Continuation of a backtracking matcher: position in the text, rest of the
text, captures so far. -/
abbrev Cont := Nat → Str → List (Nat × Nat) → Option MatchEnd

/-- Greedy repetition: take as many runes of the class as possible, giving
them back one at a time when the continuation fails. -/
def starGreedy (p : Char → Bool) (k : Cont) : Nat → Str → List (Nat × Nat) → Option MatchEnd
  | pos, [], caps => k pos [] caps
  | pos, c :: s, caps =>
    if p c then
      match starGreedy p k (pos + 1) s caps with
      | some r => some r
      | none => k pos (c :: s) caps
    else k pos (c :: s) caps

/-- Backtracking interpretation of one construct in front of a continuation. -/
def Re.run : Re → Cont → Cont
  | .bot, k => fun pos s caps => if pos = 0 then k pos s caps else none
  | .eot, k => fun pos s caps => if s.isEmpty then k pos s caps else none
  | .cls p, k => fun pos s caps =>
    match s with
    | c :: s' => if p c then k (pos + 1) s' caps else none
    | [] => none
  | .opt p, k => fun pos s caps =>
    match s with
    | c :: s' =>
      if p c then
        match k (pos + 1) s' caps with
        | some r => some r
        | none => k pos s caps
      else k pos s caps
    | [] => k pos s caps
  | .star p, k => starGreedy p k
  | .plus p, k => fun pos s caps =>
    match s with
    | c :: s' => if p c then starGreedy p k (pos + 1) s' caps else none
    | [] => none
  | .grp r, k => fun pos s caps =>
    r.run (fun pos' s' caps' => k pos' s' (caps' ++ [(pos, pos')])) pos s caps

/-- A pattern is a sequence of constructs. -/
def runSeq : List Re → Cont → Cont
  | [], k => k
  | r :: rs, k => r.run (runSeq rs k)

/-- Try to match the pattern starting exactly at `pos`. -/
def matchAt (re : List Re) (pos : Nat) (s : Str) : Option MatchEnd :=
  runSeq re (fun e _ caps => some (e, caps)) pos s []

/-- Leftmost match at or after `pos`, where `s` is the text from `pos` on:
start position, end position and capture spans. -/
def searchFrom (re : List Re) : Nat → Str → Option (Nat × MatchEnd)
  | pos, [] => (matchAt re pos []).map (fun m => (pos, m))
  | pos, c :: s =>
    match matchAt re pos (c :: s) with
    | some m => some (pos, m)
    | none => searchFrom re (pos + 1) s

/-- Substring of `text` between two positions. -/
def slice (text : Str) (a b : Nat) : Str := (text.drop a).take (b - a)

/-- The strings of a match: the whole match, then each group. -/
def submatches (text : Str) (m : Nat × MatchEnd) : List Str :=
  slice text m.1 m.2.1 :: m.2.2.map (fun g => slice text g.1 g.2)

/-- Go `Regexp.FindStringSubmatch`; the empty list stands for `nil` (no match). -/
def findStringSubmatch (re : List Re) (text : Str) : List Str :=
  match searchFrom re 0 text with
  | some m => submatches text m
  | none => []

/-- Go `Regexp.MatchString`. -/
def matchString (re : List Re) (text : Str) : Bool := (searchFrom re 0 text).isSome

/-- The loop of Go `Regexp.allMatches`: successive non-overlapping matches
from `pos` on; an empty match directly after the previous match is skipped and
the scan then moves one rune forward. Each round advances `pos`, so
`text.length + 1` rounds exhaust the text. -/
def allMatchesLoop (re : List Re) (text : Str) : Nat → Nat → Option Nat → List (List Str)
  | 0, _, _ => []
  | fuel + 1, pos, prevMatchEnd =>
    if text.length < pos then []
    else
      match searchFrom re pos (text.drop pos) with
      | none => []
      | some m =>
        let isEmptyMatch : Bool := m.2.1 == pos
        let accept : Bool := !(isEmptyMatch && prevMatchEnd == some m.1)
        let pos' : Nat := if isEmptyMatch then pos + 1 else m.2.1
        let rest := allMatchesLoop re text fuel pos' (some m.2.1)
        if accept then submatches text m :: rest else rest

/-- Go `Regexp.FindAllStringSubmatch(text, -1)`. -/
def findAllStringSubmatch (re : List Re) (text : Str) : List (List Str) :=
  allMatchesLoop re text (text.length + 1) 0 none

/-! ## float64 arithmetic

A finite float64 is `sig * 2 ^ exp` with a significand of at most 53 bits;
arithmetic is the exact result rounded to nearest, ties to even (normal range). -/

/-- A finite float64 value `sig * 2 ^ exp`. -/
structure F64 where
  sig : Int
  exp : Int
deriving DecidableEq

/-- Halving loop for the binary logarithm. -/
def log2Loop : Nat → Nat → Nat
  | 0, _ => 0
  | fuel + 1, n => if n < 2 then 0 else log2Loop fuel (n / 2) + 1

/-- The binary logarithm of `n ≥ 1`, rounded down. -/
def floorLog2 (n : Nat) : Nat := log2Loop n n

/-- The binary logarithm of `p / q`, rounded down, for positive `p` and `q`. -/
def floorLog2Ratio (p q : Nat) : Int :=
  if q ≤ p then (floorLog2 (p / q) : Int)
  else if q ≤ p * 2 ^ floorLog2 (q / p) then -(floorLog2 (q / p) : Int)
  else -(floorLog2 (q / p) : Int) - 1

/-- Nearest integer to `n / d`, ties to even. -/
def roundHalfEven (n d : Nat) : Nat :=
  if 2 * (n % d) < d then n / d
  else if d < 2 * (n % d) then n / d + 1
  else if (n / d) % 2 = 0 then n / d else n / d + 1

/-- The float64 nearest to `p / q` (`q > 0`): 53 significant bits, ties to even. -/
def roundRatio (p q : Nat) : F64 :=
  if p = 0 then ⟨0, 0⟩
  else
    ⟨(roundHalfEven (p * 2 ^ (52 - floorLog2Ratio p q).toNat)
        (q * 2 ^ (floorLog2Ratio p q - 52).toNat) : Nat),
      floorLog2Ratio p q - 52⟩

/-- The float64 nearest to the dyadic number `s * 2 ^ e`. -/
def roundDyadic (s e : Int) : F64 :=
  if 0 ≤ s then roundRatio (s.toNat * 2 ^ e.toNat) (2 ^ (-e).toNat)
  else
    ⟨-(roundRatio ((-s).toNat * 2 ^ e.toNat) (2 ^ (-e).toNat)).sig,
      (roundRatio ((-s).toNat * 2 ^ e.toNat) (2 ^ (-e).toNat)).exp⟩

/-- The float64 constant written as the decimal `m * 10 ^ (-k)`. -/
def F64.ofDecimal (m k : Nat) : F64 := roundRatio m (10 ^ k)

/-- Conversion `float64(n)` of a non-negative integer. -/
def F64.ofNat (n : Nat) : F64 := roundRatio n 1

/-- Product of two float64 values. -/
def F64.mul (a b : F64) : F64 := roundDyadic (a.sig * b.sig) (a.exp + b.exp)

/-- Sum of two float64 values. -/
def F64.add (a b : F64) : F64 :=
  roundDyadic (a.sig * 2 ^ (a.exp - min a.exp b.exp).toNat
      + b.sig * 2 ^ (b.exp - min a.exp b.exp).toNat) (min a.exp b.exp)

/-- Difference of two float64 values. -/
def F64.sub (a b : F64) : F64 :=
  roundDyadic (a.sig * 2 ^ (a.exp - min a.exp b.exp).toNat
      - b.sig * 2 ^ (b.exp - min a.exp b.exp).toNat) (min a.exp b.exp)

/-- Conversion `int(x)` of a float64: truncation toward zero. -/
def F64.toInt (a : F64) : Int :=
  if 0 ≤ a.exp then a.sig * 2 ^ a.exp.toNat else Int.tdiv a.sig (2 ^ (-a.exp).toNat)

/-- The rational number a float64 stands for. -/
def F64.toRat (a : F64) : ℚ := (a.sig : ℚ) * 2 ^ a.exp

/-- Comparison `a < b` of two finite float64 values. -/
def F64.lt (a b : F64) : Bool :=
  decide (a.sig * 2 ^ (a.exp - min a.exp b.exp).toNat
    < b.sig * 2 ^ (b.exp - min a.exp b.exp).toNat)

/-- Quotient of two finite float64 values, the divisor not zero. -/
def F64.div (a b : F64) : F64 :=
  if decide (a.sig < 0) = decide (b.sig < 0) then
    roundRatio (a.sig.natAbs * 2 ^ (a.exp - b.exp).toNat)
      (b.sig.natAbs * 2 ^ (b.exp - a.exp).toNat)
  else
    ⟨-(roundRatio (a.sig.natAbs * 2 ^ (a.exp - b.exp).toNat)
        (b.sig.natAbs * 2 ^ (b.exp - a.exp).toNat)).sig,
      (roundRatio (a.sig.natAbs * 2 ^ (a.exp - b.exp).toNat)
        (b.sig.natAbs * 2 ^ (b.exp - a.exp).toNat)).exp⟩

/-- Conversion `float64(z)` of an integer. -/
def F64.ofInt (z : Int) : F64 :=
  if 0 ≤ z then roundRatio z.toNat 1
  else ⟨-(roundRatio (-z).toNat 1).sig, (roundRatio (-z).toNat 1).exp⟩

/-- A float64 value: a finite number (significand 0 is the positive zero), the
negative zero, an infinity (`true` for the negative one) or NaN. -/
inductive Float64 where
  | fin : F64 → Float64
  | negZero : Float64
  | inf : Bool → Float64
  | nan : Float64
deriving DecidableEq

/-- Is the value one of the two zeros. -/
def Float64.isZero : Float64 → Bool
  | .fin v => decide (v.sig = 0)
  | .negZero => true
  | .inf _ => false
  | .nan => false

/-- The sign bit. -/
def Float64.signBit : Float64 → Bool
  | .fin v => decide (v.sig < 0)
  | .negZero => true
  | .inf neg => neg
  | .nan => false

/-- The zero with the given sign bit. -/
def Float64.zero (neg : Bool) : Float64 := if neg then .negZero else .fin ⟨0, 0⟩

/-- Is the value neither an infinity nor NaN. -/
def Float64.isFinite : Float64 → Bool
  | .fin _ => true
  | .negZero => true
  | .inf _ => false
  | .nan => false

/-- The rational number a finite float64 stands for (0 for the others). -/
def Float64.value : Float64 → ℚ
  | .fin v => v.toRat
  | .negZero => 0
  | .inf _ => 0
  | .nan => 0

/-- Product `x * y` of two float64 values. -/
def Float64.mul (x y : Float64) : Float64 :=
  match x, y with
  | .nan, _ => .nan
  | _, .nan => .nan
  | .inf a, y => if y.isZero then .nan else .inf (a != y.signBit)
  | x, .inf b => if x.isZero then .nan else .inf (x.signBit != b)
  | .fin a, .fin b =>
    if a.sig = 0 ∨ b.sig = 0 then Float64.zero (decide (a.sig < 0) != decide (b.sig < 0))
    else .fin (F64.mul a b)
  | x, y => Float64.zero (x.signBit != y.signBit)

/-- Quotient `x / y` of two float64 values. -/
def Float64.div (x y : Float64) : Float64 :=
  match x, y with
  | .nan, _ => .nan
  | _, .nan => .nan
  | .inf _, .inf _ => .nan
  | .inf a, y => .inf (a != y.signBit)
  | x, .inf b => Float64.zero (x.signBit != b)
  | .fin a, .fin b =>
    if b.sig = 0 then (if a.sig = 0 then .nan else .inf (decide (a.sig < 0)))
    else if a.sig = 0 then Float64.zero (decide (b.sig < 0))
    else .fin (F64.div a b)
  | .fin a, .negZero => if a.sig = 0 then .nan else .inf (!decide (a.sig < 0))
  | .negZero, .fin b => if b.sig = 0 then .nan else Float64.zero (!decide (b.sig < 0))
  | .negZero, .negZero => .nan

/-- Comparison `x < y` of two float64 values. -/
def Float64.lt (x y : Float64) : Bool :=
  match x, y with
  | .nan, _ => false
  | _, .nan => false
  | .inf a, .inf b => a && !b
  | .inf a, _ => a
  | _, .inf b => !b
  | .fin a, .fin b => F64.lt a b
  | .fin a, .negZero => decide (a.sig < 0)
  | .negZero, .fin b => decide (0 < b.sig)
  | .negZero, .negZero => false

/-- Conversion `float64(n)` of a non-negative integer. -/
def Float64.ofNat (n : Nat) : Float64 := .fin (F64.ofNat n)

/-- Conversion `float64(z)` of an integer. -/
def Float64.ofInt (z : Int) : Float64 := .fin (F64.ofInt z)

/-- The float64 constant written as the decimal `m * 10 ^ (-k)`. -/
def Float64.ofDecimal (m k : Nat) : Float64 := .fin (F64.ofDecimal m k)

/-- The text `strconv.FormatFloat` gives for a value that is not finite. -/
def Float64.formatSpecial : Float64 → String
  | .inf false => "+Inf"
  | .inf true => "-Inf"
  | .nan => "NaN"
  | _ => ""

/-! ## The program -/

/-- Go struct `StrudelPattern` (the `Cycle` and `Metadata` fields are constant). -/
structure StrudelPattern where
  Name : Str
  Pattern : Str
  BPM : Int
  Cycle : Int
  Elements : List Str
deriving DecidableEq

/-- Go struct `AudioEvent`. -/
structure AudioEvent where
  Instrument : String
  Note : Str
  Velocity : Float64
  Duration : Float64
  Time : Float64
deriving DecidableEq

/-- Pattern `^(\w+)\s*\$\s*(.+)$`. -/
def nameRegex : List Re :=
  [.bot, .grp (.plus reWord), .star reSpace, .cls reDollar, .star reSpace, .grp (.plus reDot), .eot]

/-- Pattern `bpm\s+(\d+)`. -/
def bpmRegex : List Re :=
  [.cls (reLit 'b'), .cls (reLit 'p'), .cls (reLit 'm'), .plus reSpace, .grp (.plus reDigit)]

/-- Pattern `"([^"]+)"`. -/
def quotedRegex : List Re := [.cls reQuote, .grp (.plus reNotQuote), .cls reQuote]

/-- Pattern `^[a-g][#b]?[0-9]?$`. -/
def noteRegex : List Re :=
  [.bot, .cls reNoteLetter, .opt reAccidental, .opt reDigit, .eot]

/-- The keyword set of `extractPatternElements`. -/
def keywords : List Str :=
  ["sound".toList, "note".toList, "gain".toList, "pan".toList,
   "delay".toList, "reverb".toList, "$".toList, "|".toList,
   "fast".toList, "slow".toList, "rev".toList, "bpm".toList]

/-- The filter loop of `extractPatternElements`. -/
def filterElements : List Str → List Str
  | [] => []
  | element :: rest =>
    let cleanElement := trim element "()[]\x7b\x7d".toList
    if !keywords.contains cleanElement && !cleanElement.isEmpty then
      cleanElement :: filterElements rest
    else filterElements rest

/-- Go `extractPatternElements`. -/
def extractPatternElements (patternStr : Str) : List Str :=
  let quotedMatches := findAllStringSubmatch quotedRegex patternStr
  let elements : List Str :=
    quotedMatches.foldl (fun elements m => elements ++ fields (m.getD 1 [])) []
  let elements : List Str := if elements.length = 0 then fields patternStr else elements
  filterElements elements

/-- The name block of `parseStrudelPattern`: name and body of a named
assignment, or `unnamed` and the whole text. -/
def parseName (patternStr : Str) : Str × Str :=
  match findStringSubmatch nameRegex patternStr with
  | [_, name, body] => (name, body)
  | _ => ("unnamed".toList, patternStr)

/-- The tempo block of `parseStrudelPattern`, starting from the default 120. -/
def parseBpm (body : Str) : Int :=
  match findStringSubmatch bpmRegex body with
  | [_, digits] =>
    (match atoi digits with
     | some bpm => bpm
     | none => 120)
  | _ => 120

/-- Go `parseStrudelPattern`; `Except.error` carries the error text. -/
def parseStrudelPattern (patternStr : Str) : Except String StrudelPattern :=
  let patternStr := trimSpace patternStr
  if patternStr.isEmpty then .error "empty pattern"
  else
    .ok { Name := (parseName patternStr).1,
          Pattern := (parseName patternStr).2,
          BPM := parseBpm (parseName patternStr).2,
          Cycle := 1,
          Elements := extractPatternElements (parseName patternStr).2 }

/-- The table `drumMap` of `detectInstrument`. -/
def drumMap : List (Str × String) :=
  [("bd".toList, "kick"), ("kick".toList, "kick"),
   ("sn".toList, "snare"), ("snare".toList, "snare"),
   ("hh".toList, "hihat"), ("hihat".toList, "hihat"),
   ("oh".toList, "openhat"), ("openhat".toList, "openhat"),
   ("cp".toList, "clap"), ("clap".toList, "clap"),
   ("cy".toList, "cymbal"), ("cymbal".toList, "cymbal")]

/-- Go `detectInstrument`. -/
def detectInstrument (tbl : Char → Char) (element : Str) : String :=
  match drumMap.lookup (toLower tbl element) with
  | some instrument => instrument
  | none =>
    if matchString noteRegex (toLower tbl element) then "synth" else "sample"

/-- The `for i, element := range pattern.Elements` loop of
`generateAudioEvents`, from index `i` on. -/
def eventsLoop (tbl : Char → Char) (stepDuration : Float64) :
    Nat → List Str → List AudioEvent → List AudioEvent
  | _, [], events => events
  | i, element :: rest, events =>
    if element = "~".toList ∨ element = [] then
      eventsLoop tbl stepDuration (i + 1) rest events
    else
      eventsLoop tbl stepDuration (i + 1) rest
        (events ++ [{ Instrument := detectInstrument tbl element,
                      Note := element,
                      Velocity := Float64.ofDecimal 8 1,
                      Duration := Float64.mul stepDuration (Float64.ofDecimal 9 1),
                      Time := Float64.mul (Float64.ofNat i) stepDuration }])

/-- Go `generateAudioEvents`. -/
def generateAudioEvents (tbl : Char → Char) (pattern : StrudelPattern) : List AudioEvent :=
  if pattern.Elements.length = 0 then []
  else
    let beatDuration : Float64 :=
      Float64.div (Float64.ofDecimal 60 0) (Float64.ofInt pattern.BPM)
    let stepDuration : Float64 :=
      Float64.div beatDuration (Float64.ofNat pattern.Elements.length)
    eventsLoop tbl stepDuration 0 pattern.Elements []

/-! ## Reference definitions, following the specification's wording -/

/-- Note-name shape: one letter `a..g`, optionally followed by `#` or `b`,
optionally followed by one digit. -/
def noteShape : Str → Bool
  | [x] => reNoteLetter x
  | [x, y] => reNoteLetter x && (reAccidental y || reDigit y)
  | [x, y, z] => reNoteLetter x && reAccidental y && reDigit z
  | _ => false

/-- Reference classifier: alias table on the lower-cased token, then the
note-name shape, then `sample`. -/
def classifyRef (tbl : Char → Char) (t : Str) : String :=
  let l := toLower tbl t
  if l = "bd".toList ∨ l = "kick".toList then "kick"
  else if l = "sn".toList ∨ l = "snare".toList then "snare"
  else if l = "hh".toList ∨ l = "hihat".toList then "hihat"
  else if l = "oh".toList ∨ l = "openhat".toList then "openhat"
  else if l = "cp".toList ∨ l = "clap".toList then "clap"
  else if l = "cy".toList ∨ l = "cymbal".toList then "cymbal"
  else if noteShape l then "synth"
  else "sample"

/-- An element that produces no event: the rest marker `~` or the empty string. -/
def isRest (e : Str) : Bool := decide (e = "~".toList ∨ e = [])

/-- The step duration `(60 / b) / n` of a pattern with tempo `b` and `n`
elements, in float64. -/
def stepDuration (b : Int) (n : Nat) : Float64 :=
  Float64.div (Float64.div (Float64.ofDecimal 60 0) (Float64.ofInt b)) (Float64.ofNat n)

/-- The event prescribed for a playable element `e` at index `i` of a pattern
with tempo `b` and `n` elements: offset `i * step`, duration `0.9 * step`,
velocity `0.8`, in float64. -/
def eventAt (tbl : Char → Char) (b : Int) (n : Nat) (i : Nat) (e : Str) : AudioEvent :=
  { Instrument := detectInstrument tbl e
    Note := e
    Velocity := Float64.ofDecimal 8 1
    Duration := Float64.mul (Float64.ofDecimal 9 1) (stepDuration b n)
    Time := Float64.mul (Float64.ofNat i) (stepDuration b n) }

/-- Indices of the playable elements, in increasing order. -/
def playableIndices (els : List Str) : List Nat :=
  (List.range els.length).filter (fun i => !isRest (els.getD i []))

/-- A three-element pattern with a rest in the middle, at 120 BPM. -/
def restPattern : StrudelPattern :=
  { Name := "unnamed".toList, Pattern := "bd ~ sn".toList, BPM := 120, Cycle := 1,
    Elements := ["bd".toList, "~".toList, "sn".toList] }

/-- The pattern of `bd sn hh` at 120 BPM. -/
def fullPattern : StrudelPattern :=
  { Name := "unnamed".toList, Pattern := "bd sn hh".toList, BPM := 120, Cycle := 1,
    Elements := ["bd".toList, "sn".toList, "hh".toList] }

/-- The shape `<identifier> $ <body>`: one or more word characters, optional
whitespace, a dollar sign, and a non-empty remainder. -/
def NamedShape (t : Str) : Prop :=
  ∃ w ws body : Str, w ≠ [] ∧ (∀ c ∈ w, reWord c = true) ∧ (∀ c ∈ ws, reSpace c = true) ∧
    body ≠ [] ∧ t = w ++ ws ++ '$' :: body

/-- The digit run of an occurrence of `bpm`, one or more whitespace characters,
one or more decimal digits that starts at the head of `s`. -/
def bpmDigitsHere (s : Str) : Option Str :=
  if s.take 3 = "bpm".toList then
    let ws := (s.drop 3).takeWhile reSpace
    let ds := ((s.drop 3).dropWhile reSpace).takeWhile reDigit
    if ws ≠ [] ∧ ds ≠ [] then some ds else none
  else none

/-- The digit run of the first such occurrence in `s`, scanning left to right. -/
def firstBpmDigits : Str → Option Str
  | [] => none
  | c :: s =>
    match bpmDigitsHere (c :: s) with
    | some ds => some ds
    | none => firstBpmDigits s

/-- Reference tempo: the value of the first occurrence's digit run when it fits
a Go `int`, and 120 in every other case. -/
def tempoRef (body : Str) : Int :=
  match firstBpmDigits body with
  | some ds => if digitsVal ds ≤ maxInt then (digitsVal ds : Int) else 120
  | none => 120

/-- Tokens joined by single spaces. -/
def joinSpaces : List Str → Str
  | [] => []
  | [t] => t
  | t :: t' :: ts => t ++ ' ' :: joinSpaces (t' :: ts)

/-- A continuation never reports an end position before the position it is entered at. -/
def Forward (k : Cont) : Prop :=
  ∀ pos s caps r, k pos s caps = some r → pos ≤ r.1

/-! ## Evaluation and playback -/

/-- Go struct `EvaluationResult`, as it stands before it is serialised (the
`Timestamp` field is left out). -/
structure EvaluationResult where
  Success : Bool
  Pattern : StrudelPattern
  Events : List AudioEvent
  Message : String
  Error : String

/-- The zero value of `StrudelPattern`. -/
def zeroPattern : StrudelPattern :=
  { Name := [], Pattern := [], BPM := 0, Cycle := 0, Elements := [] }

/-- The variable `result` of `evaluateStrudelPattern` when it is handed to the
JSON encoder; the hand-over of the events to the audio engine is a separate
goroutine and not part of the value. -/
def evaluationResult (tbl : Char → Char) (patternStr : Str) : EvaluationResult :=
  match parseStrudelPattern patternStr with
  | .error err =>
    { Success := false, Pattern := zeroPattern, Events := [],
      Message := "Failed to parse Strudel pattern",
      Error := "Parse error: " ++ err }
  | .ok pattern =>
    { Success := true, Pattern := pattern, Events := generateAudioEvents tbl pattern,
      Message := "Successfully evaluated pattern '" ++ String.mk pattern.Name ++ "' with "
        ++ toString (generateAudioEvents tbl pattern).length ++ " events",
      Error := "" }

/-- The first float64 field, in encoding order, that `json.MarshalIndent`
refuses: an infinity or NaN. -/
def firstUnsupported : List AudioEvent → Option Float64
  | [] => none
  | ev :: rest =>
    if !ev.Velocity.isFinite then some ev.Velocity
    else if !ev.Duration.isFinite then some ev.Duration
    else if !ev.Time.isFinite then some ev.Time
    else firstUnsupported rest

/-- Go `evaluateStrudelPattern`: the value the returned JSON text denotes. When
the encoder fails, the text holds only `success` (false) and the
`JSON encoding error` message. -/
def evaluateStrudelPattern (tbl : Char → Char) (patternStr : Str) : EvaluationResult :=
  match firstUnsupported (evaluationResult tbl patternStr).Events with
  | none => evaluationResult tbl patternStr
  | some f =>
    { Success := false, Pattern := zeroPattern, Events := [], Message := "",
      Error := "JSON encoding error: json: unsupported value: " ++ f.formatSpecial }

/-- A one-element pattern holding the open hi-hat alias, at 120 BPM. -/
def openhatPattern : StrudelPattern :=
  { Name := "unnamed".toList, Pattern := "oh".toList, BPM := 120, Cycle := 1,
    Elements := ["oh".toList] }

/-- The table `noteMap` of `noteToFrequency`. -/
def noteMap : List (Str × ℚ) :=
  [("c4".toList, 261.63), ("d4".toList, 293.66), ("e4".toList, 329.63), ("f4".toList, 349.23),
   ("g4".toList, 392.00), ("a4".toList, 440.00), ("b4".toList, 493.88),
   ("c5".toList, 523.25), ("d5".toList, 587.33), ("e5".toList, 659.25)]

/-- Go `noteToFrequency`. -/
def noteToFrequency (note : Str) : ℚ :=
  match noteMap.lookup note with
  | some freq => freq
  | none => 440.0

/-- The generator call that fills `buffer` in `playSound`. -/
inductive Waveform where
  | generateKick : Waveform
  | generateSnare : Waveform
  | generateHihat : Waveform
  | generateSynth : ℚ → Waveform
deriving DecidableEq

/-- The `switch instrument` of `playSound`. -/
def selectBuffer (instrument : String) (note : Str) : Waveform :=
  if instrument = "kick" then .generateKick
  else if instrument = "snare" then .generateSnare
  else if instrument = "hihat" then .generateHihat
  else if instrument = "synth" then .generateSynth (noteToFrequency note)
  else .generateKick

/-- Go `AudioEngine.playSound`, for one call under the engine lock: the buffer
that is chosen and the returned error (`none` for `nil`). `playerCreated` tells
whether the audio context returned a player for the buffer. -/
def playSound (playerCreated : Bool) (instrument : String) (note : Str) :
    Waveform × Option String :=
  if playerCreated then (selectBuffer instrument note, none)
  else (selectBuffer instrument note, some "failed to create audio player")

/-! ## Synthesis -/

/-- Constant `sampleRate`. -/
def sampleRate : Nat := 44100

/-- The sample count `int(float64(sampleRate) * duration)`. -/
def sampleCount (duration : F64) : Nat :=
  (F64.toInt (F64.mul (F64.ofNat sampleRate) duration)).toNat

/-- Conversion of a real sample value to an integer: truncation toward zero. -/
def truncInt {K : Type} [LinearOrderedField K] [FloorRing K] (x : K) : Int :=
  if 0 ≤ x then ⌊x⌋ else ⌈x⌉

/-- The four bytes written for one sample: `byte(value)`, `byte(value >> 8)`, twice. -/
def frameBytes (value : Int) : List Nat :=
  [(value % 256).toNat, ((value / 256) % 256).toNat,
   (value % 256).toNat, ((value / 256) % 256).toNat]

/-- The buffer of `samples * 4` bytes after the sample loop has run. -/
def pcmBuffer {K : Type} [LinearOrderedField K] [FloorRing K] (samples : Nat)
    (sample : Nat → K) : List Nat :=
  (List.range samples).flatMap (fun i => frameBytes (truncInt (sample i * 32767)))

/-- The sample of `generateKick` at index `i`. -/
noncomputable def kickSample (i : Nat) : ℝ :=
  Real.exp (-((i : ℝ) / (sampleRate : ℝ)) * 5)
    * Real.sin (2 * Real.pi * (60.0 * Real.exp (-((i : ℝ) / (sampleRate : ℝ)) * 8))
        * ((i : ℝ) / (sampleRate : ℝ)))
    * 0.5

/-- Go `generateKick`. -/
noncomputable def generateKick : List Nat :=
  pcmBuffer (sampleCount (F64.ofDecimal 5 1)) kickSample

/-- The sample of `generateSnare` at index `i`. -/
noncomputable def snareSample (i : Nat) : ℝ :=
  Real.exp (-((i : ℝ) / (sampleRate : ℝ)) * 15)
    * (0.7 * ((Real.sin ((i : ℝ) / (sampleRate : ℝ) * 12345)
                + Real.sin ((i : ℝ) / (sampleRate : ℝ) * 23456)
                + Real.sin ((i : ℝ) / (sampleRate : ℝ) * 34567)) / 3)
        + 0.3 * Real.sin (2 * Real.pi * 200 * ((i : ℝ) / (sampleRate : ℝ))))
    * 0.3

/-- Go `generateSnare`. -/
noncomputable def generateSnare : List Nat :=
  pcmBuffer (sampleCount (F64.ofDecimal 2 1)) snareSample

/-- The sample of `generateHihat` at index `i`. -/
noncomputable def hihatSample (i : Nat) : ℝ :=
  Real.exp (-((i : ℝ) / (sampleRate : ℝ)) * 25)
    * ((Real.sin ((i : ℝ) / (sampleRate : ℝ) * 54321)
          + Real.sin ((i : ℝ) / (sampleRate : ℝ) * 65432)
          + Real.sin ((i : ℝ) / (sampleRate : ℝ) * 76543)) / 3)
    * 0.2

/-- Go `generateHihat`. -/
noncomputable def generateHihat : List Nat :=
  pcmBuffer (sampleCount (F64.ofDecimal 1 1)) hihatSample

/-- The four arms of the envelope `if` chain in `generateSynth`. -/
inductive EnvelopeBranch where
  | attack : EnvelopeBranch
  | decay : EnvelopeBranch
  | sustain : EnvelopeBranch
  | release : EnvelopeBranch
deriving DecidableEq

/-- The arm of the envelope `if` chain taken at time `t`, with the chain read
over the reals. -/
def synthBranch {K : Type} [LinearOrderedField K] (t : K) : EnvelopeBranch :=
  if t < (0.05 : K) then .attack
  else if t < (0.05 : K) + 0.1 then .decay
  else if t < (0.3 : K) - 0.15 then .sustain
  else .release

/-- The sample time `float64(i) / float64(sampleRate)`. -/
def sampleTime (i : Nat) : F64 := F64.div (F64.ofNat i) (F64.ofNat sampleRate)

/-- The arm of the envelope `if` chain taken at the float64 time `t`, with the
thresholds `attack`, `attack + decay` and `duration - release` as float64
computes them. -/
def synthBranchF64 (t : F64) : EnvelopeBranch :=
  if F64.lt t (F64.ofDecimal 5 2) then .attack
  else if F64.lt t (F64.add (F64.ofDecimal 5 2) (F64.ofDecimal 1 1)) then .decay
  else if F64.lt t (F64.sub (F64.ofDecimal 3 1) (F64.ofDecimal 15 2)) then .sustain
  else .release

/-- The envelope of `generateSynth` at the float64 time `t`, in float64. -/
def synthEnvelopeF64 (t : F64) : F64 :=
  match synthBranchF64 t with
  | .attack => F64.div t (F64.ofDecimal 5 2)
  | .decay =>
    F64.sub (F64.ofDecimal 10 1)
      (F64.div
        (F64.mul (F64.sub (F64.ofDecimal 10 1) (F64.ofDecimal 5 1))
          (F64.sub t (F64.ofDecimal 5 2)))
        (F64.ofDecimal 1 1))
  | .sustain => F64.ofDecimal 5 1
  | .release =>
    F64.div (F64.mul (F64.ofDecimal 5 1) (F64.sub (F64.ofDecimal 3 1) t))
      (F64.ofDecimal 15 2)

/-- The envelope of `generateSynth` at time `t`. -/
def synthEnvelope {K : Type} [LinearOrderedField K] (t : K) : K :=
  match synthBranch t with
  | .attack => t / 0.05
  | .decay => 1.0 - (1.0 - 0.5) * (t - 0.05) / 0.1
  | .sustain => 0.5
  | .release => 0.5 * (0.3 - t) / 0.15

/-- The saw wave of `generateSynth`. -/
def sawWave {K : Type} [LinearOrderedField K] [FloorRing K] (frequency t : K) : K :=
  2.0 * (frequency * t - (⌊frequency * t⌋ : K)) - 1.0

/-- The sample of `generateSynth` at index `i`. -/
def synthSample {K : Type} [LinearOrderedField K] [FloorRing K] (frequency : K) (i : Nat) : K :=
  synthEnvelope ((i : K) / (sampleRate : K)) * sawWave frequency ((i : K) / (sampleRate : K)) * 0.2

/-- Go `generateSynth`. -/
def generateSynth {K : Type} [LinearOrderedField K] [FloorRing K] (frequency : K) : List Nat :=
  pcmBuffer (sampleCount (F64.ofDecimal 3 1)) (synthSample frequency)

/-- The buffer a generator call returns. -/
noncomputable def Waveform.buffer : Waveform → List Nat
  | .generateKick => Strudel.generateKick
  | .generateSnare => Strudel.generateSnare
  | .generateHihat => Strudel.generateHihat
  | .generateSynth frequency => Strudel.generateSynth (frequency : ℝ)

/-! # Theorems -/

/-! ## Facts about the character classes -/

theorem reWord_not_reSpace {c : Char} (h : reWord c = true) : reSpace c = false := by
  simp only [reWord, reSpace, inRange, Bool.or_eq_true, Bool.and_eq_true, decide_eq_true_eq,
    Bool.or_eq_false_iff, Bool.and_eq_false_iff, decide_eq_false_iff_not] at *
  omega

theorem reWord_not_unicodeIsSpace {c : Char} (h : reWord c = true) : unicodeIsSpace c = false := by
  simp only [reWord, unicodeIsSpace, inRange, Bool.or_eq_true, Bool.and_eq_true, decide_eq_true_eq,
    Bool.or_eq_false_iff, Bool.and_eq_false_iff, decide_eq_false_iff_not] at *
  omega

theorem reWord_not_reDollar {c : Char} (h : reWord c = true) : reDollar c = false := by
  simp only [reWord, reDollar, inRange, Bool.or_eq_true, Bool.and_eq_true, decide_eq_true_eq,
    Bool.or_eq_false_iff, Bool.and_eq_false_iff, decide_eq_false_iff_not] at *
  omega

theorem reSpace_not_reDollar {c : Char} (h : reSpace c = true) : reDollar c = false := by
  simp only [reSpace, reDollar, inRange, Bool.or_eq_true, Bool.and_eq_true, decide_eq_true_eq,
    Bool.or_eq_false_iff, Bool.and_eq_false_iff, decide_eq_false_iff_not] at *
  omega

theorem reSpace_not_reDigit {c : Char} (h : reSpace c = true) : reDigit c = false := by
  simp only [reSpace, reDigit, inRange, Bool.or_eq_true, Bool.and_eq_true, decide_eq_true_eq,
    Bool.or_eq_false_iff, Bool.and_eq_false_iff, decide_eq_false_iff_not] at *
  omega

theorem reSpace_unicodeIsSpace {c : Char} (h : reSpace c = true) : unicodeIsSpace c = true := by
  simp only [reSpace, unicodeIsSpace, inRange, Bool.or_eq_true, Bool.and_eq_true,
    decide_eq_true_eq] at *
  omega

theorem reWord_not_reQuote {c : Char} (h : reWord c = true) : reQuote c = false := by
  simp only [reWord, reQuote, inRange, Bool.or_eq_true, Bool.and_eq_true, decide_eq_true_eq,
    Bool.or_eq_false_iff, Bool.and_eq_false_iff, decide_eq_false_iff_not] at *
  omega

/-! ## Facts about the matcher -/

/-- When the continuation rejects every text that starts with a rune of the
class, the greedy repetition consumes the maximal run and never backtracks. -/
theorem starGreedy_max (p : Char → Bool) (k : Cont)
    (hk : ∀ pos c s caps, p c = true → k pos (c :: s) caps = none)
    (pos : Nat) (s : Str) (caps : List (Nat × Nat)) :
    starGreedy p k pos s caps = k (pos + (s.takeWhile p).length) (s.dropWhile p) caps := by
  induction s generalizing pos with
  | nil => simp [starGreedy]
  | cons c s ih =>
    by_cases hc : p c = true
    · simp only [starGreedy, hc, if_true, List.takeWhile_cons_of_pos, List.dropWhile_cons_of_pos,
        List.length_cons]
      rw [ih (pos + 1)]
      have e : pos + 1 + (List.takeWhile p s).length = pos + ((List.takeWhile p s).length + 1) := by
        omega
      rw [e]
      cases h : k (pos + ((List.takeWhile p s).length + 1)) (List.dropWhile p s) caps with
      | some r => rfl
      | none => simpa using hk pos c s caps hc
    · simp [starGreedy, hc]

/-- When the continuation accepts after the maximal run, that is the result. -/
theorem starGreedy_of_some (p : Char → Bool) (k : Cont) (pos : Nat) (s : Str)
    (caps : List (Nat × Nat)) (r : MatchEnd)
    (h : k (pos + (s.takeWhile p).length) (s.dropWhile p) caps = some r) :
    starGreedy p k pos s caps = some r := by
  induction s generalizing pos with
  | nil => simpa [starGreedy] using h
  | cons c s ih =>
    by_cases hc : p c = true
    · simp only [List.takeWhile_cons_of_pos, List.dropWhile_cons_of_pos, hc,
        List.length_cons] at h
      have e : pos + 1 + (List.takeWhile p s).length = pos + ((List.takeWhile p s).length + 1) := by
        omega
      simp only [starGreedy, hc, if_true]
      rw [ih (pos + 1) (by rw [e]; exact h)]
    · simpa [starGreedy, hc] using h

theorem takeWhile_append_stop {p : Char → Bool} (x rest : Str) (hx : ∀ c ∈ x, p c = true)
    (hr : ∀ c ∈ rest.head?, p c = false) : (x ++ rest).takeWhile p = x := by
  induction x with
  | nil =>
    cases rest with
    | nil => rfl
    | cons c r => simp [List.takeWhile, hr c (by simp)]
  | cons a x ih =>
    simp [List.takeWhile, hx a (by simp), ih (fun c hc => hx c (by simp [hc]))]

theorem dropWhile_append_stop {p : Char → Bool} (x rest : Str) (hx : ∀ c ∈ x, p c = true)
    (hr : ∀ c ∈ rest.head?, p c = false) : (x ++ rest).dropWhile p = rest := by
  induction x with
  | nil =>
    cases rest with
    | nil => rfl
    | cons c r => simp [List.dropWhile, hr c (by simp)]
  | cons a x ih =>
    simp [List.dropWhile, hx a (by simp), ih (fun c hc => hx c (by simp [hc]))]

/-- A pattern anchored with `^` cannot match after the beginning of the text. -/
theorem searchFrom_bot (rs : List Re) (pos : Nat) (s : Str) :
    searchFrom (.bot :: rs) (pos + 1) s = none := by
  induction s generalizing pos with
  | nil => simp [searchFrom, matchAt, runSeq, Re.run]
  | cons c s ih => simp [searchFrom, matchAt, runSeq, Re.run, ih]

theorem searchFrom_bot_zero (rs : List Re) (s : Str) :
    searchFrom (.bot :: rs) 0 s = (matchAt (.bot :: rs) 0 s).map (fun m => (0, m)) := by
  cases s with
  | nil => simp [searchFrom]
  | cons c s =>
    simp only [searchFrom, searchFrom_bot]
    cases matchAt (.bot :: rs) 0 (c :: s) <;> rfl

/-! ## The classifier -/

theorem matchString_noteRegex (l : Str) : matchString noteRegex l = noteShape l := by
  unfold matchString noteRegex
  rw [searchFrom_bot_zero]
  match l with
  | [] => simp [matchAt, runSeq, Re.run, noteShape]
  | [x] =>
    by_cases hx : reNoteLetter x = true <;> simp [matchAt, runSeq, Re.run, noteShape, hx]
  | [x, y] =>
    by_cases hx : reNoteLetter x = true <;> by_cases hy : reAccidental y = true <;>
      by_cases hd : reDigit y = true <;> simp [matchAt, runSeq, Re.run, noteShape, hx, hy, hd]
  | [x, y, z] =>
    by_cases hx : reNoteLetter x = true <;> by_cases hy : reAccidental y = true <;>
      by_cases hd : reDigit y = true <;> by_cases hz : reDigit z = true <;>
      simp [matchAt, runSeq, Re.run, noteShape, hx, hy, hd, hz]
  | x :: y :: z :: w :: r =>
    by_cases hx : reNoteLetter x = true <;> by_cases hy : reAccidental y = true <;>
      by_cases hd : reDigit y = true <;> by_cases hz : reDigit z = true <;>
      simp [matchAt, runSeq, Re.run, noteShape, hx, hy, hd, hz]

theorem lookup_cons_ite (k a : Str) (b : String) (es : List (Str × String)) :
    List.lookup k ((a, b) :: es) = if k = a then some b else List.lookup k es := by
  by_cases h : k = a
  · subst h; simp [List.lookup]
  · have : (k == a) = false := by simpa using h
    simp [List.lookup, this, h]

theorem ite_or_split {α : Type} (a b : Prop) [Decidable a] [Decidable b] (x y : α) :
    (if a ∨ b then x else y) = if a then x else if b then x else y := by
  by_cases ha : a <;> by_cases hb : b <;> simp [ha, hb]

theorem getD_ite_some (c : Prop) [Decidable c] (a d : String) (e : Option String) :
    (if c then some a else e).getD d = if c then a else e.getD d := by
  by_cases h : c <;> simp [h]

theorem detectInstrument_getD (tbl : Char → Char) (t : Str) :
    detectInstrument tbl t =
      (drumMap.lookup (toLower tbl t)).getD
        (if noteShape (toLower tbl t) then "synth" else "sample") := by
  unfold detectInstrument
  rw [matchString_noteRegex]
  cases drumMap.lookup (toLower tbl t) <;> rfl

/-- C4: `detectInstrument` is total and agrees with the reference classifier on
every token (alias table on the lower-cased token, then the note-name shape giving
`synth`, otherwise `sample`); in particular `c#4` is `synth` and `xyz` is `sample`. -/
theorem detectInstrument_eq_classifyRef (tbl : Char → Char) (t : Str) :
    detectInstrument tbl t = classifyRef tbl t ∧
    detectInstrument tbl "c#4".toList = "synth" ∧
    detectInstrument tbl "xyz".toList = "sample" := by
  refine ⟨?_, rfl, rfl⟩
  rw [detectInstrument_getD]
  unfold classifyRef
  simp only [drumMap, lookup_cons_ite, List.lookup_nil, ite_or_split, getD_ite_some,
    Option.getD_none]

/-! ## Accuracy of the float64 rounding -/

theorem log2Loop_spec (fuel : Nat) : ∀ n, 1 ≤ n → n ≤ fuel →
    2 ^ log2Loop fuel n ≤ n ∧ n < 2 ^ (log2Loop fuel n + 1) := by
  induction fuel with
  | zero => intro n h1 h2; omega
  | succ fuel ih =>
    intro n h1 h2
    unfold log2Loop
    by_cases hn : n < 2
    · rw [if_pos hn]
      have : n = 1 := by omega
      subst this
      decide
    · rw [if_neg hn]
      have hd1 : 1 ≤ n / 2 := by omega
      have hd2 : n / 2 ≤ fuel := by omega
      obtain ⟨hlo, hhi⟩ := ih (n / 2) hd1 hd2
      constructor
      · rw [pow_succ]
        omega
      · rw [pow_succ] at hhi ⊢
        omega

theorem floorLog2_spec (n : Nat) (h : 1 ≤ n) :
    2 ^ floorLog2 n ≤ n ∧ n < 2 ^ (floorLog2 n + 1) :=
  log2Loop_spec n n h (Nat.le_refl n)

theorem two_zpow_toNat (z : Int) :
    (2 : ℚ) ^ z.toNat / (2 : ℚ) ^ (-z).toNat = (2 : ℚ) ^ z := by
  by_cases hz : 0 ≤ z
  · have h1 : (-z).toNat = 0 := by omega
    rw [h1, pow_zero, div_one]
    conv_rhs => rw [← Int.toNat_of_nonneg hz]
    rw [zpow_natCast]
  · have h1 : z.toNat = 0 := by omega
    have h2 : ((-z).toNat : Int) = -z := Int.toNat_of_nonneg (by omega)
    rw [h1, pow_zero, one_div]
    have : z = -((-z).toNat : Int) := by omega
    conv_rhs => rw [this]
    rw [zpow_neg, zpow_natCast]

/-- The binary exponent chosen for `p / q` is not above its logarithm. -/
theorem floorLog2Ratio_le (p q : Nat) (hp : 0 < p) (hq : 0 < q) :
    (2 : ℚ) ^ floorLog2Ratio p q ≤ (p : ℚ) / (q : ℚ) := by
  have hq' : (0 : ℚ) < (q : ℚ) := by exact_mod_cast hq
  have hp' : (0 : ℚ) < (p : ℚ) := by exact_mod_cast hp
  unfold floorLog2Ratio
  by_cases h1 : q ≤ p
  · rw [if_pos h1, zpow_natCast, le_div_iff₀ hq']
    have hk : 1 ≤ p / q := (Nat.one_le_div_iff hq).mpr h1
    have h2 := (floorLog2_spec (p / q) hk).1
    have h3 : 2 ^ floorLog2 (p / q) * q ≤ p :=
      le_trans (Nat.mul_le_mul_right q h2) (Nat.div_mul_le_self p q)
    exact_mod_cast h3
  · rw [if_neg h1]
    have hk : 1 ≤ q / p := (Nat.one_le_div_iff hp).mpr (by omega)
    obtain ⟨_, hhi⟩ := floorLog2_spec (q / p) hk
    by_cases h2 : q ≤ p * 2 ^ floorLog2 (q / p)
    · rw [if_pos h2, zpow_neg, zpow_natCast, le_div_iff₀ hq', inv_mul_le_iff₀ (by positivity)]
      rw [mul_comm]
      exact_mod_cast h2
    · rw [if_neg h2]
      have e : -(floorLog2 (q / p) : Int) - 1 = -((floorLog2 (q / p) + 1 : Nat) : Int) := by
        push_cast; ring
      rw [e, zpow_neg, zpow_natCast, le_div_iff₀ hq', inv_mul_le_iff₀ (by positivity)]
      have h3 : q < p * 2 ^ (floorLog2 (q / p) + 1) := by
        have h4 : q < p * (q / p + 1) := Nat.lt_mul_div_succ q hp
        have h5 : p * (q / p + 1) ≤ p * 2 ^ (floorLog2 (q / p) + 1) :=
          Nat.mul_le_mul_left p hhi
        omega
      rw [mul_comm]
      exact_mod_cast h3.le

/-- Rounding to the nearest integer is off by at most one half. -/
theorem roundHalfEven_err (n d : Nat) (hd : 0 < d) :
    |((roundHalfEven n d : Nat) : ℚ) - (n : ℚ) / (d : ℚ)| ≤ 1 / 2 := by
  have hd' : (0 : ℚ) < (d : ℚ) := by exact_mod_cast hd
  have hdiv : (n : ℚ) / d = ((n / d : Nat) : ℚ) + ((n % d : Nat) : ℚ) / d := by
    have h := Nat.div_add_mod n d
    have h' : (n : ℚ) = (d : ℚ) * ((n / d : Nat) : ℚ) + ((n % d : Nat) : ℚ) := by
      exact_mod_cast h.symm
    field_simp
    rw [h']
    ring
  have hmod : n % d < d := Nat.mod_lt n hd
  have hr0 : (0 : ℚ) ≤ ((n % d : Nat) : ℚ) / d := by positivity
  have hup : |((n / d + 1 : Nat) : ℚ) - (n : ℚ) / d| ≤ 1 / 2 ↔
      (d : ℚ) ≤ 2 * ((n % d : Nat) : ℚ) := by
    rw [hdiv]
    push_cast
    have e : ((n / d : Nat) : ℚ) + 1 - (((n / d : Nat) : ℚ) + ((n % d : Nat) : ℚ) / d)
        = 1 - ((n % d : Nat) : ℚ) / d := by ring
    have hlt : ((n % d : Nat) : ℚ) / d < 1 := by
      rw [div_lt_one hd']
      exact_mod_cast hmod
    rw [e, abs_of_nonneg (by linarith)]
    constructor
    · intro h
      have : (1 : ℚ) / 2 ≤ ((n % d : Nat) : ℚ) / d := by linarith
      rw [le_div_iff₀ hd'] at this
      linarith
    · intro h
      have : (1 : ℚ) / 2 ≤ ((n % d : Nat) : ℚ) / d := by
        rw [le_div_iff₀ hd']
        linarith
      linarith
  have hdown : |((n / d : Nat) : ℚ) - (n : ℚ) / d| ≤ 1 / 2 ↔
      2 * ((n % d : Nat) : ℚ) ≤ (d : ℚ) := by
    rw [hdiv]
    have e : ((n / d : Nat) : ℚ) - (((n / d : Nat) : ℚ) + ((n % d : Nat) : ℚ) / d)
        = -(((n % d : Nat) : ℚ) / d) := by ring
    rw [e, abs_neg, abs_of_nonneg hr0, div_le_iff₀ hd']
    constructor <;> intro h <;> linarith
  unfold roundHalfEven
  by_cases h1 : 2 * (n % d) < d
  · rw [if_pos h1, hdown]
    exact_mod_cast h1.le
  · rw [if_neg h1]
    by_cases h2 : d < 2 * (n % d)
    · rw [if_pos h2, hup]
      exact_mod_cast h2.le
    · rw [if_neg h2]
      have h3 : 2 * (n % d) = d := by omega
      by_cases h4 : (n / d) % 2 = 0
      · rw [if_pos h4, hdown]
        exact_mod_cast h3.le
      · rw [if_neg h4, hup]
        exact_mod_cast h3.ge

/-- Rounding a positive ratio to float64 has relative error at most `2 ^ (-53)`. -/
theorem roundRatio_err (p q : Nat) (hp : 0 < p) (hq : 0 < q) :
    |(roundRatio p q).toRat - (p : ℚ) / (q : ℚ)| ≤ (p : ℚ) / (q : ℚ) * (2 : ℚ) ^ (-53 : Int) := by
  have hq' : (0 : ℚ) < (q : ℚ) := by exact_mod_cast hq
  have hp' : (0 : ℚ) < (p : ℚ) := by exact_mod_cast hp
  have hlow := floorLog2Ratio_le p q hp hq
  have hD : 0 < q * 2 ^ (floorLog2Ratio p q - 52).toNat := by positivity
  have herr := roundHalfEven_err (p * 2 ^ (52 - floorLog2Ratio p q).toNat)
    (q * 2 ^ (floorLog2Ratio p q - 52).toNat) hD
  have hscale : ((p * 2 ^ (52 - floorLog2Ratio p q).toNat : Nat) : ℚ)
      / ((q * 2 ^ (floorLog2Ratio p q - 52).toNat : Nat) : ℚ)
      = (p : ℚ) / (q : ℚ) * (2 : ℚ) ^ (52 - floorLog2Ratio p q) := by
    have h := two_zpow_toNat (52 - floorLog2Ratio p q)
    have e : -(52 - floorLog2Ratio p q) = floorLog2Ratio p q - 52 := by ring
    rw [e] at h
    rw [← h]
    push_cast
    field_simp
  rw [hscale] at herr
  have hpos : (0 : ℚ) < (2 : ℚ) ^ (floorLog2Ratio p q - 52) := by positivity
  have hval : (roundRatio p q).toRat - (p : ℚ) / (q : ℚ) =
      (((roundHalfEven (p * 2 ^ (52 - floorLog2Ratio p q).toNat)
          (q * 2 ^ (floorLog2Ratio p q - 52).toNat) : Nat) : ℚ)
        - (p : ℚ) / (q : ℚ) * (2 : ℚ) ^ (52 - floorLog2Ratio p q))
        * (2 : ℚ) ^ (floorLog2Ratio p q - 52) := by
    unfold roundRatio F64.toRat
    rw [if_neg (by omega : ¬ p = 0)]
    simp only [Int.cast_natCast]
    rw [sub_mul, mul_assoc, ← zpow_add₀ (by norm_num : (2 : ℚ) ≠ 0)]
    have e : 52 - floorLog2Ratio p q + (floorLog2Ratio p q - 52) = 0 := by ring
    rw [e, zpow_zero, mul_one]
  rw [hval, abs_mul, abs_of_pos hpos]
  calc _ ≤ 1 / 2 * (2 : ℚ) ^ (floorLog2Ratio p q - 52) :=
        mul_le_mul_of_nonneg_right herr hpos.le
    _ = (2 : ℚ) ^ floorLog2Ratio p q * (2 : ℚ) ^ (-53 : Int) := by
        rw [← zpow_add₀ (by norm_num : (2 : ℚ) ≠ 0)]
        have e : floorLog2Ratio p q + (-53) = (floorLog2Ratio p q - 52) + (-1) := by ring
        rw [e, zpow_add₀ (by norm_num : (2 : ℚ) ≠ 0)]
        norm_num
        ring
    _ ≤ (p : ℚ) / (q : ℚ) * (2 : ℚ) ^ (-53 : Int) :=
        mul_le_mul_of_nonneg_right hlow (by positivity)

theorem f64_toRat_scaled (a : F64) (m : Int) (h : m ≤ a.exp) :
    a.toRat = (((a.sig * 2 ^ (a.exp - m).toNat : Int) : ℚ)) * (2 : ℚ) ^ m := by
  unfold F64.toRat
  push_cast
  rw [mul_assoc]
  congr 1
  have h1 : ((a.exp - m).toNat : Int) = a.exp - m := Int.toNat_of_nonneg (by omega)
  rw [← zpow_natCast, h1, ← zpow_add₀ (by norm_num : (2 : ℚ) ≠ 0)]
  congr 1
  ring

/-- The comparison of finite float64 values is the comparison of their values. -/
theorem f64_lt_iff (a b : F64) : F64.lt a b = true ↔ a.toRat < b.toRat := by
  unfold F64.lt
  rw [decide_eq_true_iff, f64_toRat_scaled a (min a.exp b.exp) (min_le_left _ _),
    f64_toRat_scaled b (min a.exp b.exp) (min_le_right _ _)]
  have hpos : (0 : ℚ) < (2 : ℚ) ^ (min a.exp b.exp) := by positivity
  rw [mul_lt_mul_right hpos]
  exact Int.cast_lt.symm

theorem roundRatio_pos (p q : Nat) (hp : 0 < p) (hq : 0 < q) : 0 < (roundRatio p q).toRat := by
  have h := roundRatio_err p q hp hq
  have hq' : (0 : ℚ) < (q : ℚ) := by exact_mod_cast hq
  have hp' : (0 : ℚ) < (p : ℚ) := by exact_mod_cast hp
  have hx : (0 : ℚ) < (p : ℚ) / q := by positivity
  have hu : (2 : ℚ) ^ (-53 : Int) < 1 := by norm_num
  have := (abs_le.mp h).1
  nlinarith

theorem f64_sig_pos_iff (a : F64) : 0 < a.sig ↔ 0 < a.toRat := by
  unfold F64.toRat
  have hpos : (0 : ℚ) < (2 : ℚ) ^ a.exp := by positivity
  rw [mul_pos_iff_of_pos_right hpos]
  exact Int.cast_pos.symm

theorem roundRatio_sig_pos (p q : Nat) (hp : 0 < p) (hq : 0 < q) : 0 < (roundRatio p q).sig :=
  (f64_sig_pos_iff _).mpr (roundRatio_pos p q hp hq)

/-- Integers below `2 ^ 53` convert to float64 exactly. -/
theorem f64_ofNat_exact (i : Nat) (h : i < 2 ^ 53) : (F64.ofNat i).toRat = (i : ℚ) := by
  unfold F64.ofNat
  by_cases hi : i = 0
  · subst hi
    simp [roundRatio, F64.toRat]
  · have h1 : 1 ≤ i := Nat.pos_of_ne_zero hi
    have hL : floorLog2Ratio i 1 = (floorLog2 i : Int) := by
      unfold floorLog2Ratio
      rw [if_pos h1, Nat.div_one]
    have hlt : floorLog2 i < 53 := by
      have h2 := (floorLog2_spec i h1).1
      by_contra hc
      have : 2 ^ 53 ≤ 2 ^ floorLog2 i := Nat.pow_le_pow_right (by norm_num) (by omega)
      omega
    unfold roundRatio
    rw [if_neg hi, hL]
    have e1 : ((floorLog2 i : Int) - 52).toNat = 0 := by omega
    have e2 : (52 - (floorLog2 i : Int)).toNat = 52 - floorLog2 i := by omega
    rw [e1, e2]
    have e3 : roundHalfEven (i * 2 ^ (52 - floorLog2 i)) (1 * 2 ^ 0)
        = i * 2 ^ (52 - floorLog2 i) := by
      unfold roundHalfEven
      rw [Nat.pow_zero, Nat.mul_one, Nat.mod_one, Nat.div_one, if_pos (by norm_num)]
    rw [e3]
    unfold F64.toRat
    simp only
    push_cast
    rw [mul_assoc, ← zpow_natCast, ← zpow_add₀ (by norm_num : (2 : ℚ) ≠ 0)]
    have e4 : ((52 - floorLog2 i : Nat) : Int) + ((floorLog2 i : Int) - 52) = 0 := by omega
    rw [e4, zpow_zero, mul_one]

theorem f64_ofNat_sig_pos (i : Nat) (h : 0 < i) : 0 < (F64.ofNat i).sig :=
  roundRatio_sig_pos i 1 h (by norm_num)

theorem f64_ofInt_sig_pos (z : Int) (h : 0 < z) : 0 < (F64.ofInt z).sig := by
  unfold F64.ofInt
  rw [if_pos h.le]
  exact roundRatio_sig_pos _ 1 (by omega) (by norm_num)

/-- Conversion of a positive integer to float64 has relative error at most `2 ^ (-53)`. -/
theorem f64_ofInt_err (z : Int) (h : 0 < z) :
    |(F64.ofInt z).toRat - (z : ℚ)| ≤ (z : ℚ) * (2 : ℚ) ^ (-53 : Int) := by
  unfold F64.ofInt
  rw [if_pos h.le]
  have h1 := roundRatio_err z.toNat 1 (by omega) (by norm_num)
  have e : ((z.toNat : Nat) : ℚ) = (z : ℚ) := by
    have : ((z.toNat : Nat) : Int) = z := Int.toNat_of_nonneg h.le
    exact_mod_cast this
  rw [Nat.cast_one, div_one, e] at h1
  exact h1

theorem natAbs_cast_of_pos (z : Int) (h : 0 < z) : ((z.natAbs : Nat) : ℚ) = (z : ℚ) := by
  have h1 : ((z.natAbs : Nat) : Int) = z := Int.natAbs_of_nonneg h.le
  have h2 : (((z.natAbs : Nat) : Int) : ℚ) = (z : ℚ) := by rw [h1]
  rw [← h2, Int.cast_natCast]

theorem two_pow_toNat_sub (x y : Int) :
    (2 : ℚ) ^ (x - y).toNat / (2 : ℚ) ^ (y - x).toNat = (2 : ℚ) ^ x / (2 : ℚ) ^ y := by
  have h := two_zpow_toNat (x - y)
  have e : -(x - y) = y - x := by ring
  rw [e] at h
  rw [h, zpow_sub₀ (by norm_num : (2 : ℚ) ≠ 0)]

theorem f64_div_scaled (a b : F64) (ha : 0 < a.sig) (hb : 0 < b.sig) :
    ((a.sig.natAbs * 2 ^ (a.exp - b.exp).toNat : Nat) : ℚ)
        / ((b.sig.natAbs * 2 ^ (b.exp - a.exp).toNat : Nat) : ℚ)
      = a.toRat / b.toRat := by
  have hb' : (0 : ℚ) < (b.sig : ℚ) := by exact_mod_cast hb
  push_cast
  rw [natAbs_cast_of_pos _ ha, natAbs_cast_of_pos _ hb, mul_div_mul_comm, two_pow_toNat_sub]
  unfold F64.toRat
  rw [mul_div_mul_comm]

/-- Division of positive float64 values has relative error at most `2 ^ (-53)`. -/
theorem f64_div_err (a b : F64) (ha : 0 < a.sig) (hb : 0 < b.sig) :
    |(F64.div a b).toRat - a.toRat / b.toRat| ≤ a.toRat / b.toRat * (2 : ℚ) ^ (-53 : Int) := by
  have hs : decide (a.sig < 0) = decide (b.sig < 0) := by
    rw [decide_eq_false (by omega), decide_eq_false (by omega)]
  unfold F64.div
  rw [if_pos hs, ← f64_div_scaled a b ha hb]
  exact roundRatio_err _ _ (by positivity) (by positivity)

theorem f64_div_sig_pos (a b : F64) (ha : 0 < a.sig) (hb : 0 < b.sig) :
    0 < (F64.div a b).sig := by
  have hs : decide (a.sig < 0) = decide (b.sig < 0) := by
    rw [decide_eq_false (by omega), decide_eq_false (by omega)]
  unfold F64.div
  rw [if_pos hs]
  exact roundRatio_sig_pos _ _ (by positivity) (by positivity)

theorem f64_mul_scaled (a b : F64) (ha : 0 < a.sig) (hb : 0 < b.sig) :
    (((a.sig * b.sig).toNat * 2 ^ (a.exp + b.exp).toNat : Nat) : ℚ)
        / ((2 ^ (-(a.exp + b.exp)).toNat : Nat) : ℚ)
      = a.toRat * b.toRat := by
  have hab : 0 < a.sig * b.sig := Int.mul_pos ha hb
  have e : (((a.sig * b.sig).toNat : Nat) : ℚ) = (a.sig : ℚ) * (b.sig : ℚ) := by
    have : (((a.sig * b.sig).toNat : Nat) : Int) = a.sig * b.sig := Int.toNat_of_nonneg hab.le
    exact_mod_cast this
  push_cast
  rw [e, mul_div_assoc, two_zpow_toNat, zpow_add₀ (by norm_num : (2 : ℚ) ≠ 0)]
  unfold F64.toRat
  ring

/-- Multiplication of positive float64 values has relative error at most `2 ^ (-53)`. -/
theorem f64_mul_err (a b : F64) (ha : 0 < a.sig) (hb : 0 < b.sig) :
    |(F64.mul a b).toRat - a.toRat * b.toRat| ≤ a.toRat * b.toRat * (2 : ℚ) ^ (-53 : Int) := by
  have hab : 0 < a.sig * b.sig := Int.mul_pos ha hb
  unfold F64.mul roundDyadic
  rw [if_pos hab.le, ← f64_mul_scaled a b ha hb]
  have hn : 0 < (a.sig * b.sig).toNat := by omega
  exact roundRatio_err _ _ (by positivity) (by positivity)

theorem f64_mul_sig_pos (a b : F64) (ha : 0 < a.sig) (hb : 0 < b.sig) :
    0 < (F64.mul a b).sig := by
  have hab : 0 < a.sig * b.sig := Int.mul_pos ha hb
  unfold F64.mul roundDyadic
  rw [if_pos hab.le]
  refine roundRatio_sig_pos _ _ ?_ (by positivity)
  have : 0 < (a.sig * b.sig).toNat := by omega
  positivity

theorem f64_mul_comm (a b : F64) : F64.mul a b = F64.mul b a := by
  unfold F64.mul
  rw [Int.mul_comm, Int.add_comm]

theorem float64_zero_comm (a b : Bool) : Float64.zero (a != b) = Float64.zero (b != a) := by
  cases a <;> cases b <;> rfl

/-- Float64 multiplication is commutative. -/
theorem float64_mul_comm (x y : Float64) : Float64.mul x y = Float64.mul y x := by
  cases x with
  | fin a =>
    cases y with
    | fin b =>
      simp only [Float64.mul]
      rw [f64_mul_comm a b, float64_zero_comm]
      by_cases h : a.sig = 0 ∨ b.sig = 0
      · rw [if_pos h, if_pos (Or.symm h)]
      · rw [if_neg h, if_neg (fun h2 => h (Or.symm h2))]
    | negZero => simp [Float64.mul, Float64.signBit, float64_zero_comm]
    | inf s => simp [Float64.mul, Float64.signBit, Float64.isZero, Bool.xor_comm]
    | nan => simp [Float64.mul]
  | negZero =>
    cases y with
    | fin b => simp [Float64.mul, Float64.signBit, float64_zero_comm]
    | negZero => simp [Float64.mul]
    | inf s => simp [Float64.mul, Float64.signBit, Float64.isZero, Bool.xor_comm]
    | nan => simp [Float64.mul]
  | inf r =>
    cases y with
    | fin b => simp [Float64.mul, Float64.signBit, Float64.isZero, Bool.xor_comm]
    | negZero => simp [Float64.mul, Float64.signBit, Float64.isZero, Bool.xor_comm]
    | inf s => simp [Float64.mul, Float64.signBit, Float64.isZero, Bool.xor_comm]
    | nan => simp [Float64.mul]
  | nan => cases y <;> simp [Float64.mul]

/-! ## The scheduler -/

theorem playableIndices_cons (e : Str) (es : List Str) :
    playableIndices (e :: es) =
      (if isRest e then [] else [0]) ++ (playableIndices es).map (· + 1) := by
  unfold playableIndices
  rw [List.length_cons, List.range_succ_eq_map, List.filter_cons, List.filter_map]
  by_cases h : isRest e = true
  · simp [h, Function.comp_def]
  · simp [h, Function.comp_def]

theorem playableIndices_pairwise (els : List Str) : (playableIndices els).Pairwise (· < ·) :=
  List.Pairwise.filter _ (List.pairwise_lt_range _)

theorem mem_playableIndices (els : List Str) (i : Nat) :
    i ∈ playableIndices els ↔ i < els.length ∧ isRest (els.getD i []) = false := by
  simp [playableIndices]

theorem count_playableIndices (els : List Str) (i : Nat) :
    (playableIndices els).count i =
      if i < els.length ∧ isRest (els.getD i []) = false then 1 else 0 := by
  have hnd : (playableIndices els).Nodup := (List.nodup_range _).filter _
  rw [List.count_eq_of_nodup hnd]
  simp only [mem_playableIndices]

theorem playableIndices_of_no_rest (els : List Str) (h : ∀ e ∈ els, isRest e = false) :
    playableIndices els = List.range els.length := by
  unfold playableIndices
  rw [List.filter_eq_self]
  intro i hi
  have hi' : i < els.length := List.mem_range.mp hi
  have : els.getD i [] ∈ els := by
    rw [List.getD_eq_getElem _ _ hi']
    exact List.getElem_mem _
  rw [h _ this]; rfl

theorem chain_playableIndices (els : List Str) :
    (playableIndices els).Chain' (· < ·) :=
  List.Pairwise.chain' (playableIndices_pairwise els)

theorem eventsLoop_eq (tbl : Char → Char) (step : Float64) (es : List Str) (i : Nat)
    (acc : List AudioEvent) :
    eventsLoop tbl step i es acc =
      acc ++ (playableIndices es).map (fun j =>
        ({ Instrument := detectInstrument tbl (es.getD j [])
           Note := es.getD j []
           Velocity := Float64.ofDecimal 8 1
           Duration := Float64.mul step (Float64.ofDecimal 9 1)
           Time := Float64.mul (Float64.ofNat (i + j)) step } : AudioEvent)) := by
  induction es generalizing i acc with
  | nil => simp [eventsLoop, playableIndices]
  | cons e es ih =>
    rw [playableIndices_cons]
    by_cases h : e = "~".toList ∨ e = []
    · have hr : isRest e = true := decide_eq_true h
      simp only [eventsLoop, h, if_true, hr, List.nil_append, List.map_map, ih]
      congr 1
      apply List.map_congr_left
      intro j _
      simp [Function.comp_def, Nat.add_assoc, Nat.add_comm 1 j]
    · have hr : isRest e = false := decide_eq_false h
      simp only [eventsLoop, h, if_false, hr, List.map_append, List.map_map, ih,
        List.append_assoc, Bool.false_eq_true]
      congr 1
      simp only [List.map_cons, List.map_nil, List.singleton_append, List.getD_cons_zero,
        Nat.add_zero, List.cons.injEq, true_and]
      apply List.map_congr_left
      intro j _
      simp [Function.comp_def, Nat.add_assoc, Nat.add_comm 1 j]

theorem generateAudioEvents_eq (tbl : Char → Char) (p : StrudelPattern) :
    generateAudioEvents tbl p =
      (playableIndices p.Elements).map (fun i =>
        eventAt tbl p.BPM p.Elements.length i (p.Elements.getD i [])) := by
  unfold generateAudioEvents
  by_cases h : p.Elements.length = 0
  · have : p.Elements = [] := List.length_eq_zero.mp h
    simp [this, playableIndices]
  · simp only [h, if_false, eventsLoop_eq, List.nil_append]
    apply List.map_congr_left
    intro j _
    simp only [eventAt, Nat.zero_add, stepDuration]
    rw [float64_mul_comm (Float64.ofDecimal 9 1)]

theorem sixty_sig_pos : 0 < (F64.ofDecimal 60 0).sig := by decide

theorem sixty_toRat : (F64.ofDecimal 60 0).toRat = 60 := by
  have h : F64.ofDecimal 60 0 = ⟨8444249301319680, -47⟩ := by decide
  rw [h]
  unfold F64.toRat
  norm_num

theorem float64_div_fin (a b : F64) (ha : 0 < a.sig) (hb : 0 < b.sig) :
    Float64.div (.fin a) (.fin b) = .fin (F64.div a b) := by
  have ha' : a.sig ≠ 0 := by omega
  have hb' : b.sig ≠ 0 := by omega
  simp [Float64.div, ha', hb']

/-- The float64 step duration of a pattern with positive tempo and at least one
element is a positive finite number. -/
theorem stepDuration_fin (b : Int) (n : Nat) (hb : 0 < b) (hn : 0 < n) :
    stepDuration b n =
        .fin (F64.div (F64.div (F64.ofDecimal 60 0) (F64.ofInt b)) (F64.ofNat n)) ∧
      0 < (F64.div (F64.div (F64.ofDecimal 60 0) (F64.ofInt b)) (F64.ofNat n)).sig := by
  have h1 := f64_ofInt_sig_pos b hb
  have h2 := f64_div_sig_pos _ _ sixty_sig_pos h1
  have h3 := f64_ofNat_sig_pos n hn
  refine ⟨?_, f64_div_sig_pos _ _ h2 h3⟩
  unfold stepDuration Float64.ofDecimal Float64.ofInt Float64.ofNat
  rw [float64_div_fin _ _ sixty_sig_pos h1, float64_div_fin _ _ h2 h3]

/-- The float64 product `i * s` of an index and a positive step. -/
theorem offset_fin (i : Nat) (s : F64) (hs : 0 < s.sig) :
    Float64.mul (Float64.ofNat i) (.fin s) =
      .fin (if i = 0 then ⟨0, 0⟩ else F64.mul (F64.ofNat i) s) := by
  unfold Float64.ofNat
  simp only [Float64.mul]
  by_cases hi : i = 0
  · subst hi
    have : (F64.ofNat 0).sig = 0 := by decide
    rw [if_pos (Or.inl this), if_pos rfl, this]
    have e : decide (s.sig < 0) = false := decide_eq_false (by omega)
    rw [e]
    rfl
  · have := f64_ofNat_sig_pos i (Nat.pos_of_ne_zero hi)
    rw [if_neg (by omega), if_neg hi]

/-- The float64 product `i * s` is within relative error `2 ^ (-53)` of the
exact product, for `i < 2 ^ 53`. -/
theorem offset_err (i : Nat) (s : F64) (hs : 0 < s.sig) (hi : i < 2 ^ 53) :
    |(Float64.mul (Float64.ofNat i) (.fin s)).value - (i : ℚ) * s.toRat|
      ≤ (i : ℚ) * s.toRat * (2 : ℚ) ^ (-53 : Int) := by
  rw [offset_fin i s hs]
  unfold Float64.value
  simp only
  by_cases h0 : i = 0
  · subst h0
    simp [F64.toRat]
  · rw [if_neg h0]
    have h := f64_mul_err (F64.ofNat i) s (f64_ofNat_sig_pos i (Nat.pos_of_ne_zero h0)) hs
    rw [f64_ofNat_exact i hi] at h
    exact h

/-- Offsets of distinct indices are strictly ordered in float64. -/
theorem offset_lt (i j : Nat) (s : F64) (hs : 0 < s.sig) (hij : i < j) (hj : i + j < 2 ^ 53) :
    Float64.lt (Float64.mul (Float64.ofNat i) (.fin s))
      (Float64.mul (Float64.ofNat j) (.fin s)) = true := by
  have hi := offset_err i s hs (by omega)
  have hj2 := offset_err j s hs (by omega)
  rw [offset_fin i s hs] at hi ⊢
  rw [offset_fin j s hs] at hj2 ⊢
  simp only [Float64.lt, Float64.value] at hi hj2 ⊢
  rw [f64_lt_iff]
  have hsr : 0 < s.toRat := (f64_sig_pos_iff s).mp hs
  have h1 := (abs_le.mp hi).2
  have h2 := (abs_le.mp hj2).1
  have hu : (2 : ℚ) ^ (-53 : Int) = 1 / 9007199254740992 := by norm_num
  rw [hu] at h1 h2
  have hij' : (i : ℚ) + 1 ≤ (j : ℚ) := by exact_mod_cast hij
  have hsum : (i : ℚ) + (j : ℚ) + 1 ≤ 9007199254740992 := by
    have : i + j + 1 ≤ 9007199254740992 := by
      have : (2 : Nat) ^ 53 = 9007199254740992 := by norm_num
      omega
    exact_mod_cast this
  have key : (i : ℚ) * s.toRat + (i : ℚ) * s.toRat * (1 / 9007199254740992)
      < (j : ℚ) * s.toRat - (j : ℚ) * s.toRat * (1 / 9007199254740992) := by
    have : 0 < s.toRat * (((j : ℚ) - (i : ℚ)) * 9007199254740992 - ((i : ℚ) + (j : ℚ))) := by
      apply mul_pos hsr
      nlinarith
    nlinarith
  linarith

theorem rel_bounds {x y e : ℚ} (h : |y - x| ≤ x * e) : x * (1 - e) ≤ y ∧ y ≤ x * (1 + e) := by
  have h1 := abs_le.mp h
  constructor <;> linarith [h1.1, h1.2]

/-- The float64 step duration is within relative error `2 ^ (-51)` of `60 / (b * n)`. -/
theorem stepDuration_err (b : Int) (n : Nat) (hb : 0 < b) (hn : 0 < n) (hn2 : n < 2 ^ 53) :
    |(stepDuration b n).value - 60 / ((b : ℚ) * (n : ℚ))|
      ≤ 60 / ((b : ℚ) * (n : ℚ)) * (2 : ℚ) ^ (-51 : Int) := by
  have hB : (0 : ℚ) < (b : ℚ) := by exact_mod_cast hb
  have hN : (0 : ℚ) < (n : ℚ) := by exact_mod_cast hn
  have h1 := f64_ofInt_sig_pos b hb
  have h2 := f64_div_sig_pos _ _ sixty_sig_pos h1
  have h3 := f64_ofNat_sig_pos n hn
  rw [(stepDuration_fin b n hb hn).1]
  unfold Float64.value
  simp only
  have e1 := rel_bounds (f64_ofInt_err b hb)
  have e2 := rel_bounds (f64_div_err _ _ sixty_sig_pos h1)
  have e3 := rel_bounds (f64_div_err _ _ h2 h3)
  rw [sixty_toRat] at e2
  rw [f64_ofNat_exact n hn2] at e3
  have hu : (2 : ℚ) ^ (-53 : Int) = 1 / 9007199254740992 := by norm_num
  have hu4 : (2 : ℚ) ^ (-51 : Int) = 4 / 9007199254740992 := by norm_num
  rw [hu] at e1 e2 e3
  rw [hu4]
  generalize (F64.ofInt b).toRat = fb at e1 e2 e3
  generalize (F64.div (F64.ofDecimal 60 0) (F64.ofInt b)).toRat = q1 at e2 e3
  generalize (F64.div (F64.div (F64.ofDecimal 60 0) (F64.ofInt b)) (F64.ofNat n)).toRat = s
    at e3
  have hfb : 0 < fb := by
    have : 0 < (b : ℚ) * (1 - 1 / 9007199254740992) := by positivity
    linarith [e1.1]
  have hq1 : 0 < q1 := by
    have : 0 < 60 / fb * (1 - 1 / 9007199254740992) := by positivity
    linarith [e2.1]
  -- bounds on 60 / fb
  have hlo : 60 / ((b : ℚ) * (1 + 1 / 9007199254740992)) ≤ 60 / fb :=
    div_le_div_of_nonneg_left (by norm_num) hfb e1.2
  have hhi : 60 / fb ≤ 60 / ((b : ℚ) * (1 - 1 / 9007199254740992)) :=
    div_le_div_of_nonneg_left (by norm_num) (by positivity) e1.1
  have q1lo : 60 / ((b : ℚ) * (1 + 1 / 9007199254740992)) * (1 - 1 / 9007199254740992) ≤ q1 :=
    le_trans (mul_le_mul_of_nonneg_right hlo (by norm_num)) e2.1
  have q1hi : q1 ≤ 60 / ((b : ℚ) * (1 - 1 / 9007199254740992)) * (1 + 1 / 9007199254740992) :=
    le_trans e2.2 (mul_le_mul_of_nonneg_right hhi (by norm_num))
  have slo : 60 / ((b : ℚ) * (1 + 1 / 9007199254740992)) * (1 - 1 / 9007199254740992) / (n : ℚ)
      * (1 - 1 / 9007199254740992) ≤ s :=
    le_trans (mul_le_mul_of_nonneg_right (div_le_div_of_nonneg_right q1lo hN.le) (by norm_num))
      e3.1
  have shi : s ≤ 60 / ((b : ℚ) * (1 - 1 / 9007199254740992)) * (1 + 1 / 9007199254740992)
      / (n : ℚ) * (1 + 1 / 9007199254740992) :=
    le_trans e3.2 (mul_le_mul_of_nonneg_right (div_le_div_of_nonneg_right q1hi hN.le)
      (by norm_num))
  have hx : (0 : ℚ) < 60 / ((b : ℚ) * (n : ℚ)) := by positivity
  have elo : 60 / ((b : ℚ) * (1 + 1 / 9007199254740992)) * (1 - 1 / 9007199254740992) / (n : ℚ)
      * (1 - 1 / 9007199254740992)
      = 60 / ((b : ℚ) * (n : ℚ)) * ((1 - 1 / 9007199254740992) * (1 - 1 / 9007199254740992)
          / (1 + 1 / 9007199254740992)) := by
    field_simp
    ring
  have ehi : 60 / ((b : ℚ) * (1 - 1 / 9007199254740992)) * (1 + 1 / 9007199254740992) / (n : ℚ)
      * (1 + 1 / 9007199254740992)
      = 60 / ((b : ℚ) * (n : ℚ)) * ((1 + 1 / 9007199254740992) * (1 + 1 / 9007199254740992)
          / (1 - 1 / 9007199254740992)) := by
    field_simp
    ring
  rw [elo] at slo
  rw [ehi] at shi
  have clo : (1 : ℚ) - 4 / 9007199254740992 ≤ (1 - 1 / 9007199254740992)
      * (1 - 1 / 9007199254740992) / (1 + 1 / 9007199254740992) := by norm_num
  have chi : (1 + 1 / 9007199254740992) * (1 + 1 / 9007199254740992)
      / (1 - 1 / 9007199254740992) ≤ (1 : ℚ) + 4 / 9007199254740992 := by norm_num
  have slo2 := le_trans (mul_le_mul_of_nonneg_left clo hx.le) slo
  have shi2 := le_trans shi (mul_le_mul_of_nonneg_left chi hx.le)
  rw [abs_le]
  constructor <;> linarith

/-- The float64 offset of index `i` is within relative error `2 ^ (-50)` of
`i * 60 / (b * n)`. -/
theorem offset_total_err (b : Int) (n i : Nat) (hb : 0 < b) (hn : 0 < n) (hn2 : n < 2 ^ 53)
    (hi : i < 2 ^ 53) :
    |(Float64.mul (Float64.ofNat i) (stepDuration b n)).value
        - (i : ℚ) * (60 / ((b : ℚ) * (n : ℚ)))|
      ≤ (i : ℚ) * (60 / ((b : ℚ) * (n : ℚ))) * (2 : ℚ) ^ (-50 : Int) := by
  have hB : (0 : ℚ) < (b : ℚ) := by exact_mod_cast hb
  have hN : (0 : ℚ) < (n : ℚ) := by exact_mod_cast hn
  have hI : (0 : ℚ) ≤ (i : ℚ) := by positivity
  have hs := rel_bounds (stepDuration_err b n hb hn hn2)
  obtain ⟨hfin, hpos⟩ := stepDuration_fin b n hb hn
  rw [hfin] at hs ⊢
  have ho := rel_bounds (offset_err i _ hpos hi)
  simp only [Float64.value] at hs
  have hx : (0 : ℚ) < 60 / ((b : ℚ) * (n : ℚ)) := by positivity
  have hu : (2 : ℚ) ^ (-53 : Int) = 1 / 9007199254740992 := by norm_num
  have hu4 : (2 : ℚ) ^ (-51 : Int) = 4 / 9007199254740992 := by norm_num
  have hu8 : (2 : ℚ) ^ (-50 : Int) = 8 / 9007199254740992 := by norm_num
  rw [hu] at ho
  rw [hu4] at hs
  rw [hu8]
  generalize (Float64.mul (Float64.ofNat i) (Float64.fin
    (F64.div (F64.div (F64.ofDecimal 60 0) (F64.ofInt b)) (F64.ofNat n)))).value = t at ho
  generalize (F64.div (F64.div (F64.ofDecimal 60 0) (F64.ofInt b)) (F64.ofNat n)).toRat = s
    at ho hs
  generalize 60 / ((b : ℚ) * (n : ℚ)) = x at hs hx
  have h1 : (i : ℚ) * s ≤ (i : ℚ) * (x * (1 + 4 / 9007199254740992)) :=
    mul_le_mul_of_nonneg_left hs.2 hI
  have h2 : (i : ℚ) * (x * (1 - 4 / 9007199254740992)) ≤ (i : ℚ) * s :=
    mul_le_mul_of_nonneg_left hs.1 hI
  have hix : 0 ≤ (i : ℚ) * x := mul_nonneg hI hx.le
  rw [abs_le]
  constructor
  · nlinarith [ho.1]
  · nlinarith [ho.2]

theorem eventAt_finite (tbl : Char → Char) (b : Int) (n i : Nat) (e : Str)
    (hb : 0 < b) (hn : 0 < n) :
    (eventAt tbl b n i e).Velocity.isFinite = true ∧
      (eventAt tbl b n i e).Duration.isFinite = true ∧
      (eventAt tbl b n i e).Time.isFinite = true := by
  obtain ⟨hfin, hpos⟩ := stepDuration_fin b n hb hn
  unfold eventAt
  simp only
  rw [hfin, offset_fin i _ hpos]
  refine ⟨rfl, ?_, rfl⟩
  have h9 : 0 < (F64.ofDecimal 9 1).sig := by decide
  have e1 : (F64.ofDecimal 9 1).sig ≠ 0 := by omega
  have e2 : (F64.div (F64.div (F64.ofDecimal 60 0) (F64.ofInt b)) (F64.ofNat n)).sig ≠ 0 := by
    omega
  simp [Float64.mul, Float64.ofDecimal, e1, e2, Float64.isFinite]

theorem generateAudioEvents_restPattern (tbl : Char → Char) :
    generateAudioEvents tbl restPattern =
      [eventAt tbl 120 3 0 "bd".toList, eventAt tbl 120 3 2 "sn".toList] := by
  rw [generateAudioEvents_eq]
  rfl

/-- C2: for a pattern with tempo `b > 0` and `n ≥ 1` elements, `generateAudioEvents`
returns, in index order, exactly one event for each index `i` whose element `e` is
neither `~` nor empty and none for the other indices (each such index occurs once in
`playableIndices`, every other index not at all), and the event of index `i` has
offset `i * (60/b)/n`, duration `0.9 * (60/b)/n` and velocity `0.8`, each computed
in float64 and each a finite number, instrument `detectInstrument e` and note `e`. -/
theorem generateAudioEvents_spec (tbl : Char → Char) (p : StrudelPattern)
    (hb : 0 < p.BPM) (hn : 1 ≤ p.Elements.length) :
    generateAudioEvents tbl p =
        (playableIndices p.Elements).map (fun i =>
          eventAt tbl p.BPM p.Elements.length i (p.Elements.getD i [])) ∧
      (∀ i, (playableIndices p.Elements).count i =
        if i < p.Elements.length ∧ ¬ (p.Elements.getD i [] = "~".toList ∨ p.Elements.getD i [] = [])
        then 1 else 0) ∧
      ∀ ev ∈ generateAudioEvents tbl p,
        ev.Velocity.isFinite = true ∧ ev.Duration.isFinite = true ∧ ev.Time.isFinite = true := by
  refine ⟨generateAudioEvents_eq tbl p, fun i => ?_, ?_⟩
  · rw [count_playableIndices]
    simp [isRest]
  · intro ev hev
    rw [generateAudioEvents_eq, List.mem_map] at hev
    obtain ⟨i, _, rfl⟩ := hev
    exact eventAt_finite tbl _ _ _ _ hb hn

theorem generateAudioEvents_spec_witness :
    generateAudioEvents id restPattern =
        [{ Instrument := "kick", Note := "bd".toList,
           Velocity := .fin ⟨7205759403792794, -53⟩,
           Duration := .fin ⟨5404319552844595, -55⟩,
           Time := .fin ⟨0, 0⟩ },
         { Instrument := "snare", Note := "sn".toList,
           Velocity := .fin ⟨7205759403792794, -53⟩,
           Duration := .fin ⟨5404319552844595, -55⟩,
           Time := .fin ⟨6004799503160661, -54⟩ }] ∧
      ∀ i, (playableIndices restPattern.Elements).count i =
        if i < restPattern.Elements.length ∧
          ¬ (restPattern.Elements.getD i [] = "~".toList ∨ restPattern.Elements.getD i [] = [])
        then 1 else 0 :=
  ⟨(generateAudioEvents_spec id restPattern (by decide) (by decide)).1.trans (by decide),
    (generateAudioEvents_spec id restPattern (by decide) (by decide)).2.1⟩

theorem offsets_pairwise (tbl : Char → Char) (p : StrudelPattern) (hb : 0 < p.BPM)
    (hn : p.Elements.length ≤ 2 ^ 52) :
    (generateAudioEvents tbl p).Pairwise (fun a b => Float64.lt a.Time b.Time = true) := by
  rw [generateAudioEvents_eq, List.pairwise_map]
  by_cases h0 : p.Elements.length = 0
  · have : p.Elements = [] := List.length_eq_zero.mp h0
    simp [this, playableIndices]
  · obtain ⟨hfin, hpos⟩ := stepDuration_fin p.BPM p.Elements.length hb (Nat.pos_of_ne_zero h0)
    have hmem : ∀ i ∈ playableIndices p.Elements, i < p.Elements.length :=
      fun i hi => ((mem_playableIndices _ i).mp hi).1
    have hp := playableIndices_pairwise p.Elements
    rw [List.pairwise_iff_forall_sublist] at hp ⊢
    intro i j hsub
    have hij := hp hsub
    have hj : j < p.Elements.length := hmem j (hsub.subset (by simp))
    simp only [eventAt]
    rw [hfin]
    have h53 : (2 : Nat) ^ 53 = 2 * 2 ^ 52 := by norm_num
    exact offset_lt i j _ hpos hij (by omega)

/-- C3: for a pattern with positive tempo (and at most `2 ^ 52` elements, which
every slice of strings in memory satisfies), the events of `generateAudioEvents`
are the events of a strictly increasing list of element indices, in that order,
and their float64 offsets are strictly increasing along the returned list. -/
theorem generateAudioEvents_sorted (tbl : Char → Char) (p : StrudelPattern) (hb : 0 < p.BPM)
    (hn : p.Elements.length ≤ 2 ^ 52) :
    (∃ idx : List Nat, idx.Pairwise (· < ·) ∧ (∀ i ∈ idx, i < p.Elements.length) ∧
        generateAudioEvents tbl p =
          idx.map (fun i => eventAt tbl p.BPM p.Elements.length i (p.Elements.getD i []))) ∧
      (generateAudioEvents tbl p).Pairwise (fun a b => Float64.lt a.Time b.Time = true) :=
  ⟨⟨playableIndices p.Elements, playableIndices_pairwise _,
    fun i hi => ((mem_playableIndices _ i).mp hi).1, generateAudioEvents_eq tbl p⟩,
    offsets_pairwise tbl p hb hn⟩

theorem generateAudioEvents_sorted_witness :
    (generateAudioEvents id restPattern).Pairwise (fun a b => Float64.lt a.Time b.Time = true) :=
  (generateAudioEvents_sorted id restPattern (by decide) (by decide)).2

/-- C1 as stated fails: for the elements `bd ~ sn` at 120 BPM the two returned
events have the float64 offsets `0` and `6004799503160661 * 2 ^ (-54)` (the double
nearest to `1/3`), which are not `60/(120*3) = 1/6` s apart. -/
theorem generateAudioEvents_not_arithmetic :
    (generateAudioEvents id restPattern).map (fun ev => ev.Time) =
        [.fin ⟨0, 0⟩, .fin ⟨6004799503160661, -54⟩] ∧
      ¬ ∀ (tbl : Char → Char) (p : StrudelPattern), 0 < p.BPM → 1 ≤ p.Elements.length →
        (generateAudioEvents tbl p).length ≤ p.Elements.length ∧
        (generateAudioEvents tbl p).Chain' (fun a b =>
          b.Time.value - a.Time.value = 60 / ((p.BPM : ℚ) * (p.Elements.length : ℚ))) := by
  refine ⟨by decide, ?_⟩
  intro h
  have h2 := (h id restPattern (by decide) (by decide)).2
  have e : generateAudioEvents id restPattern =
      [{ Instrument := "kick", Note := "bd".toList,
         Velocity := .fin ⟨7205759403792794, -53⟩,
         Duration := .fin ⟨5404319552844595, -55⟩,
         Time := .fin ⟨0, 0⟩ },
       { Instrument := "snare", Note := "sn".toList,
         Velocity := .fin ⟨7205759403792794, -53⟩,
         Duration := .fin ⟨5404319552844595, -55⟩,
         Time := .fin ⟨6004799503160661, -54⟩ }] := by decide
  rw [e] at h2
  simp only [List.chain'_cons, List.chain'_singleton, and_true, restPattern,
    List.length_cons, List.length_nil, Float64.value, F64.toRat] at h2
  norm_num at h2

/-- C1 (amended): for a pattern with tempo `b > 0` and `n ≥ 1` elements (at most
`2 ^ 52`), `generateAudioEvents` returns at most `n` events whose float64 offsets
are strictly increasing; every two consecutive returned events come from element
positions `i` and `i + k` with `k ≥ 1`, have the float64 offsets `i * step` and
`(i + k) * step`, and differ in offset by `k * 60/(b*n)` up to a rounding error of
at most `(2*i + k) * 60/(b*n) * 2 ^ (-50)`; when no element is a rest or empty
there are exactly `n` events and `k = 1` throughout. -/
theorem generateAudioEvents_offsets (tbl : Char → Char) (p : StrudelPattern)
    (hb : 0 < p.BPM) (hn : 1 ≤ p.Elements.length) (hn2 : p.Elements.length ≤ 2 ^ 52) :
    (generateAudioEvents tbl p).length ≤ p.Elements.length ∧
      (generateAudioEvents tbl p).Pairwise (fun a b => Float64.lt a.Time b.Time = true) ∧
      (generateAudioEvents tbl p).Chain' (fun a c => ∃ i k : Nat, 1 ≤ k ∧
        i + k < p.Elements.length ∧
        a.Time = Float64.mul (Float64.ofNat i) (stepDuration p.BPM p.Elements.length) ∧
        c.Time = Float64.mul (Float64.ofNat (i + k)) (stepDuration p.BPM p.Elements.length) ∧
        |(c.Time.value - a.Time.value)
            - (k : ℚ) * (60 / ((p.BPM : ℚ) * (p.Elements.length : ℚ)))|
          ≤ ((2 * i + k : Nat) : ℚ) * (60 / ((p.BPM : ℚ) * (p.Elements.length : ℚ)))
              * (2 : ℚ) ^ (-50 : Int)) ∧
      ((∀ e ∈ p.Elements, ¬ (e = "~".toList ∨ e = [])) →
        (generateAudioEvents tbl p).length = p.Elements.length ∧
        (generateAudioEvents tbl p).Chain' (fun a c => ∃ i : Nat,
          a.Time = Float64.mul (Float64.ofNat i) (stepDuration p.BPM p.Elements.length) ∧
          c.Time =
            Float64.mul (Float64.ofNat (i + 1)) (stepDuration p.BPM p.Elements.length))) := by
  have h53 : (2 : Nat) ^ 53 = 2 * 2 ^ 52 := by norm_num
  have hmem : ∀ i ∈ playableIndices p.Elements, i < p.Elements.length :=
    fun i hi => ((mem_playableIndices _ i).mp hi).1
  refine ⟨?_, offsets_pairwise tbl p hb hn2, ?_, ?_⟩
  · rw [generateAudioEvents_eq, List.length_map]
    calc (playableIndices p.Elements).length
        ≤ (List.range p.Elements.length).length := List.length_filter_le _ _
      _ = p.Elements.length := List.length_range _
  · rw [generateAudioEvents_eq, List.chain'_map]
    have hc := chain_playableIndices p.Elements
    rw [List.chain'_iff_get] at hc ⊢
    intro m hm
    have hij := hc m hm
    have hj := hmem _ (List.get_mem (playableIndices p.Elements) (m + 1) (by omega))
    simp only [List.get_eq_getElem] at hij hj ⊢
    generalize (playableIndices p.Elements)[m] = i at hij
    generalize (playableIndices p.Elements)[m + 1] = j at hij hj
    obtain ⟨k, rfl⟩ : ∃ k, j = i + k := ⟨j - i, by omega⟩
    refine ⟨i, k, by omega, hj, rfl, rfl, ?_⟩
    simp only [eventAt]
    have e1 := offset_total_err p.BPM p.Elements.length i hb hn (by omega) (by omega)
    have e2 := offset_total_err p.BPM p.Elements.length (i + k) hb hn (by omega) (by omega)
    generalize (Float64.mul (Float64.ofNat i)
      (stepDuration p.BPM p.Elements.length)).value = ti at e1
    generalize (Float64.mul (Float64.ofNat (i + k))
      (stepDuration p.BPM p.Elements.length)).value = tj at e2
    generalize 60 / ((p.BPM : ℚ) * (p.Elements.length : ℚ)) = x at e1 e2
    generalize (2 : ℚ) ^ (-50 : Int) = u at e1 e2
    push_cast at e2 ⊢
    rw [abs_le] at e1 e2 ⊢
    constructor <;> linarith [e1.1, e1.2, e2.1, e2.2]
  · intro hall
    have hall' : ∀ e ∈ p.Elements, isRest e = false := fun e he => decide_eq_false (hall e he)
    rw [generateAudioEvents_eq, playableIndices_of_no_rest _ hall', List.length_map,
      List.length_range, List.chain'_map]
    refine ⟨rfl, ?_⟩
    have hc : (List.range p.Elements.length).Chain' (fun i j => j = i + 1) := by
      cases hlen : p.Elements.length with
      | zero => simp
      | succ m =>
        rw [List.chain'_range_succ]
        intro k _
        rfl
    refine hc.imp ?_
    intro i j hij
    subst hij
    exact ⟨i, rfl, rfl⟩

theorem generateAudioEvents_offsets_witness :
    (generateAudioEvents id fullPattern).length = 3 ∧
      (generateAudioEvents id fullPattern).Pairwise
        (fun a b => Float64.lt a.Time b.Time = true) :=
  ⟨((generateAudioEvents_offsets id fullPattern (by decide) (by decide) (by decide)).2.2.2
      (by decide)).1,
    (generateAudioEvents_offsets id fullPattern (by decide) (by decide) (by decide)).2.1⟩

/-! ## The name block of the parser -/

theorem char_eq_of_toNat {c d : Char} (h : c.toNat = d.toNat) : c = d := by
  apply Char.ext
  apply UInt32.ext
  exact h

theorem eq_dollar_of_reDollar {c : Char} (h : reDollar c = true) : c = '$' := by
  apply char_eq_of_toNat
  simp only [reDollar, inRange, Bool.and_eq_true, decide_eq_true_eq] at h
  have : ('$' : Char).toNat = 36 := rfl
  omega

/-- What `(.+)$` does at the end of `nameRegex`. -/
theorem run_body (k : Cont) (pos : Nat) (s : Str) (caps : List (Nat × Nat)) :
    Re.run (.grp (.plus reDot)) (Re.run .eot k) pos s caps =
      if s ≠ [] ∧ (∀ c ∈ s, reDot c = true) then
        k (pos + s.length) [] (caps ++ [(pos, pos + s.length)])
      else none := by
  cases s with
  | nil => simp [Re.run]
  | cons c s =>
    by_cases hc : reDot c = true
    · simp only [Re.run, hc, if_true]
      rw [starGreedy_max]
      · by_cases hall : ∀ x ∈ s, reDot x = true
        · have h1 : s.takeWhile reDot = s := List.takeWhile_eq_self_iff.mpr hall
          have h2 : s.dropWhile reDot = [] := List.dropWhile_eq_nil_iff.mpr hall
          have h3 : ∀ x ∈ c :: s, reDot x = true := by
            intro x hx
            rcases List.mem_cons.mp hx with rfl | hx
            · exact hc
            · exact hall x hx
          rw [h1, h2]
          simp only [List.isEmpty_nil, if_true, ne_eq, List.cons_ne_nil, not_false_eq_true,
            true_and, h3, List.length_cons, implies_true]
          have e : pos + 1 + s.length = pos + (s.length + 1) := by omega
          rw [e, if_pos h3]
        · have h2 : s.dropWhile reDot ≠ [] := by
            intro h
            exact hall (List.dropWhile_eq_nil_iff.mp h)
          have h3 : ¬ ∀ x ∈ c :: s, reDot x = true := by
            intro h
            exact hall (fun x hx => h x (List.mem_cons_of_mem _ hx))
          have h4 : (s.dropWhile reDot).isEmpty = false := by
            cases hd : s.dropWhile reDot with
            | nil => exact absurd hd h2
            | cons _ _ => rfl
          simp only [h4, h3, and_false, if_false, Bool.false_eq_true]
      · intro pos' c' s' caps' _
        simp
    · have h3 : ¬ ∀ x ∈ c :: s, reDot x = true := by
        intro h
        exact hc (h c (List.mem_cons_self _ _))
      simp [Re.run, hc, h3]


/-- The tail `\s*(.+)$` of `nameRegex` rejects the empty text. -/
theorem run_tail_nil (k : Cont) (pos : Nat) (caps : List (Nat × Nat)) :
    starGreedy reSpace (Re.run (.grp (.plus reDot)) (Re.run .eot k)) pos [] caps = none := by
  simp [starGreedy, Re.run]

/-- Closed form of a match attempt of `nameRegex` at the beginning of the text. -/
theorem matchAt_nameRegex (t : Str) :
    matchAt nameRegex 0 t =
      if t.takeWhile reWord ≠ [] then
        match (t.dropWhile reWord).dropWhile reSpace with
        | d :: r =>
          if reDollar d then
            starGreedy reSpace
              (Re.run (.grp (.plus reDot)) (Re.run .eot (fun e _ caps => some (e, caps))))
              ((t.takeWhile reWord).length + ((t.dropWhile reWord).takeWhile reSpace).length + 1)
              r [(0, (t.takeWhile reWord).length)]
          else none
        | [] => none
      else none := by
  cases t with
  | nil => simp [matchAt, nameRegex, runSeq, Re.run]
  | cons c s =>
    by_cases hc : reWord c = true
    · simp only [matchAt, nameRegex, runSeq, Re.run, if_true, hc, List.takeWhile_cons_of_pos,
        List.dropWhile_cons_of_pos, ne_eq, List.cons_ne_nil, not_false_eq_true, List.length_cons,
        List.nil_append]
      rw [starGreedy_max reWord]
      · rw [starGreedy_max reSpace]
        · cases h : (s.dropWhile reWord).dropWhile reSpace with
          | nil => rfl
          | cons d r =>
            by_cases hd : reDollar d = true
            · simp only [hd, if_true]
              congr 1
              all_goals first
                | omega
                | (simp only [List.nil_append, List.cons.injEq, Prod.mk.injEq, and_true, true_and]
                   omega)
            · simp only [hd, Bool.false_eq_true, if_false]
        · intro pos' c' s' caps' hsp
          simp [reSpace_not_reDollar hsp]
      · intro pos' c' s' caps' hw
        simp [starGreedy, reWord_not_reSpace hw, reWord_not_reDollar hw]
    · simp [matchAt, nameRegex, runSeq, Re.run, hc]


theorem dropWhile_of_head {p : Char → Bool} (l : Str) (h : ∀ c ∈ l.head?, p c = false) :
    l.dropWhile p = l := by
  cases l with
  | nil => rfl
  | cons c l => simp [List.dropWhile, h c (by simp)]

theorem trimSpace_eq_self (t : Str) (h1 : ∀ c ∈ t.head?, unicodeIsSpace c = false)
    (h2 : ∀ c ∈ t.getLast?, unicodeIsSpace c = false) : trimSpace t = t := by
  unfold trimSpace
  rw [dropWhile_of_head t h1, dropWhile_of_head t.reverse (by simpa using h2), List.reverse_reverse]

theorem slice_zero (a b : Str) : slice (a ++ b) 0 a.length = a := by
  simp [slice]

theorem slice_mid (a b c : Str) : slice (a ++ b ++ c) a.length (a.length + b.length) = b := by
  simp [slice]

theorem slice_all (a : Str) : slice a 0 a.length = a := by
  simp [slice]

/-- A text that is not of the named shape is not matched by `nameRegex`. -/
theorem matchAt_nameRegex_none (t : Str) (h : ¬ NamedShape t) : matchAt nameRegex 0 t = none := by
  rw [matchAt_nameRegex]
  by_cases hw : t.takeWhile reWord ≠ []
  · rw [if_pos hw]
    cases hr : (t.dropWhile reWord).dropWhile reSpace with
    | nil => rfl
    | cons d r =>
      by_cases hd : reDollar d = true
      · simp only [hd, if_true]
        cases r with
        | nil => exact run_tail_nil _ _ _
        | cons x r =>
          exfalso
          apply h
          refine ⟨t.takeWhile reWord, (t.dropWhile reWord).takeWhile reSpace, x :: r, hw,
            fun c hc => (List.mem_takeWhile_imp hc), fun c hc => (List.mem_takeWhile_imp hc),
            List.cons_ne_nil _ _, ?_⟩
          rw [← eq_dollar_of_reDollar hd, ← hr, List.append_assoc,
            List.takeWhile_append_dropWhile, List.takeWhile_append_dropWhile]
      · simp only [hd, Bool.false_eq_true, if_false]
  · rw [if_neg hw]

theorem parseName_of_not_shape (t : Str) (h : ¬ NamedShape t) :
    parseName t = ("unnamed".toList, t) := by
  unfold parseName findStringSubmatch nameRegex
  rw [searchFrom_bot_zero]
  have := matchAt_nameRegex_none t h
  unfold nameRegex at this
  rw [this]
  rfl

theorem parseName_named (w b : Str) (hw : w ≠ []) (hword : ∀ c ∈ w, reWord c = true)
    (hb : b ≠ []) (hline : ∀ c ∈ b, reDot c = true)
    (hhead : ∀ c ∈ b.head?, reSpace c = false) :
    parseName (w ++ " $ ".toList ++ b) = (w, b) := by
  have hsep : " $ ".toList = [' ', '$', ' '] := rfl
  have hm : matchAt nameRegex 0 (w ++ " $ ".toList ++ b) =
      some ((w ++ " $ ".toList ++ b).length,
        [(0, w.length), (w.length + 3, w.length + 3 + b.length)]) := by
    rw [matchAt_nameRegex, hsep, List.append_assoc]
    have h1 : (w ++ ([' ', '$', ' '] ++ b)).takeWhile reWord = w :=
      takeWhile_append_stop w _ hword (by simp; decide)
    have h2 : (w ++ ([' ', '$', ' '] ++ b)).dropWhile reWord = [' ', '$', ' '] ++ b :=
      dropWhile_append_stop w _ hword (by simp; decide)
    have h3 : ([' ', '$', ' '] ++ b).dropWhile reSpace = '$' :: ' ' :: b := by
      simp [List.dropWhile, show reSpace ' ' = true from rfl, show reSpace '$' = false from rfl]
    have h4 : ([' ', '$', ' '] ++ b).takeWhile reSpace = [' '] := by
      simp [List.takeWhile, show reSpace ' ' = true from rfl, show reSpace '$' = false from rfl]
    rw [h1, h2, h3, h4, if_pos hw]
    simp only [show reDollar '$' = true from rfl, if_true]
    apply starGreedy_of_some
    have h5 : (' ' :: b).takeWhile reSpace = [' '] :=
      takeWhile_append_stop [' '] b (by simp; rfl) hhead
    have h6 : (' ' :: b).dropWhile reSpace = b :=
      dropWhile_append_stop [' '] b (by simp; rfl) hhead
    rw [h5, h6, run_body, if_pos ⟨hb, hline⟩]
    simp only [List.length_append, List.length_cons, List.length_nil, List.singleton_append,
      Option.some.injEq, Prod.mk.injEq, List.cons.injEq, and_true]
    omega
  unfold parseName findStringSubmatch
  have hre : nameRegex = .bot :: nameRegex.tail := rfl
  rw [hre, searchFrom_bot_zero, ← hre, hm]
  simp only [Option.map_some', submatches, List.map_cons, List.map_nil]
  have e1 : slice (w ++ " $ ".toList ++ b) 0 w.length = w := by
    rw [List.append_assoc]; exact slice_zero _ _
  have e2 : slice (w ++ " $ ".toList ++ b) (w.length + 3) (w.length + 3 + b.length) = b := by
    have := slice_mid (w ++ " $ ".toList) b []
    simpa [hsep] using this
  rw [e1, e2]

/-! ## The tempo block of the parser -/

theorem eq_of_reLit {x c : Char} (h : reLit x c = true) : c = x := by
  apply char_eq_of_toNat
  simp only [reLit, inRange, Bool.and_eq_true, decide_eq_true_eq] at h
  omega

theorem reLit_self (x : Char) : reLit x x = true := by
  simp [reLit, inRange]

theorem reLit_iff (x c : Char) : reLit x c = true ↔ c = x :=
  ⟨eq_of_reLit, fun h => h ▸ reLit_self x⟩

/-- What `(\d+)` does at the end of `bpmRegex`. -/
theorem run_digits (pos : Nat) (s : Str) (caps : List (Nat × Nat)) :
    Re.run (.grp (.plus reDigit)) (fun e _ caps => some (e, caps)) pos s caps =
      if s.takeWhile reDigit ≠ [] then
        some (pos + (s.takeWhile reDigit).length,
          caps ++ [(pos, pos + (s.takeWhile reDigit).length)])
      else none := by
  cases s with
  | nil => simp [Re.run]
  | cons c s =>
    by_cases hc : reDigit c = true
    · simp only [Re.run, hc, if_true, List.takeWhile_cons_of_pos, ne_eq, List.cons_ne_nil,
        not_false_eq_true, List.length_cons]
      apply starGreedy_of_some
      simp only [Option.some.injEq, Prod.mk.injEq, List.append_cancel_left_eq, List.cons.injEq,
        and_true, true_and]
      omega
    · simp [Re.run, hc]

/-- What `\s+(\d+)` does at the end of `bpmRegex`. -/
theorem run_space_digits (pos : Nat) (s : Str) (caps : List (Nat × Nat)) :
    Re.run (.plus reSpace) (Re.run (.grp (.plus reDigit)) (fun e _ caps => some (e, caps)))
        pos s caps =
      if s.takeWhile reSpace ≠ [] ∧ (s.dropWhile reSpace).takeWhile reDigit ≠ [] then
        some (pos + (s.takeWhile reSpace).length
                + ((s.dropWhile reSpace).takeWhile reDigit).length,
          caps ++ [(pos + (s.takeWhile reSpace).length,
                    pos + (s.takeWhile reSpace).length
                      + ((s.dropWhile reSpace).takeWhile reDigit).length)])
      else none := by
  cases s with
  | nil => simp [Re.run]
  | cons c s =>
    by_cases hc : reSpace c = true
    · have hrun : Re.run (.plus reSpace)
          (Re.run (.grp (.plus reDigit)) (fun e _ caps => some (e, caps))) pos (c :: s) caps =
          starGreedy reSpace (Re.run (.grp (.plus reDigit)) (fun e _ caps => some (e, caps)))
            (pos + 1) s caps := by
        simp [Re.run, hc]
      rw [hrun, starGreedy_max reSpace, run_digits]
      · simp only [List.takeWhile_cons_of_pos, List.dropWhile_cons_of_pos, hc, ne_eq,
          List.cons_ne_nil, not_false_eq_true, true_and, List.length_cons]
        have e : pos + 1 + (List.takeWhile reSpace s).length
            = pos + ((List.takeWhile reSpace s).length + 1) := by omega
        rw [e]
      · intro pos' c' s' caps' hsp
        simp [Re.run, reSpace_not_reDigit hsp]
    · simp [Re.run, hc]

/-- Closed form of a match attempt of `bpmRegex` at one position. -/
theorem matchAt_bpmRegex (pos : Nat) (s : Str) :
    matchAt bpmRegex pos s =
      if s.take 3 = "bpm".toList ∧ ((s.drop 3).takeWhile reSpace ≠ [] ∧
          ((s.drop 3).dropWhile reSpace).takeWhile reDigit ≠ []) then
        some (pos + 3 + ((s.drop 3).takeWhile reSpace).length
                + (((s.drop 3).dropWhile reSpace).takeWhile reDigit).length,
          [(pos + 3 + ((s.drop 3).takeWhile reSpace).length,
            pos + 3 + ((s.drop 3).takeWhile reSpace).length
              + (((s.drop 3).dropWhile reSpace).takeWhile reDigit).length)])
      else none := by
  have hbpm : "bpm".toList = ['b', 'p', 'm'] := rfl
  rw [hbpm]
  match s with
  | [] => simp [matchAt, bpmRegex, runSeq, Re.run]
  | [a] => simp [matchAt, bpmRegex, runSeq, Re.run]
  | [a, b] => simp [matchAt, bpmRegex, runSeq, Re.run]
  | a :: b :: c :: r =>
    have hk : runSeq [.plus reSpace, .grp (.plus reDigit)] (fun e _ caps => some (e, caps))
        = Re.run (.plus reSpace)
            (Re.run (.grp (.plus reDigit)) (fun e _ caps => some (e, caps))) := rfl
    simp only [matchAt, bpmRegex, runSeq] at hk ⊢
    simp only [Re.run, reLit_iff, List.take_succ_cons, List.take_zero, List.drop_succ_cons,
      List.drop_zero, List.cons.injEq, and_true]
    by_cases ha : a = 'b'
    · by_cases hb : b = 'p'
      · by_cases hc : c = 'm'
        · simp only [ha, hb, hc, if_true, true_and]
          have := run_space_digits (pos + 1 + 1 + 1) r []
          simp only [Re.run, List.nil_append] at this
          rw [this]
        · simp [ha, hb, hc]
      · simp [ha, hb]
    · simp [ha]

theorem drop_length_takeWhile (p : Char → Bool) (l : Str) :
    l.drop (l.takeWhile p).length = l.dropWhile p := by
  induction l with
  | nil => rfl
  | cons c l ih =>
    by_cases hc : p c = true
    · simp [List.takeWhile, List.dropWhile, hc, ih]
    · simp [List.takeWhile, List.dropWhile, hc]

theorem take_length_takeWhile (p : Char → Bool) (l : Str) :
    l.take (l.takeWhile p).length = l.takeWhile p := by
  induction l with
  | nil => rfl
  | cons c l ih =>
    by_cases hc : p c = true
    · simp [List.takeWhile, hc, ih]
    · simp [List.takeWhile, hc]

theorem bpmDigitsHere_digits (s ds : Str) (h : bpmDigitsHere s = some ds) :
    ds ≠ [] ∧ ∀ c ∈ ds, reDigit c = true := by
  unfold bpmDigitsHere at h
  split at h
  · simp only [] at h
    split at h
    · rename_i _ h2
      cases h
      exact ⟨h2.2, fun c hc => List.mem_takeWhile_imp hc⟩
    · cases h
  · cases h

theorem firstBpmDigits_digits (s ds : Str) (h : firstBpmDigits s = some ds) :
    ds ≠ [] ∧ ∀ c ∈ ds, reDigit c = true := by
  induction s with
  | nil => cases h
  | cons c s ih =>
    unfold firstBpmDigits at h
    cases hh : bpmDigitsHere (c :: s) with
    | some d =>
      rw [hh] at h
      cases h
      exact bpmDigitsHere_digits _ _ hh
    | none =>
      rw [hh] at h
      exact ih h

/-- The leftmost match of `bpmRegex` captures the digit run of the first occurrence. -/
theorem searchFrom_bpmRegex (text : Str) (pos : Nat) (s : Str) (h : text.drop pos = s) :
    match firstBpmDigits s with
    | none => searchFrom bpmRegex pos s = none
    | some ds => ∃ m whole, searchFrom bpmRegex pos s = some m ∧ submatches text m = [whole, ds] := by
  induction s generalizing pos with
  | nil =>
    simp only [firstBpmDigits, searchFrom, matchAt_bpmRegex]
    simp
  | cons c s ih =>
    have hnext : text.drop (pos + 1) = s := by
      rw [← List.drop_drop, h]; rfl
    unfold firstBpmDigits
    cases hh : bpmDigitsHere (c :: s) with
    | some ds =>
      simp only []
      unfold bpmDigitsHere at hh
      split at hh
      · rename_i h3
        simp only [] at hh
        split at hh
        · rename_i h2
          cases hh
          have hs : searchFrom bpmRegex pos (c :: s) =
              some (pos, (pos + 3 + ((List.drop 3 (c :: s)).takeWhile reSpace).length
                  + (((List.drop 3 (c :: s)).dropWhile reSpace).takeWhile reDigit).length,
                [(pos + 3 + ((List.drop 3 (c :: s)).takeWhile reSpace).length,
                  pos + 3 + ((List.drop 3 (c :: s)).takeWhile reSpace).length
                    + (((List.drop 3 (c :: s)).dropWhile reSpace).takeWhile reDigit).length)])) := by
            simp only [searchFrom, matchAt_bpmRegex]
            rw [if_pos ⟨h3, h2⟩]
          refine ⟨_, slice text pos (pos + 3 + ((List.drop 3 (c :: s)).takeWhile reSpace).length
                  + (((List.drop 3 (c :: s)).dropWhile reSpace).takeWhile reDigit).length), hs, ?_⟩
          simp only [submatches, List.map_cons, List.map_nil, List.cons.injEq, and_true, true_and]
          unfold slice
          rw [← List.drop_drop, ← List.drop_drop, h, drop_length_takeWhile,
            Nat.add_sub_cancel_left, take_length_takeWhile]
        · cases hh
      · cases hh
    | none =>
      simp only []
      have hm : matchAt bpmRegex pos (c :: s) = none := by
        rw [matchAt_bpmRegex]
        unfold bpmDigitsHere at hh
        by_cases h3 : List.take 3 (c :: s) = "bpm".toList
        · rw [if_pos h3] at hh
          simp only [] at hh
          by_cases h2 : (List.drop 3 (c :: s)).takeWhile reSpace ≠ [] ∧
              ((List.drop 3 (c :: s)).dropWhile reSpace).takeWhile reDigit ≠ []
          · rw [if_pos h2] at hh; cases hh
          · rw [if_neg (fun hx => h2 hx.2)]
        · rw [if_neg (fun hx => h3 hx.1)]
      have := ih (pos + 1) hnext
      simp only [searchFrom, hm]
      exact this

theorem reDigit_not_sign {c : Char} (h : reDigit c = true) :
    reLit '-' c = false ∧ reLit '+' c = false := by
  have h1 : ('-' : Char).toNat = 45 := rfl
  have h2 : ('+' : Char).toNat = 43 := rfl
  simp only [reDigit, reLit, inRange, Bool.and_eq_true, decide_eq_true_eq, Bool.and_eq_false_iff,
    decide_eq_false_iff_not, h1, h2] at *
  omega

theorem atoi_digits (ds : Str) (hne : ds ≠ []) (hd : ∀ c ∈ ds, reDigit c = true) :
    atoi ds = if digitsVal ds ≤ maxInt then some (digitsVal ds : Int) else none := by
  cases ds with
  | nil => exact absurd rfl hne
  | cons c r =>
    have hs := reDigit_not_sign (hd c (List.mem_cons_self _ _))
    have hall : (c :: r).all reDigit = true := List.all_eq_true.mpr hd
    simp only [atoi, hs.1, hs.2, Bool.or_false, Bool.false_eq_true, if_false, hall,
      List.isEmpty_cons, Bool.not_true]

theorem parseBpm_eq_tempoRef (body : Str) : parseBpm body = tempoRef body := by
  unfold parseBpm tempoRef findStringSubmatch
  have h := searchFrom_bpmRegex body 0 body rfl
  cases hf : firstBpmDigits body with
  | none =>
    rw [hf] at h
    simp only [] at h
    rw [h]
  | some ds =>
    rw [hf] at h
    obtain ⟨m, whole, hm, hsub⟩ := h
    obtain ⟨hne, hd⟩ := firstBpmDigits_digits _ _ hf
    rw [hm]
    simp only [hsub, atoi_digits ds hne hd]
    by_cases hfit : digitsVal ds ≤ maxInt
    · simp only [if_pos hfit]
    · simp only [if_neg hfit]

/-! ## The parser -/

theorem parseStrudelPattern_ok (s : Str) (h : trimSpace s ≠ []) :
    parseStrudelPattern s =
      .ok { Name := (parseName (trimSpace s)).1,
            Pattern := (parseName (trimSpace s)).2,
            BPM := tempoRef (parseName (trimSpace s)).2,
            Cycle := 1,
            Elements := extractPatternElements (parseName (trimSpace s)).2 } := by
  unfold parseStrudelPattern
  have : (trimSpace s).isEmpty = false := by
    cases ht : trimSpace s with
    | nil => exact absurd ht h
    | cons _ _ => rfl
  simp only [this, Bool.false_eq_true, if_false, parseBpm_eq_tempoRef]

theorem parseStrudelPattern_error (s : Str) (h : trimSpace s = []) :
    parseStrudelPattern s = .error "empty pattern" := by
  unfold parseStrudelPattern
  simp only [h, List.isEmpty_nil, if_true]

/-- C5: `parseStrudelPattern` fails with the error `empty pattern` exactly when the
input is empty after trimming surrounding whitespace, returns a pattern without
error for every other input, and fails on the empty string. -/
theorem parseStrudelPattern_empty_iff (s : Str) :
    (parseStrudelPattern s = .error "empty pattern" ↔ trimSpace s = []) ∧
      ((∃ p, parseStrudelPattern s = .ok p) ↔ trimSpace s ≠ []) ∧
      parseStrudelPattern "".toList = .error "empty pattern" := by
  refine ⟨⟨fun he => ?_, parseStrudelPattern_error s⟩, ⟨fun hp => ?_, fun hne => ?_⟩, rfl⟩
  · by_contra hne
    rw [parseStrudelPattern_ok s hne] at he
    cases he
  · intro hnil
    obtain ⟨p, hp⟩ := hp
    rw [parseStrudelPattern_error s hnil] at hp
    cases hp
  · exact ⟨_, parseStrudelPattern_ok s hne⟩

theorem reDot_of_ne_newline {c : Char} (h : c ≠ '\n') : reDot c = true := by
  by_contra hd
  apply h
  apply char_eq_of_toNat
  have h1 : ('\n' : Char).toNat = 10 := rfl
  simp only [reDot, inRange, Bool.not_eq_true', Bool.and_eq_false_iff, decide_eq_false_iff_not,
    not_or, not_not, not_le] at hd
  omega

theorem unicodeIsSpace_false_reSpace {c : Char} (h : unicodeIsSpace c = false) :
    reSpace c = false := by
  by_contra hs
  rw [reSpace_unicodeIsSpace (by simpa using hs)] at h
  cases h

/-- C6: for an identifier `w` and a non-empty single-line body `b` that neither
starts nor ends with whitespace, parsing `w ++ " $ " ++ b` gives name `w` and raw
body `b`; an input whose trimmed text is not of the shape `<identifier> $ <body>`
gives name `unnamed` and the trimmed text as raw body; and
`d1 $ sound "bd sn" bpm 90` gives name `d1`, tempo 90 and elements `bd`, `sn`. -/
theorem parseStrudelPattern_name :
    (∀ w b : Str, w ≠ [] → (∀ c ∈ w, reWord c = true) → b ≠ [] → (∀ c ∈ b, c ≠ '\n') →
        (∀ c ∈ b.head?, unicodeIsSpace c = false) →
        (∀ c ∈ b.getLast?, unicodeIsSpace c = false) →
        ∃ p, parseStrudelPattern (w ++ " $ ".toList ++ b) = .ok p ∧ p.Name = w ∧ p.Pattern = b) ∧
      (∀ s : Str, trimSpace s ≠ [] → ¬ NamedShape (trimSpace s) →
        ∃ p, parseStrudelPattern s = .ok p ∧ p.Name = "unnamed".toList ∧
          p.Pattern = trimSpace s) ∧
      parseStrudelPattern "d1 $ sound \"bd sn\" bpm 90".toList =
        .ok { Name := "d1".toList, Pattern := "sound \"bd sn\" bpm 90".toList, BPM := 90,
              Cycle := 1, Elements := ["bd".toList, "sn".toList] } := by
  refine ⟨?_, ?_, rfl⟩
  · intro w b hw hword hb hline hhead hlast
    have htrim : trimSpace (w ++ " $ ".toList ++ b) = w ++ " $ ".toList ++ b := by
      apply trimSpace_eq_self
      · cases w with
        | nil => exact absurd rfl hw
        | cons c w =>
          intro x hx
          simp only [List.cons_append, List.head?_cons, Option.mem_def, Option.some.injEq] at hx
          subst hx
          exact reWord_not_unicodeIsSpace (hword _ (List.mem_cons_self _ _))
      · intro x hx
        rw [List.getLast?_append_of_ne_nil _ hb] at hx
        exact hlast x hx
    have hne : trimSpace (w ++ " $ ".toList ++ b) ≠ [] := by
      rw [htrim]
      simp [hb]
    refine ⟨_, parseStrudelPattern_ok _ hne, ?_, ?_⟩
    · simp only [htrim]
      rw [parseName_named w b hw hword hb (fun c hc => reDot_of_ne_newline (hline c hc))
        (fun c hc => unicodeIsSpace_false_reSpace (hhead c hc))]
    · simp only [htrim]
      rw [parseName_named w b hw hword hb (fun c hc => reDot_of_ne_newline (hline c hc))
        (fun c hc => unicodeIsSpace_false_reSpace (hhead c hc))]
  · intro s hne hshape
    refine ⟨_, parseStrudelPattern_ok s hne, ?_, ?_⟩
    · simp only [parseName_of_not_shape _ hshape]
    · simp only [parseName_of_not_shape _ hshape]

theorem parseStrudelPattern_name_witness :
    (∃ p, parseStrudelPattern ("d1".toList ++ " $ ".toList ++ "bd sn".toList) = .ok p ∧
        p.Name = "d1".toList ∧ p.Pattern = "bd sn".toList) :=
  parseStrudelPattern_name.1 "d1".toList "bd sn".toList (by decide) (by decide) (by decide)
    (by decide) (by decide) (by decide)

theorem tempoRef_nonneg (body : Str) : 0 ≤ tempoRef body := by
  unfold tempoRef
  cases firstBpmDigits body with
  | none => decide
  | some ds =>
    simp only []
    split
    · exact Int.ofNat_nonneg _
    · decide

theorem tempoRef_eq_zero_iff (body : Str) :
    tempoRef body = 0 ↔ ∃ ds, firstBpmDigits body = some ds ∧ digitsVal ds = 0 := by
  unfold tempoRef
  cases h : firstBpmDigits body with
  | none => simp
  | some ds =>
    simp only [Option.some.injEq, exists_eq_left']
    by_cases hfit : digitsVal ds ≤ maxInt
    · rw [if_pos hfit]
      exact Int.natCast_eq_zero
    · rw [if_neg hfit]
      constructor
      · intro h0; cases h0
      · intro h0
        exfalso
        apply hfit
        rw [h0]
        exact Nat.zero_le _

/-- C8 on the code: the text `bd bpm 0` parses without error to a pattern with tempo 0, where
the claim and the sibling paths (no `bpm` operand, a signed operand, an operand
that overflows) give the default 120; its step duration `60.0 / 0` is `+Inf`, so
its two events have duration `+Inf` and offsets NaN and `+Inf`, and
`evaluateStrudelPattern` returns the JSON encoding error instead of a result. -/
theorem evaluateStrudelPattern_bpm_zero :
    (∃ p, parseStrudelPattern "bd bpm 0".toList = .ok p ∧ p.BPM = 0 ∧
        p.Elements = ["bd".toList, "0".toList] ∧
        ∀ tbl, (generateAudioEvents tbl p).map (fun ev => (ev.Duration, ev.Time)) =
          [(.inf false, .nan), (.inf false, .inf false)]) ∧
      (∀ tbl, (evaluateStrudelPattern tbl "bd bpm 0".toList).Success = false ∧
        (evaluateStrudelPattern tbl "bd bpm 0".toList).Events = [] ∧
        (evaluateStrudelPattern tbl "bd bpm 0".toList).Error =
          "JSON encoding error: json: unsupported value: +Inf") ∧
      (∃ p, parseStrudelPattern "bd".toList = .ok p ∧ p.BPM = 120) ∧
      (∃ p, parseStrudelPattern "bd bpm -5".toList = .ok p ∧ p.BPM = 120) ∧
      (∃ p, parseStrudelPattern "bd bpm 99999999999999999999".toList = .ok p ∧ p.BPM = 120) := by
  refine ⟨⟨_, rfl, rfl, rfl, fun tbl => rfl⟩, fun tbl => ⟨rfl, rfl, ?_⟩,
    ⟨_, rfl, rfl⟩, ⟨_, rfl, rfl⟩, ⟨_, rfl, rfl⟩⟩
  have h : (evaluateStrudelPattern tbl "bd bpm 0".toList).Error =
      "JSON encoding error: json: unsupported value: " ++ Float64.formatSpecial (.inf false) :=
    rfl
  rw [h]
  decide

/-- C9: for every input that is not empty after trimming, parsing succeeds and
the tempo is `tempoRef` of the raw body: the value of the digit run of the first
occurrence of `bpm`, whitespace, digits when it fits a Go `int`, and 120 in every
other case (no occurrence, a non-numeric operand as in `bpm abc`, or overflow). -/
theorem parseStrudelPattern_tempo (s : Str) (h : trimSpace s ≠ []) :
    (∃ p, parseStrudelPattern s = .ok p ∧ p.BPM = tempoRef p.Pattern) ∧
      (parseStrudelPattern "bd bpm abc".toList).toOption.map (·.BPM) = some 120 ∧
      (parseStrudelPattern "bd bpm 9223372036854775808".toList).toOption.map (·.BPM)
        = some 120 ∧
      (parseStrudelPattern "bd bpm 9223372036854775807".toList).toOption.map (·.BPM)
        = some 9223372036854775807 := by
  exact ⟨⟨_, parseStrudelPattern_ok s h, rfl⟩, rfl, rfl, rfl⟩

theorem parseStrudelPattern_tempo_witness :
    (∃ p, parseStrudelPattern "bd bpm abc bpm 90 bpm 80".toList = .ok p ∧
        p.BPM = tempoRef p.Pattern) ∧
      (parseStrudelPattern "bd bpm abc".toList).toOption.map (·.BPM) = some 120 ∧
      (parseStrudelPattern "bd bpm 9223372036854775808".toList).toOption.map (·.BPM)
        = some 120 ∧
      (parseStrudelPattern "bd bpm 9223372036854775807".toList).toOption.map (·.BPM)
        = some 9223372036854775807 :=
  parseStrudelPattern_tempo "bd bpm abc bpm 90 bpm 80".toList (by decide)

/-! ## Element extraction on unquoted text -/

/-- No match of `quotedRegex` in a text without a double quote. -/
theorem searchFrom_quotedRegex_none (pos : Nat) (s : Str) (h : ∀ c ∈ s, reQuote c = false) :
    searchFrom quotedRegex pos s = none := by
  induction s generalizing pos with
  | nil => simp [searchFrom, matchAt, quotedRegex, runSeq, Re.run]
  | cons c s ih =>
    have hc := h c (List.mem_cons_self _ _)
    simp only [searchFrom, matchAt, quotedRegex, runSeq, Re.run, hc, Bool.false_eq_true, if_false]
    exact ih (pos + 1) (fun x hx => h x (List.mem_cons_of_mem _ hx))

theorem findAll_quotedRegex_nil (s : Str) (h : ∀ c ∈ s, reQuote c = false) :
    findAllStringSubmatch quotedRegex s = [] := by
  unfold findAllStringSubmatch
  simp only [allMatchesLoop, Nat.not_lt_zero, if_false, List.drop_zero,
    searchFrom_quotedRegex_none 0 s h]

theorem extractPatternElements_unquoted (s : Str) (h : ∀ c ∈ s, reQuote c = false) :
    extractPatternElements s = filterElements (fields s) := by
  unfold extractPatternElements
  simp only [findAll_quotedRegex_nil s h, List.foldl_nil, List.length_nil, if_true]

theorem fieldsLoop_append (cur t rest : Str) (h : ∀ c ∈ t, unicodeIsSpace c = false) :
    fieldsLoop cur (t ++ rest) = fieldsLoop (cur ++ t) rest := by
  induction t generalizing cur with
  | nil => simp
  | cons c t ih =>
    have hc := h c (List.mem_cons_self _ _)
    have e := ih (cur ++ [c]) (fun x hx => h x (List.mem_cons_of_mem _ hx))
    simp only [List.append_assoc, List.singleton_append] at e
    simp only [List.cons_append, fieldsLoop, hc, Bool.false_eq_true, if_false]
    exact e

theorem fields_joinSpaces (ts : List Str)
    (h : ∀ t ∈ ts, t ≠ [] ∧ ∀ c ∈ t, unicodeIsSpace c = false) :
    fields (joinSpaces ts) = ts := by
  unfold fields
  induction ts with
  | nil => rfl
  | cons t ts ih =>
    obtain ⟨hne, hsp⟩ := h t (List.mem_cons_self _ _)
    have hemp : t.isEmpty = false := by
      cases t with
      | nil => exact absurd rfl hne
      | cons _ _ => rfl
    cases ts with
    | nil =>
      have := fieldsLoop_append [] t [] hsp
      simp only [List.append_nil, List.nil_append] at this
      simp only [joinSpaces, this, fieldsLoop, hemp, Bool.false_eq_true, if_false]
    | cons t' ts =>
      have := fieldsLoop_append [] t (' ' :: joinSpaces (t' :: ts)) hsp
      simp only [List.nil_append] at this
      simp only [joinSpaces, this, fieldsLoop, show unicodeIsSpace ' ' = true from rfl, if_true,
        hemp, Bool.false_eq_true, if_false]
      rw [ih (fun x hx => h x (List.mem_cons_of_mem _ hx))]

theorem reWord_not_inCutset {c : Char} (h : reWord c = true) :
    inCutset "()[]\x7b\x7d".toList c = false := by
  have hcut : "()[]\x7b\x7d".toList = ['(', ')', '[', ']', '{', '}'] := rfl
  have h1 : ('(' : Char).toNat = 40 := rfl
  have h2 : (')' : Char).toNat = 41 := rfl
  have h3 : ('[' : Char).toNat = 91 := rfl
  have h4 : (']' : Char).toNat = 93 := rfl
  have h5 : ('{' : Char).toNat = 123 := rfl
  have h6 : ('}' : Char).toNat = 125 := rfl
  simp only [reWord, inRange, Bool.or_eq_true, Bool.and_eq_true, decide_eq_true_eq] at h
  simp only [inCutset, hcut, List.any_cons, List.any_nil, h1, h2, h3, h4, h5, h6, Bool.or_false,
    Bool.or_eq_false_iff, beq_eq_false_iff_ne, ne_eq]
  omega

theorem dropWhile_of_all_false {p : Char → Bool} (l : Str) (h : ∀ c ∈ l, p c = false) :
    l.dropWhile p = l := by
  cases l with
  | nil => rfl
  | cons c l => simp [List.dropWhile, h c (List.mem_cons_self _ _)]

theorem trim_word (t : Str) (h : ∀ c ∈ t, reWord c = true) : trim t "()[]\x7b\x7d".toList = t := by
  unfold trim
  rw [dropWhile_of_all_false t (fun c hc => reWord_not_inCutset (h c hc)),
    dropWhile_of_all_false t.reverse
      (fun c hc => reWord_not_inCutset (h c (List.mem_reverse.mp hc))),
    List.reverse_reverse]

theorem filterElements_words (ts : List Str)
    (h : ∀ t ∈ ts, t ≠ [] ∧ (∀ c ∈ t, reWord c = true) ∧ t ∉ keywords) :
    filterElements ts = ts := by
  induction ts with
  | nil => rfl
  | cons t ts ih =>
    obtain ⟨hne, hw, hk⟩ := h t (List.mem_cons_self _ _)
    have hemp : t.isEmpty = false := by
      cases t with
      | nil => exact absurd rfl hne
      | cons _ _ => rfl
    have hkw : keywords.contains t = false := by
      simpa using hk
    simp only [filterElements, trim_word t hw, hkw, hemp, Bool.not_false, Bool.and_self, if_true]
    rw [ih (fun x hx => h x (List.mem_cons_of_mem _ hx))]

theorem joinSpaces_chars (ts : List Str) (h : ∀ t ∈ ts, ∀ c ∈ t, reWord c = true) :
    ∀ c ∈ joinSpaces ts, reWord c = true ∨ c = ' ' := by
  induction ts with
  | nil => intro c hc; cases hc
  | cons t ts ih =>
    cases ts with
    | nil =>
      intro c hc
      exact Or.inl (h t (List.mem_cons_self _ _) c hc)
    | cons t' ts =>
      intro c hc
      simp only [joinSpaces, List.mem_append, List.mem_cons] at hc
      rcases hc with hc | hc | hc
      · exact Or.inl (h t (List.mem_cons_self _ _) c hc)
      · exact Or.inr hc
      · exact ih (fun x hx => h x (List.mem_cons_of_mem _ hx)) c hc

theorem joinSpaces_head (t : Str) (ts : List Str) (hne : t ≠ []) :
    (joinSpaces (t :: ts)).head? = t.head? := by
  cases t with
  | nil => exact absurd rfl hne
  | cons c t =>
    cases ts with
    | nil => rfl
    | cons _ _ => rfl

theorem joinSpaces_ne_nil (t : Str) (ts : List Str) (hne : t ≠ []) : joinSpaces (t :: ts) ≠ [] := by
  cases t with
  | nil => exact absurd rfl hne
  | cons c t =>
    cases ts with
    | nil => simp [joinSpaces]
    | cons _ _ => simp [joinSpaces]

theorem joinSpaces_getLast (ts : List Str) (h : ∀ t ∈ ts, t ≠ [] ∧ ∀ c ∈ t, reWord c = true) :
    ∀ c ∈ (joinSpaces ts).getLast?, reWord c = true := by
  induction ts with
  | nil => intro c hc; cases hc
  | cons t ts ih =>
    cases ts with
    | nil =>
      intro c hc
      exact (h t (List.mem_cons_self _ _)).2 c (List.mem_of_mem_getLast? hc)
    | cons t' ts =>
      intro c hc
      have hne' : joinSpaces (t' :: ts) ≠ [] :=
        joinSpaces_ne_nil t' ts (h t' (by simp)).1
      have e : joinSpaces (t :: t' :: ts) = (t ++ [' ']) ++ joinSpaces (t' :: ts) := by
        simp [joinSpaces]
      rw [e, List.getLast?_append_of_ne_nil _ hne'] at hc
      exact ih (fun x hx => h x (List.mem_cons_of_mem _ hx)) c hc

theorem joinSpaces_not_shape (ts : List Str) (h : ∀ t ∈ ts, ∀ c ∈ t, reWord c = true) :
    ¬ NamedShape (joinSpaces ts) := by
  rintro ⟨w, ws, body, _, _, _, _, he⟩
  have hmem : '$' ∈ joinSpaces ts := by
    rw [he]
    simp
  rcases joinSpaces_chars ts h '$' hmem with h1 | h1
  · exact absurd h1 (by decide)
  · exact absurd h1 (by decide)

theorem joinSpaces_no_quote (ts : List Str) (h : ∀ t ∈ ts, ∀ c ∈ t, reWord c = true) :
    ∀ c ∈ joinSpaces ts, reQuote c = false := by
  intro c hc
  rcases joinSpaces_chars ts h c hc with h1 | h1
  · exact reWord_not_reQuote h1
  · subst h1; rfl

/-- C7: for a non-empty list of non-empty tokens made of word characters, none a
reserved keyword, parsing the tokens joined by single spaces returns exactly those
tokens in order as elements; and `bd sn hh` parses to the elements `bd`, `sn`, `hh`,
whose instruments are kick, snare, hihat. -/
theorem parseStrudelPattern_roundtrip :
    (∀ ts : List Str, ts ≠ [] →
        (∀ t ∈ ts, t ≠ [] ∧ (∀ c ∈ t, reWord c = true) ∧ t ∉ keywords) →
        ∃ p, parseStrudelPattern (joinSpaces ts) = .ok p ∧ p.Elements = ts) ∧
      (∃ p, parseStrudelPattern "bd sn hh".toList = .ok p ∧
        p.Elements = ["bd".toList, "sn".toList, "hh".toList] ∧
        ∀ tbl, p.Elements.map (detectInstrument tbl) = ["kick", "snare", "hihat"]) := by
  refine ⟨?_, ⟨_, rfl, rfl, fun _ => rfl⟩⟩
  intro ts hts h
  have hword : ∀ t ∈ ts, ∀ c ∈ t, reWord c = true := fun t ht => (h t ht).2.1
  cases ts with
  | nil => exact absurd rfl hts
  | cons t0 rest =>
    have h0 := h t0 (List.mem_cons_self _ _)
    have htrim : trimSpace (joinSpaces (t0 :: rest)) = joinSpaces (t0 :: rest) := by
      apply trimSpace_eq_self
      · rw [joinSpaces_head t0 rest h0.1]
        intro c hc
        exact reWord_not_unicodeIsSpace (h0.2.1 c (List.mem_of_mem_head? hc))
      · intro c hc
        exact reWord_not_unicodeIsSpace
          (joinSpaces_getLast (t0 :: rest) (fun t ht => ⟨(h t ht).1, (h t ht).2.1⟩) c hc)
    have hne : trimSpace (joinSpaces (t0 :: rest)) ≠ [] := by
      rw [htrim]
      exact joinSpaces_ne_nil t0 rest h0.1
    refine ⟨_, parseStrudelPattern_ok _ hne, ?_⟩
    simp only [htrim, parseName_of_not_shape _ (joinSpaces_not_shape _ hword)]
    rw [extractPatternElements_unquoted _ (joinSpaces_no_quote _ hword),
      fields_joinSpaces _ (fun t ht =>
        ⟨(h t ht).1, fun c hc => reWord_not_unicodeIsSpace ((h t ht).2.1 c hc)⟩),
      filterElements_words _ h]

theorem parseStrudelPattern_roundtrip_witness :
    ∃ p, parseStrudelPattern (joinSpaces ["c4".toList, "e4".toList, "g4".toList, "bd".toList])
        = .ok p ∧ p.Elements = ["c4".toList, "e4".toList, "g4".toList, "bd".toList] :=
  parseStrudelPattern_roundtrip.1 _ (by decide) (by decide)

/-- C10 on the code: the raw body `sound " "` contains the quoted substring `" "`,
yet `extractPatternElements` returns two elements, each a lone double quote, taken
from the text as a whole. -/
theorem extractPatternElements_blank_quotes :
    findAllStringSubmatch quotedRegex "sound \" \"".toList = [["\" \"".toList, " ".toList]] ∧
      extractPatternElements "sound \" \"".toList = ["\"".toList, "\"".toList] := by
  exact ⟨rfl, rfl⟩

/-! ## Progress of the matcher and the bound of the all-matches loop -/

theorem forward_starGreedy (p : Char → Bool) (k : Cont) (hk : Forward k) :
    Forward (starGreedy p k) := by
  intro pos s
  induction s generalizing pos with
  | nil =>
    intro caps r h
    exact hk pos [] caps r (by simpa [starGreedy] using h)
  | cons c s ih =>
    intro caps r h
    by_cases hc : p c = true
    · simp only [starGreedy, hc, if_true] at h
      cases hrec : starGreedy p k (pos + 1) s caps with
      | some r' =>
        have hb := ih (pos + 1) caps r' hrec
        rw [hrec] at h
        cases h
        omega
      | none =>
        rw [hrec] at h
        exact hk pos (c :: s) caps r h
    · simp only [starGreedy, hc, Bool.false_eq_true, if_false] at h
      exact hk pos (c :: s) caps r h

theorem forward_run (re : Re) : ∀ k : Cont, Forward k → Forward (re.run k) := by
  induction re with
  | bot =>
    intro k hk pos s caps r h
    simp only [Re.run] at h
    split at h
    · exact hk _ _ _ _ h
    · cases h
  | eot =>
    intro k hk pos s caps r h
    simp only [Re.run] at h
    split at h
    · exact hk _ _ _ _ h
    · cases h
  | cls p =>
    intro k hk pos s caps r h
    cases s with
    | nil => simp [Re.run] at h
    | cons c s =>
      simp only [Re.run] at h
      split at h
      · have := hk _ _ _ _ h
        omega
      · cases h
  | opt p =>
    intro k hk pos s caps r h
    cases s with
    | nil => exact hk _ _ _ _ (by simpa [Re.run] using h)
    | cons c s =>
      simp only [Re.run] at h
      split at h
      · cases hrec : k (pos + 1) s caps with
        | some r' =>
          have hb := hk _ _ _ _ hrec
          rw [hrec] at h
          cases h
          omega
        | none =>
          rw [hrec] at h
          exact hk _ _ _ _ h
      · exact hk _ _ _ _ h
  | star p =>
    intro k hk
    exact forward_starGreedy p k hk
  | plus p =>
    intro k hk pos s caps r h
    cases s with
    | nil => simp [Re.run] at h
    | cons c s =>
      simp only [Re.run] at h
      split at h
      · have := forward_starGreedy p k hk _ _ _ _ h
        omega
      · cases h
  | grp re ih =>
    intro k hk pos s caps r h
    simp only [Re.run] at h
    exact ih (fun pos' s' caps' => k pos' s' (caps' ++ [(pos, pos')]))
      (fun pos' s' caps' r' h' => hk pos' s' _ r' h') pos s caps r h

theorem forward_runSeq (re : List Re) : ∀ k : Cont, Forward k → Forward (runSeq re k) := by
  induction re with
  | nil => intro k hk; exact hk
  | cons r rs ih => intro k hk; exact forward_run r _ (ih k hk)

theorem matchAt_forward (re : List Re) (pos : Nat) (s : Str) (m : MatchEnd)
    (h : matchAt re pos s = some m) : pos ≤ m.1 :=
  forward_runSeq re _ (fun _ _ _ r h => by cases h; exact Nat.le_refl _) pos s [] m h

theorem searchFrom_forward (re : List Re) (pos : Nat) (s : Str) (m : Nat × MatchEnd)
    (h : searchFrom re pos s = some m) : pos ≤ m.1 ∧ m.1 ≤ m.2.1 := by
  induction s generalizing pos with
  | nil =>
    simp only [searchFrom] at h
    cases hm : matchAt re pos [] with
    | none => rw [hm] at h; cases h
    | some e =>
      rw [hm] at h
      cases h
      exact ⟨Nat.le_refl _, matchAt_forward re pos [] e hm⟩
  | cons c s ih =>
    simp only [searchFrom] at h
    cases hm : matchAt re pos (c :: s) with
    | none =>
      rw [hm] at h
      have := ih (pos + 1) h
      omega
    | some e =>
      rw [hm] at h
      cases h
      exact ⟨Nat.le_refl _, matchAt_forward re pos (c :: s) e hm⟩

/-- Once the rounds left cover the rest of the text, further rounds change nothing:
the bound `text.length + 1` of `findAllStringSubmatch` is never exhausted. -/
theorem allMatchesLoop_fuel (re : List Re) (text : Str) (fuel : Nat) :
    ∀ (pos : Nat) (prev : Option Nat) (extra : Nat), text.length + 1 ≤ fuel + pos →
      allMatchesLoop re text (fuel + extra) pos prev = allMatchesLoop re text fuel pos prev := by
  induction fuel with
  | zero =>
    intro pos prev extra h
    cases extra with
    | zero => rfl
    | succ e =>
      have : text.length < pos := by omega
      simp [allMatchesLoop, this]
  | succ fuel ih =>
    intro pos prev extra h
    have e : fuel + 1 + extra = (fuel + extra) + 1 := by omega
    rw [e]
    simp only [allMatchesLoop]
    by_cases hlt : text.length < pos
    · simp only [hlt, if_true]
    · simp only [hlt, if_false]
      cases hs : searchFrom re pos (text.drop pos) with
      | none => rfl
      | some m =>
        have hf := searchFrom_forward re pos _ m hs
        have hpos : text.length + 1 ≤
            fuel + (if (m.2.1 == pos) = true then pos + 1 else m.2.1) := by
          by_cases he : m.2.1 = pos
          · simp only [he, beq_self_eq_true, if_true]
            omega
          · have : (m.2.1 == pos) = false := by simpa using he
            simp only [this, Bool.false_eq_true, if_false]
            omega
        simp only [ih _ _ extra hpos]

/-! ## The reference tempo scan in words -/

/-- The reference occurrence test in words: the text starts with `bpm`, then a
non-empty run of whitespace, then a non-empty maximal run of digits `ds`. -/
theorem bpmDigitsHere_eq_some_iff (s ds : Str) :
    bpmDigitsHere s = some ds ↔
      ∃ ws rest : Str, s = "bpm".toList ++ ws ++ ds ++ rest ∧ ws ≠ [] ∧
        (∀ c ∈ ws, reSpace c = true) ∧ ds ≠ [] ∧ (∀ c ∈ ds, reDigit c = true) ∧
        (∀ c ∈ rest.head?, reDigit c = false) := by
  constructor
  · intro h
    unfold bpmDigitsHere at h
    by_cases h3 : s.take 3 = "bpm".toList
    · rw [if_pos h3] at h
      simp only [] at h
      by_cases h2 : (s.drop 3).takeWhile reSpace ≠ [] ∧
          ((s.drop 3).dropWhile reSpace).takeWhile reDigit ≠ []
      · rw [if_pos h2] at h
        cases h
        refine ⟨(s.drop 3).takeWhile reSpace,
          ((s.drop 3).dropWhile reSpace).dropWhile reDigit, ?_, h2.1,
          fun c hc => List.mem_takeWhile_imp hc, h2.2, fun c hc => List.mem_takeWhile_imp hc, ?_⟩
        · rw [← h3, List.append_assoc, List.append_assoc, List.takeWhile_append_dropWhile,
            List.takeWhile_append_dropWhile, List.take_append_drop]
        · intro c hc
          cases hd : ((s.drop 3).dropWhile reSpace).dropWhile reDigit with
          | nil => rw [hd] at hc; cases hc
          | cons x r =>
            rw [hd] at hc
            simp only [List.head?_cons, Option.mem_def, Option.some.injEq] at hc
            subst hc
            have := List.head_dropWhile_not reDigit ((s.drop 3).dropWhile reSpace)
              (by rw [hd]; exact List.cons_ne_nil _ _)
            simpa [hd] using this
      · rw [if_neg h2] at h; cases h
    · rw [if_neg h3] at h; cases h
  · rintro ⟨ws, rest, hs, hws, hsp, hds, hdg, hrest⟩
    have htake : s.take 3 = "bpm".toList := by
      rw [hs, List.append_assoc, List.append_assoc]
      rfl
    have hdrop : s.drop 3 = ws ++ (ds ++ rest) := by
      rw [hs, List.append_assoc, List.append_assoc]
      rfl
    have hhead : ∀ c ∈ (ds ++ rest).head?, reSpace c = false := by
      cases ds with
      | nil => exact absurd rfl hds
      | cons d ds =>
        intro c hc
        simp only [List.cons_append, List.head?_cons, Option.mem_def, Option.some.injEq] at hc
        subst hc
        by_contra hcon
        have := reSpace_not_reDigit (by simpa using hcon : reSpace d = true)
        rw [hdg d (List.mem_cons_self _ _)] at this
        cases this
    unfold bpmDigitsHere
    rw [if_pos htake]
    simp only [hdrop, takeWhile_append_stop ws _ hsp hhead, dropWhile_append_stop ws _ hsp hhead,
      takeWhile_append_stop ds rest hdg hrest]
    rw [if_pos ⟨hws, hds⟩]

/-- The reference scan returns the digit run of the leftmost position that
carries an occurrence. -/
theorem firstBpmDigits_eq_some_iff (s ds : Str) :
    firstBpmDigits s = some ds ↔
      ∃ i, bpmDigitsHere (s.drop i) = some ds ∧ ∀ j < i, bpmDigitsHere (s.drop j) = none := by
  induction s with
  | nil =>
    simp only [firstBpmDigits, List.drop_nil]
    constructor
    · intro h; cases h
    · rintro ⟨_, h, _⟩
      cases h
  | cons c s ih =>
    unfold firstBpmDigits
    cases hh : bpmDigitsHere (c :: s) with
    | some d =>
      simp only [Option.some.injEq]
      constructor
      · intro he
        subst he
        exact ⟨0, hh, fun j hj => absurd hj (Nat.not_lt_zero _)⟩
      · rintro ⟨i, hi, hlt⟩
        cases i with
        | zero =>
          rw [List.drop_zero, hh] at hi
          exact Option.some.inj hi
        | succ i =>
          have := hlt 0 (Nat.succ_pos _)
          rw [List.drop_zero, hh] at this
          cases this
    | none =>
      simp only []
      rw [ih]
      constructor
      · rintro ⟨i, hi, hlt⟩
        refine ⟨i + 1, hi, ?_⟩
        intro j hj
        cases j with
        | zero => exact hh
        | succ j => exact hlt j (by omega)
      · rintro ⟨i, hi, hlt⟩
        cases i with
        | zero =>
          rw [List.drop_zero, hh] at hi
          cases hi
        | succ i =>
          exact ⟨i, hi, fun j hj => hlt (j + 1) (by omega)⟩

/-- The reference scan finds nothing exactly when no position carries an occurrence. -/
theorem firstBpmDigits_eq_none_iff (s : Str) :
    firstBpmDigits s = none ↔ ∀ i, bpmDigitsHere (s.drop i) = none := by
  induction s with
  | nil =>
    simp only [firstBpmDigits, List.drop_nil, true_iff]
    intro _
    rfl
  | cons c s ih =>
    unfold firstBpmDigits
    cases hh : bpmDigitsHere (c :: s) with
    | some d =>
      simp only []
      constructor
      · intro h; cases h
      · intro h
        have := h 0
        rw [List.drop_zero, hh] at this
        cases this
    | none =>
      simp only []
      rw [ih]
      constructor
      · intro h i
        cases i with
        | zero => exact hh
        | succ i => exact h i
      · intro h i
        exact h (i + 1)

/-! ## Invariants of the extracted elements -/

theorem trim_getLast (x cut : Str) : ∀ c ∈ (trim x cut).getLast?, inCutset cut c = false := by
  intro c hc
  unfold trim at hc
  rw [List.getLast?_reverse] at hc
  have h := List.head?_dropWhile_not (inCutset cut) (x.dropWhile (inCutset cut)).reverse
  rw [Option.mem_def.mp hc] at h
  exact h

theorem trim_head (x cut : Str) : ∀ c ∈ (trim x cut).head?, inCutset cut c = false := by
  intro c hc
  have hpre : trim x cut <+: x.dropWhile (inCutset cut) := by
    unfold trim
    have := List.dropWhile_suffix (l := (x.dropWhile (inCutset cut)).reverse) (inCutset cut)
    rw [← List.reverse_prefix, List.reverse_reverse] at this
    exact this
  obtain ⟨t, ht⟩ := hpre
  cases hz : trim x cut with
  | nil => rw [hz] at hc; cases hc
  | cons a z =>
    rw [hz] at hc ht
    simp only [List.head?_cons, Option.mem_def, Option.some.injEq] at hc
    subst hc
    have h := List.head?_dropWhile_not (inCutset cut) x
    rw [← ht] at h
    exact h

theorem not_mem_of_inCutset_false {cut : Str} {c : Char} (h : inCutset cut c = false) :
    c ∉ cut := by
  intro hmem
  have : inCutset cut c = true := by
    unfold inCutset
    exact List.any_eq_true.mpr ⟨c, hmem, by simp⟩
  rw [h] at this
  cases this

theorem mem_filterElements (l : List Str) (e : Str) (h : e ∈ filterElements l) :
    ∃ x ∈ l, e = trim x "()[]\x7b\x7d".toList ∧ keywords.contains e = false ∧ e ≠ [] := by
  induction l with
  | nil => cases h
  | cons x l ih =>
    unfold filterElements at h
    simp only [] at h
    split at h
    · rename_i hkeep
      simp only [Bool.and_eq_true, Bool.not_eq_true'] at hkeep
      rcases List.mem_cons.mp h with he | he
      · refine ⟨x, List.mem_cons_self _ _, he, ?_, ?_⟩
        · rw [he]
          exact hkeep.1
        · rw [he]
          intro hnil
          rw [hnil] at hkeep
          exact absurd hkeep.2 (by decide)
      · obtain ⟨y, hy, hrest⟩ := ih he
        exact ⟨y, List.mem_cons_of_mem _ hy, hrest⟩
    · obtain ⟨y, hy, hrest⟩ := ih h
      exact ⟨y, List.mem_cons_of_mem _ hy, hrest⟩

theorem extractPatternElements_eq_filter (s : Str) :
    ∃ l, extractPatternElements s = filterElements l := by
  unfold extractPatternElements
  exact ⟨_, rfl⟩

/-- C11: for every input string, every element returned by `extractPatternElements`
is non-empty, is none of the reserved keywords, and neither starts nor ends with
one of the bracket characters `( ) [ ]` and the two braces. -/
theorem extractPatternElements_clean (s : Str) (e : Str) (h : e ∈ extractPatternElements s) :
    e ≠ [] ∧
      e ∉ ["sound".toList, "note".toList, "gain".toList, "pan".toList, "delay".toList,
        "reverb".toList, "$".toList, "|".toList, "fast".toList, "slow".toList, "rev".toList,
        "bpm".toList] ∧
      (∀ c ∈ e.head?, c ∉ "()[]\x7b\x7d".toList) ∧
      (∀ c ∈ e.getLast?, c ∉ "()[]\x7b\x7d".toList) := by
  obtain ⟨l, hl⟩ := extractPatternElements_eq_filter s
  rw [hl] at h
  obtain ⟨x, _, he, hk, hne⟩ := mem_filterElements l e h
  refine ⟨hne, ?_, ?_, ?_⟩
  · have : e ∉ keywords := by simpa using hk
    exact this
  · intro c hc
    rw [he] at hc
    exact not_mem_of_inCutset_false (trim_head x _ c hc)
  · intro c hc
    rw [he] at hc
    exact not_mem_of_inCutset_false (trim_getLast x _ c hc)

theorem extractPatternElements_clean_witness :
    "bd".toList ≠ [] ∧
      "bd".toList ∉ ["sound".toList, "note".toList, "gain".toList, "pan".toList, "delay".toList,
        "reverb".toList, "$".toList, "|".toList, "fast".toList, "slow".toList, "rev".toList,
        "bpm".toList] ∧
      (∀ c ∈ "bd".toList.head?, c ∉ "()[]\x7b\x7d".toList) ∧
      (∀ c ∈ "bd".toList.getLast?, c ∉ "()[]\x7b\x7d".toList) :=
  extractPatternElements_clean "sound \"[bd] (sn)\" bpm".toList "bd".toList (by decide)

/-! ## Instruments of the scheduled events -/

theorem getD_ite_mem (L : List String) (c : Prop) [Decidable c] (a d : String)
    (e : Option String) (ha : a ∈ L) (he : e.getD d ∈ L) :
    (if c then some a else e).getD d ∈ L := by
  by_cases h : c
  · rw [if_pos h]; exact ha
  · rw [if_neg h]; exact he

/-- The eight values `detectInstrument` can return. -/
theorem detectInstrument_mem (tbl : Char → Char) (e : Str) :
    detectInstrument tbl e ∈
      ["kick", "snare", "hihat", "openhat", "clap", "cymbal", "synth", "sample"] := by
  rw [detectInstrument_getD]
  simp only [drumMap, lookup_cons_ite, List.lookup_nil]
  repeat (refine getD_ite_mem _ _ _ _ _ (by decide) ?_)
  by_cases hn : noteShape (toLower tbl e) = true
  · rw [Option.getD_none, if_pos hn]; decide
  · rw [Option.getD_none, if_neg hn]; decide

theorem generateAudioEvents_openhat (tbl : Char → Char) :
    generateAudioEvents tbl openhatPattern = [eventAt tbl 120 1 0 "oh".toList] := by
  rw [generateAudioEvents_eq]
  rfl

/-- C12 as stated fails: the one-element pattern `oh` yields an event whose
instrument is `openhat`, which is none of kick, snare, hihat, synth, sample. -/
theorem generateAudioEvents_instrument_not_five :
    ¬ ∀ (tbl : Char → Char) (p : StrudelPattern), ∀ ev ∈ generateAudioEvents tbl p,
      ev.Instrument ∈ ["kick", "snare", "hihat", "synth", "sample"] := by
  intro h
  have h1 := h id openhatPattern (eventAt id 120 1 0 "oh".toList)
    (by rw [generateAudioEvents_openhat]; exact List.mem_singleton_self _)
  have h2 : (eventAt id 120 1 0 "oh".toList).Instrument = "openhat" := rfl
  rw [h2] at h1
  exact absurd h1 (by decide)

/-- C12 (amended): for every pattern, the instrument of every event produced by
`generateAudioEvents` is one of the eight values kick, snare, hihat, openhat, clap,
cymbal, synth, sample. -/
theorem generateAudioEvents_instrument (tbl : Char → Char) (p : StrudelPattern)
    (ev : AudioEvent) (h : ev ∈ generateAudioEvents tbl p) :
    ev.Instrument ∈
      ["kick", "snare", "hihat", "openhat", "clap", "cymbal", "synth", "sample"] := by
  rw [generateAudioEvents_eq] at h
  obtain ⟨i, _, hi⟩ := List.mem_map.mp h
  rw [← hi]
  exact detectInstrument_mem tbl _

theorem generateAudioEvents_instrument_witness :
    (eventAt id 120 1 0 "oh".toList).Instrument ∈
      ["kick", "snare", "hihat", "openhat", "clap", "cymbal", "synth", "sample"] :=
  generateAudioEvents_instrument id openhatPattern (eventAt id 120 1 0 "oh".toList)
    (by rw [generateAudioEvents_openhat]; exact List.mem_singleton_self _)

/-! ## Patterns without playable elements -/

theorem playableIndices_all_rest (els : List Str) (h : ∀ e ∈ els, isRest e = true) :
    playableIndices els = [] := by
  unfold playableIndices
  rw [List.filter_eq_nil_iff]
  intro i hi
  have hi' : i < els.length := List.mem_range.mp hi
  have hm : els.getD i [] ∈ els := by
    rw [List.getD_eq_getElem _ _ hi']
    exact List.getElem_mem _
  rw [h _ hm]
  decide

theorem generateAudioEvents_all_rest (tbl : Char → Char) (p : StrudelPattern)
    (h : ∀ e ∈ p.Elements, e = "~".toList) : generateAudioEvents tbl p = [] := by
  rw [generateAudioEvents_eq, playableIndices_all_rest p.Elements
    (fun e he => decide_eq_true (Or.inl (h e he)))]
  rfl

/-- C13: a pattern whose elements are all the rest marker `~` (or that has no
elements) yields no events; evaluating a text that parses to such a pattern
succeeds with zero events and no error; and `~ ~ ~` parses to three `~` elements
and evaluates with success and zero events. -/
theorem evaluateStrudelPattern_all_rest (tbl : Char → Char) :
    (∀ p : StrudelPattern, (∀ e ∈ p.Elements, e = "~".toList) →
        generateAudioEvents tbl p = []) ∧
      (∀ (s : Str) (p : StrudelPattern), parseStrudelPattern s = .ok p →
        (∀ e ∈ p.Elements, e = "~".toList) →
        (evaluateStrudelPattern tbl s).Success = true ∧
          (evaluateStrudelPattern tbl s).Events = [] ∧
          (evaluateStrudelPattern tbl s).Error = "") ∧
      (∃ p, parseStrudelPattern "~ ~ ~".toList = .ok p ∧
        p.Elements = ["~".toList, "~".toList, "~".toList]) ∧
      (evaluateStrudelPattern tbl "~ ~ ~".toList).Success = true ∧
      (evaluateStrudelPattern tbl "~ ~ ~".toList).Events.length = 0 := by
  have hgen : ∀ (s : Str) (p : StrudelPattern), parseStrudelPattern s = .ok p →
      (∀ e ∈ p.Elements, e = "~".toList) →
      (evaluateStrudelPattern tbl s).Success = true ∧
        (evaluateStrudelPattern tbl s).Events = [] ∧
        (evaluateStrudelPattern tbl s).Error = "" := by
    intro s p hp hall
    have hr : evaluationResult tbl s =
        { Success := true, Pattern := p, Events := generateAudioEvents tbl p,
          Message := "Successfully evaluated pattern '" ++ String.mk p.Name ++ "' with "
            ++ toString (generateAudioEvents tbl p).length ++ " events",
          Error := "" } := by
      unfold evaluationResult
      rw [hp]
    have he : (evaluationResult tbl s).Events = [] := by
      rw [hr]
      exact generateAudioEvents_all_rest tbl p hall
    have hev : evaluateStrudelPattern tbl s = evaluationResult tbl s := by
      unfold evaluateStrudelPattern
      rw [he]
      rfl
    rw [hev]
    exact ⟨by rw [hr], he, by rw [hr]⟩
  have hp : parseStrudelPattern "~ ~ ~".toList =
      .ok { Name := "unnamed".toList, Pattern := "~ ~ ~".toList, BPM := 120, Cycle := 1,
            Elements := ["~".toList, "~".toList, "~".toList] } := rfl
  have hex := hgen _ _ hp (by decide)
  refine ⟨fun p h => generateAudioEvents_all_rest tbl p h, hgen, ⟨_, hp, rfl⟩, hex.1, ?_⟩
  rw [hex.2.1]
  rfl

theorem evaluateStrudelPattern_all_rest_witness :
    generateAudioEvents id
        { Name := "unnamed".toList, Pattern := "~ ~".toList, BPM := 90, Cycle := 1,
          Elements := ["~".toList, "~".toList] } = [] :=
  (evaluateStrudelPattern_all_rest id).1 _ (by decide)

/-! ## Playback -/

/-- C14 as stated fails: for the instrument `sample` and a player that is created,
`playSound` returns no error. -/
theorem playSound_sample_no_error :
    ¬ ∀ (playerCreated : Bool) (instrument : String) (note : Str),
      instrument ∉ ["kick", "snare", "hihat", "synth"] →
      (playSound playerCreated instrument note).2 ≠ none := by
  intro h
  exact h true "sample" "xyz".toList (by decide) rfl

/-- C14 (amended): for every instrument that is not kick, snare, hihat or synth,
`playSound` chooses the kick buffer and behaves exactly as for `kick`; it reports
no unsupported-instrument condition, its only error being a player that could not
be created. -/
theorem playSound_default_kick (playerCreated : Bool) (instrument : String) (note : Str)
    (h : instrument ∉ ["kick", "snare", "hihat", "synth"]) :
    (playSound playerCreated instrument note).1 = Waveform.generateKick ∧
      playSound playerCreated instrument note = playSound playerCreated "kick" note ∧
      ((playSound playerCreated instrument note).2 = none ↔ playerCreated = true) := by
  simp only [List.mem_cons, List.mem_singleton, List.not_mem_nil, or_false, not_or] at h
  obtain ⟨h1, h2, h3, h4⟩ := h
  have hsel : selectBuffer instrument note = Waveform.generateKick := by
    unfold selectBuffer
    rw [if_neg h1, if_neg h2, if_neg h3, if_neg h4]
  have hk : selectBuffer "kick" note = Waveform.generateKick := rfl
  cases playerCreated
  · simp [playSound, hsel, hk]
  · simp [playSound, hsel, hk]

theorem playSound_default_kick_witness :
    (playSound true "openhat" "oh".toList).1 = Waveform.generateKick ∧
      playSound true "openhat" "oh".toList = playSound true "kick" "oh".toList ∧
      ((playSound true "openhat" "oh".toList).2 = none ↔ true = true) :=
  playSound_default_kick true "openhat" "oh".toList (by decide)

/-! ## Note frequencies -/

theorem lookup_cons_rat (k a : Str) (b : ℚ) (es : List (Str × ℚ)) :
    List.lookup k ((a, b) :: es) = if k = a then some b else List.lookup k es := by
  by_cases h : k = a
  · subst h; simp [List.lookup]
  · have : (k == a) = false := by simpa using h
    simp [List.lookup, this, h]

theorem noteToFrequency_default (note : Str)
    (h : note ∉ ["c4".toList, "d4".toList, "e4".toList, "f4".toList, "g4".toList, "a4".toList,
      "b4".toList, "c5".toList, "d5".toList, "e5".toList]) :
    noteToFrequency note = 440 := by
  simp only [List.mem_cons, List.mem_singleton, List.not_mem_nil, or_false, not_or] at h
  obtain ⟨h1, h2, h3, h4, h5, h6, h7, h8, h9, h10⟩ := h
  unfold noteToFrequency noteMap
  simp only [lookup_cons_rat, List.lookup_nil, if_neg h1, if_neg h2, if_neg h3, if_neg h4,
    if_neg h5, if_neg h6, if_neg h7, if_neg h8, if_neg h9, if_neg h10]
  norm_num

/-- C16: `noteToFrequency` returns the table value for each of the ten keys
`c4` to `e5`, and 440 for every other string; the lookup is on the raw text, so a
note with an upper-case letter gets 440, as does `C4`, which `detectInstrument`
classifies as synth and `playSound` therefore renders at 440 Hz. -/
theorem noteToFrequency_table :
    (noteToFrequency "c4".toList = 261.63 ∧ noteToFrequency "d4".toList = 293.66 ∧
      noteToFrequency "e4".toList = 329.63 ∧ noteToFrequency "f4".toList = 349.23 ∧
      noteToFrequency "g4".toList = 392.00 ∧ noteToFrequency "a4".toList = 440.00 ∧
      noteToFrequency "b4".toList = 493.88 ∧ noteToFrequency "c5".toList = 523.25 ∧
      noteToFrequency "d5".toList = 587.33 ∧ noteToFrequency "e5".toList = 659.25) ∧
    (∀ note : Str,
      note ∉ ["c4".toList, "d4".toList, "e4".toList, "f4".toList, "g4".toList, "a4".toList,
        "b4".toList, "c5".toList, "d5".toList, "e5".toList] →
      noteToFrequency note = 440) ∧
    (∀ note : Str, (∃ c ∈ note, inRange 0x41 0x5a c = true) → noteToFrequency note = 440) ∧
    (∀ tbl : Char → Char, detectInstrument tbl "C4".toList = "synth") ∧
    noteToFrequency "C4".toList = 440 ∧
    (∀ tbl : Char → Char,
      playSound true (detectInstrument tbl "C4".toList) "C4".toList =
        (Waveform.generateSynth 440, none)) := by
  refine ⟨⟨rfl, rfl, rfl, rfl, rfl, rfl, rfl, rfl, rfl, rfl⟩, noteToFrequency_default, ?_,
    fun _ => rfl, ?_, ?_⟩
  · rintro note ⟨c, hc, hup⟩
    apply noteToFrequency_default
    intro hmem
    have hlow : ∀ k ∈ ["c4".toList, "d4".toList, "e4".toList, "f4".toList, "g4".toList,
        "a4".toList, "b4".toList, "c5".toList, "d5".toList, "e5".toList],
        ∀ x ∈ k, inRange 0x41 0x5a x = false := by decide
    rw [hlow note hmem c hc] at hup
    cases hup
  · exact noteToFrequency_default _ (by decide)
  · intro tbl
    have h1 : detectInstrument tbl "C4".toList = "synth" := rfl
    have h2 : noteToFrequency "C4".toList = 440 := noteToFrequency_default _ (by decide)
    rw [h1]
    simp only [playSound, selectBuffer, h2, if_true]
    rfl

theorem noteToFrequency_table_witness : noteToFrequency "A4".toList = 440 :=
  noteToFrequency_table.2.2.1 "A4".toList ⟨'A', by decide, by decide⟩

/-! ## The operand of `bpm` as an element -/

theorem filterElements_words_filter (ts : List Str)
    (h : ∀ t ∈ ts, t ≠ [] ∧ ∀ c ∈ t, reWord c = true) :
    filterElements ts = ts.filter (fun t => decide (t ∉ keywords)) := by
  induction ts with
  | nil => rfl
  | cons t ts ih =>
    obtain ⟨hne, hw⟩ := h t (List.mem_cons_self _ _)
    have hemp : t.isEmpty = false := by
      cases t with
      | nil => exact absurd rfl hne
      | cons _ _ => rfl
    have ih' := ih (fun x hx => h x (List.mem_cons_of_mem _ hx))
    by_cases hk : t ∈ keywords
    · have hkw : keywords.contains t = true := by simpa using hk
      have hd : decide (t ∉ keywords) = false := by simpa using hk
      simp only [filterElements, trim_word t hw, hkw, hemp, Bool.not_true, Bool.false_and,
        Bool.false_eq_true, if_false, List.filter_cons, hd]
      exact ih'
    · have hkw : keywords.contains t = false := by simpa using hk
      have hd : decide (t ∉ keywords) = true := by simpa using hk
      simp only [filterElements, trim_word t hw, hkw, hemp, Bool.not_false, Bool.and_self,
        if_true, List.filter_cons, hd]
      rw [ih']

theorem reDigit_reWord {c : Char} (h : reDigit c = true) : reWord c = true := by
  simp only [reDigit, reWord, inRange, Bool.or_eq_true, Bool.and_eq_true, decide_eq_true_eq] at *
  omega

theorem numeral_not_keyword (n : Str) (hne : n ≠ []) (hd : ∀ c ∈ n, reDigit c = true) :
    n ∉ keywords := by
  intro hmem
  have hk : ∀ k ∈ keywords, ∀ c ∈ k.head?, reDigit c = false := by decide
  cases n with
  | nil => exact absurd rfl hne
  | cons c r =>
    have := hk _ hmem c (by simp)
    rw [hd c (List.mem_cons_self _ _)] at this
    cases this

/-- Parsing word tokens joined by single spaces: no name, the whole text as raw
body, and the tokens that are not keywords as elements. -/
theorem parseStrudelPattern_words (ts : List Str) (hts : ts ≠ [])
    (h : ∀ t ∈ ts, t ≠ [] ∧ ∀ c ∈ t, reWord c = true) :
    parseStrudelPattern (joinSpaces ts) =
      .ok { Name := "unnamed".toList, Pattern := joinSpaces ts,
            BPM := tempoRef (joinSpaces ts), Cycle := 1,
            Elements := ts.filter (fun t => decide (t ∉ keywords)) } := by
  have hword : ∀ t ∈ ts, ∀ c ∈ t, reWord c = true := fun t ht => (h t ht).2
  cases ts with
  | nil => exact absurd rfl hts
  | cons t0 rest =>
    have h0 := h t0 (List.mem_cons_self _ _)
    have htrim : trimSpace (joinSpaces (t0 :: rest)) = joinSpaces (t0 :: rest) := by
      apply trimSpace_eq_self
      · rw [joinSpaces_head t0 rest h0.1]
        intro c hc
        exact reWord_not_unicodeIsSpace (h0.2 c (List.mem_of_mem_head? hc))
      · intro c hc
        exact reWord_not_unicodeIsSpace (joinSpaces_getLast (t0 :: rest) h c hc)
    have hne : trimSpace (joinSpaces (t0 :: rest)) ≠ [] := by
      rw [htrim]
      exact joinSpaces_ne_nil t0 rest h0.1
    rw [parseStrudelPattern_ok _ hne]
    simp only [htrim, parseName_of_not_shape _ (joinSpaces_not_shape _ hword)]
    rw [extractPatternElements_unquoted _ (joinSpaces_no_quote _ hword),
      fields_joinSpaces _ (fun t ht =>
        ⟨(h t ht).1, fun c hc => reWord_not_unicodeIsSpace ((h t ht).2 c hc)⟩),
      filterElements_words_filter _ h]

/-- C19: in unquoted text only the keyword `bpm` is dropped, not its operand: for
word-character tokens `ts` and a decimal numeral `n`, parsing `ts`, `bpm`, `n`
joined by single spaces returns the non-keyword tokens of `ts` followed by `n`;
and `bd sn bpm 90` has tempo 90, elements `bd`, `sn`, `90` and three events, the
last with instrument sample. -/
theorem parseStrudelPattern_bpm_operand :
    (∀ (ts : List Str) (n : Str), (∀ t ∈ ts, t ≠ [] ∧ ∀ c ∈ t, reWord c = true) →
        n ≠ [] → (∀ c ∈ n, reDigit c = true) →
        ∃ p, parseStrudelPattern (joinSpaces (ts ++ ["bpm".toList, n])) = .ok p ∧
          p.Elements = ts.filter (fun t => decide (t ∉ keywords)) ++ [n]) ∧
      (∃ p, parseStrudelPattern "bd sn bpm 90".toList = .ok p ∧ p.BPM = 90 ∧
        p.Elements = ["bd".toList, "sn".toList, "90".toList] ∧
        ∀ tbl, (generateAudioEvents tbl p).map (fun ev => (ev.Note, ev.Instrument)) =
          [("bd".toList, "kick"), ("sn".toList, "snare"), ("90".toList, "sample")]) := by
  constructor
  · intro ts n h hne hd
    have hall : ∀ t ∈ ts ++ ["bpm".toList, n], t ≠ [] ∧ ∀ c ∈ t, reWord c = true := by
      intro t ht
      rcases List.mem_append.mp ht with ht | ht
      · exact h t ht
      · simp only [List.mem_cons, List.mem_singleton, List.not_mem_nil, or_false] at ht
        rcases ht with rfl | rfl
        · exact ⟨by decide, by decide⟩
        · exact ⟨hne, fun c hc => reDigit_reWord (hd c hc)⟩
    refine ⟨_, parseStrudelPattern_words _ (by simp) hall, ?_⟩
    have h1 : decide ("bpm".toList ∉ keywords) = false := by decide
    have h2 : decide (n ∉ keywords) = true := decide_eq_true (numeral_not_keyword n hne hd)
    simp only [List.filter_append, List.filter_cons, List.filter_nil, h1, h2, if_true,
      Bool.false_eq_true, if_false]
  · refine ⟨_, rfl, rfl, rfl, ?_⟩
    intro tbl
    rw [generateAudioEvents_eq]
    rfl

theorem parseStrudelPattern_bpm_operand_witness :
    ∃ p, parseStrudelPattern (joinSpaces (["bd".toList, "sound".toList, "sn".toList]
        ++ ["bpm".toList, "140".toList])) = .ok p ∧
      p.Elements = ["bd".toList, "sound".toList, "sn".toList].filter
        (fun t => decide (t ∉ keywords)) ++ ["140".toList] :=
  parseStrudelPattern_bpm_operand.1 ["bd".toList, "sound".toList, "sn".toList] "140".toList
    (by decide) (by decide) (by decide)

/-! ## Buffer lengths -/

theorem length_frameBytes (v : Int) : (frameBytes v).length = 4 := rfl

theorem length_pcmBuffer {K : Type} [LinearOrderedField K] [FloorRing K] (n : Nat)
    (sample : Nat → K) : (pcmBuffer n sample).length = n * 4 := by
  unfold pcmBuffer
  induction n with
  | zero => rfl
  | succ n ih =>
    rw [List.range_succ, List.flatMap_append, List.length_append, ih]
    simp [List.flatMap_def, length_frameBytes]
    omega

theorem sampleCount_values :
    sampleCount (F64.ofDecimal 5 1) = 22050 ∧ sampleCount (F64.ofDecimal 2 1) = 8820 ∧
      sampleCount (F64.ofDecimal 1 1) = 4410 ∧ sampleCount (F64.ofDecimal 3 1) = 13230 := by
  decide

/-- C15: the buffers have `sample_rate * duration * 4` bytes at 44100 Hz:
`generateKick` 88200, `generateSnare` 35280, `generateHihat` 17640 and
`generateSynth f` 52920 for every frequency `f`. -/
theorem generated_buffer_lengths :
    generateKick.length = 88200 ∧ generateSnare.length = 35280 ∧
      generateHihat.length = 17640 ∧ (∀ f : ℝ, (generateSynth f).length = 52920) ∧
      ((88200 : ℚ) = sampleRate * 0.5 * 4 ∧ (35280 : ℚ) = sampleRate * 0.2 * 4 ∧
        (17640 : ℚ) = sampleRate * 0.1 * 4 ∧ (52920 : ℚ) = sampleRate * 0.3 * 4) := by
  obtain ⟨h1, h2, h3, h4⟩ := sampleCount_values
  refine ⟨?_, ?_, ?_, ?_, ?_⟩
  · unfold generateKick
    rw [length_pcmBuffer, h1]
  · unfold generateSnare
    rw [length_pcmBuffer, h2]
  · unfold generateHihat
    rw [length_pcmBuffer, h3]
  · intro f
    unfold generateSynth
    rw [length_pcmBuffer, h4]
  · simp only [sampleRate]
    norm_num

/-! ## Range of the sample values -/

/-- An envelope in `[0, 1]` times a wave in `[-1, 1]` times a gain `c`, scaled by
32767, has magnitude at most `c * 32767`. -/
theorem abs_scaled_le (e w c : ℝ) (he0 : 0 ≤ e) (he1 : e ≤ 1) (hw : |w| ≤ 1) (hc : 0 ≤ c) :
    |e * w * c * 32767| ≤ c * 32767 := by
  have h1 : |e * w| ≤ 1 := by
    rw [abs_mul, abs_of_nonneg he0]
    calc e * |w| ≤ 1 * 1 := mul_le_mul he1 hw (abs_nonneg _) zero_le_one
      _ = 1 := one_mul 1
  have h2 : |e * w * c * 32767| = |e * w| * (c * 32767) := by
    rw [mul_assoc, abs_mul, abs_of_nonneg (by positivity : (0 : ℝ) ≤ c * 32767)]
  rw [h2]
  calc |e * w| * (c * 32767) ≤ 1 * (c * 32767) :=
        mul_le_mul_of_nonneg_right h1 (by positivity)
    _ = c * 32767 := one_mul _

theorem exp_decay_bounds (i : Nat) (r : ℝ) (hr : 0 ≤ r) :
    0 ≤ Real.exp (-((i : ℝ) / (sampleRate : ℝ)) * r) ∧
      Real.exp (-((i : ℝ) / (sampleRate : ℝ)) * r) ≤ 1 := by
  refine ⟨(Real.exp_pos _).le, ?_⟩
  rw [Real.exp_le_one_iff]
  have ht : (0 : ℝ) ≤ (i : ℝ) / (sampleRate : ℝ) := by positivity
  nlinarith

theorem abs_noise_le (a b c : ℝ) : |(Real.sin a + Real.sin b + Real.sin c) / 3| ≤ 1 := by
  have ha := Real.abs_sin_le_one a
  have hb := Real.abs_sin_le_one b
  have hc := Real.abs_sin_le_one c
  rw [abs_le] at ha hb hc ⊢
  constructor <;> linarith [ha.1, ha.2, hb.1, hb.2, hc.1, hc.2]

theorem kickSample_bound (i : Nat) : |kickSample i * 32767| ≤ 0.5 * 32767 := by
  unfold kickSample
  obtain ⟨h0, h1⟩ := exp_decay_bounds i 5 (by norm_num)
  exact abs_scaled_le _ _ 0.5 h0 h1 (Real.abs_sin_le_one _) (by norm_num)

theorem snareSample_bound (i : Nat) : |snareSample i * 32767| ≤ 0.3 * 32767 := by
  unfold snareSample
  obtain ⟨h0, h1⟩ := exp_decay_bounds i 15 (by norm_num)
  refine abs_scaled_le _ _ 0.3 h0 h1 ?_ (by norm_num)
  have hn := abs_noise_le ((i : ℝ) / (sampleRate : ℝ) * 12345)
    ((i : ℝ) / (sampleRate : ℝ) * 23456) ((i : ℝ) / (sampleRate : ℝ) * 34567)
  have ht := Real.abs_sin_le_one (2 * Real.pi * 200 * ((i : ℝ) / (sampleRate : ℝ)))
  rw [abs_le] at hn ht ⊢
  constructor <;> linarith [hn.1, hn.2, ht.1, ht.2]

theorem hihatSample_bound (i : Nat) : |hihatSample i * 32767| ≤ 0.2 * 32767 := by
  unfold hihatSample
  obtain ⟨h0, h1⟩ := exp_decay_bounds i 25 (by norm_num)
  exact abs_scaled_le _ _ 0.2 h0 h1 (abs_noise_le _ _ _) (by norm_num)

/-! ## The envelope of the synth -/

theorem envelope_thresholds {K : Type} [LinearOrderedField K] : (0.05 : K) + 0.1 = 0.15 ∧ (0.3 : K) - 0.15 = 0.15 := by
  constructor <;> norm_num

theorem synthBranch_attack {K : Type} [LinearOrderedField K] (t : K) (h : t < 0.05) : synthBranch t = .attack := by
  unfold synthBranch
  rw [if_pos h]

theorem synthBranch_decay {K : Type} [LinearOrderedField K] (t : K) (h1 : 0.05 ≤ t) (h2 : t < 0.15) : synthBranch t = .decay := by
  unfold synthBranch
  rw [if_neg (not_lt.mpr h1), envelope_thresholds.1, if_pos h2]

theorem synthBranch_release {K : Type} [LinearOrderedField K] (t : K) (h : 0.15 ≤ t) : synthBranch t = .release := by
  have h1 : (0.05 : K) ≤ t := le_trans (by norm_num) h
  unfold synthBranch
  rw [if_neg (not_lt.mpr h1), envelope_thresholds.1, envelope_thresholds.2,
    if_neg (not_lt.mpr h), if_neg (not_lt.mpr h)]

/-- The arm taken at `t` is decided by the two thresholds 0.05 and 0.15; the
sustain arm is never taken. -/
theorem synthBranch_cases {K : Type} [LinearOrderedField K] (t : K) :
    synthBranch t ≠ .sustain ∧ (synthBranch t = .attack ↔ t < 0.05) ∧
      (synthBranch t = .decay ↔ 0.05 ≤ t ∧ t < 0.15) ∧
      (synthBranch t = .release ↔ 0.15 ≤ t) := by
  by_cases h1 : t < 0.05
  · have hb := synthBranch_attack t h1
    have h2 : t < 0.15 := lt_trans h1 (by norm_num)
    rw [hb]
    refine ⟨by decide, ⟨fun _ => h1, fun _ => rfl⟩, ⟨fun h => (by cases h), fun h => ?_⟩,
      ⟨fun h => (by cases h), fun h => ?_⟩⟩
    · exact absurd h1 (not_lt.mpr h.1)
    · exact absurd h2 (not_lt.mpr h)
  · have h1' : (0.05 : K) ≤ t := not_lt.mp h1
    by_cases h2 : t < 0.15
    · rw [synthBranch_decay t h1' h2]
      refine ⟨by decide, ⟨fun h => (by cases h), fun h => absurd h h1⟩,
        ⟨fun _ => ⟨h1', h2⟩, fun _ => rfl⟩, ⟨fun h => (by cases h), fun h => ?_⟩⟩
      exact absurd h2 (not_lt.mpr h)
    · have h2' : (0.15 : K) ≤ t := not_lt.mp h2
      rw [synthBranch_release t h2']
      refine ⟨by decide, ⟨fun h => (by cases h), fun h => absurd h h1⟩,
        ⟨fun h => (by cases h), fun h => absurd h.2 h2⟩, ⟨fun _ => h2', fun _ => rfl⟩⟩

theorem synthEnvelope_attack {K : Type} [LinearOrderedField K] (t : K) (h : t < 0.05) : synthEnvelope t = t / 0.05 := by
  unfold synthEnvelope
  rw [synthBranch_attack t h]

theorem synthEnvelope_decay {K : Type} [LinearOrderedField K] (t : K) (h1 : 0.05 ≤ t) (h2 : t < 0.15) :
    synthEnvelope t = 1.0 - (1.0 - 0.5) * (t - 0.05) / 0.1 := by
  unfold synthEnvelope
  rw [synthBranch_decay t h1 h2]

theorem synthEnvelope_release {K : Type} [LinearOrderedField K] (t : K) (h : 0.15 ≤ t) :
    synthEnvelope t = 0.5 * (0.3 - t) / 0.15 := by
  unfold synthEnvelope
  rw [synthBranch_release t h]

/-- On sample times below the duration the envelope stays in `[0, 1]`. -/
theorem synthEnvelope_bounds {K : Type} [LinearOrderedField K] (t : K) (h0 : 0 ≤ t) (h1 : t < 0.3) :
    0 ≤ synthEnvelope t ∧ synthEnvelope t ≤ 1 := by
  by_cases ha : t < 0.05
  · rw [synthEnvelope_attack t ha]
    constructor
    · positivity
    · rw [div_le_one (by norm_num)]
      exact ha.le
  · have ha' : (0.05 : K) ≤ t := not_lt.mp ha
    by_cases hd : t < 0.15
    · rw [synthEnvelope_decay t ha' hd]
      constructor
      · norm_num
        linarith
      · norm_num
        linarith
    · have hd' : (0.15 : K) ≤ t := not_lt.mp hd
      rw [synthEnvelope_release t hd']
      constructor
      · apply div_nonneg
        · apply mul_nonneg (by norm_num)
          linarith
        · norm_num
      · rw [div_le_one (by norm_num)]
        linarith

/-- Near 0.15 the envelope differs from 0.5 by at most five times the distance. -/
theorem synthEnvelope_near {K : Type} [LinearOrderedField K] (t : K) (h : 0.05 ≤ t) :
    |synthEnvelope t - 0.5| ≤ 5 * |t - 0.15| := by
  by_cases hd : t < 0.15
  · rw [synthEnvelope_decay t h hd, abs_of_neg (by linarith : t - 0.15 < 0)]
    have e : (1.0 : K) - (1.0 - 0.5) * (t - 0.05) / 0.1 - 0.5 = 5 * (0.15 - t) := by
      norm_num
      ring
    rw [e, abs_of_nonneg (by linarith)]
    linarith
  · have hd' : (0.15 : K) ≤ t := not_lt.mp hd
    rw [synthEnvelope_release t hd', abs_of_nonneg (by linarith : (0 : K) ≤ t - 0.15)]
    have e : (0.5 : K) * (0.3 - t) / 0.15 - 0.5 = -((10 / 3) * (t - 0.15)) := by
      norm_num
      ring
    rw [e, abs_neg, abs_of_nonneg (by linarith)]
    linarith

/-! ## Range of the synth samples and of the conversion -/

theorem sawWave_bounds (f t : ℝ) : -1 ≤ sawWave f t ∧ sawWave f t < 1 := by
  unfold sawWave
  have e2 : (2.0 : ℝ) = 2 := by norm_num
  have e1 : (1.0 : ℝ) = 1 := by norm_num
  rw [Int.self_sub_floor, e2, e1]
  have h0 := Int.fract_nonneg (f * t)
  have h1 := Int.fract_lt_one (f * t)
  constructor <;> linarith

theorem sampleTime_bounds (i : Nat) (hi : i < 13230) :
    (0 : ℝ) ≤ (i : ℝ) / (sampleRate : ℝ) ∧ (i : ℝ) / (sampleRate : ℝ) < 0.3 := by
  constructor
  · positivity
  · have h : (i : ℝ) < 13230 := by exact_mod_cast hi
    have hs : ((sampleRate : Nat) : ℝ) = 44100 := by norm_num [sampleRate]
    rw [hs, div_lt_iff₀ (by norm_num)]
    have e : (0.3 : ℝ) * 44100 = 13230 := by norm_num
    rw [e]
    exact h

theorem synthSample_bound (f : ℝ) (i : Nat) (hi : i < 13230) :
    |synthSample f i * 32767| ≤ 0.2 * 32767 := by
  unfold synthSample
  obtain ⟨ht0, ht1⟩ := sampleTime_bounds i hi
  obtain ⟨he0, he1⟩ := synthEnvelope_bounds ((i : ℝ) / (sampleRate : ℝ)) ht0 ht1
  obtain ⟨hs0, hs1⟩ := sawWave_bounds f ((i : ℝ) / (sampleRate : ℝ))
  exact abs_scaled_le _ _ 0.2 he0 he1 (abs_le.mpr ⟨hs0, hs1.le⟩) (by norm_num)

/-- A value of magnitude at most 32767 converts to an integer of the signed
16-bit range. -/
theorem truncInt_int16 (x : ℝ) (h : |x| ≤ 32767) :
    -32768 ≤ truncInt x ∧ truncInt x ≤ 32767 := by
  obtain ⟨hlo, hhi⟩ := abs_le.mp h
  unfold truncInt
  by_cases h0 : 0 ≤ x
  · rw [if_pos h0]
    constructor
    · have : (0 : Int) ≤ ⌊x⌋ := Int.floor_nonneg.mpr h0
      omega
    · have : ⌊x⌋ ≤ (32767 : Int) := by
        rw [← Int.cast_le (R := ℝ)]
        exact le_trans (Int.floor_le x) (by exact_mod_cast hhi)
      exact this
  · rw [if_neg h0]
    have hneg : x ≤ 0 := le_of_lt (not_le.mp h0)
    constructor
    · have : ((-32768 : Int) : ℝ) ≤ (⌈x⌉ : ℝ) := by
        calc ((-32768 : Int) : ℝ) ≤ x := by push_cast; linarith
          _ ≤ (⌈x⌉ : ℝ) := Int.le_ceil x
      exact_mod_cast this
    · have : ⌈x⌉ ≤ (0 : Int) := Int.ceil_le.mpr (by exact_mod_cast hneg)
      omega

theorem in_int16_of_bound (x c : ℝ) (h : |x * 32767| ≤ c * 32767) (hc : c ≤ 1) :
    (-32768 ≤ x * 32767 ∧ x * 32767 ≤ 32767) ∧
      (-32768 ≤ truncInt (x * 32767) ∧ truncInt (x * 32767) ≤ 32767) := by
  have h' : |x * 32767| ≤ 32767 := le_trans h (by linarith)
  obtain ⟨hlo, hhi⟩ := abs_le.mp h'
  exact ⟨⟨by linarith, hhi⟩, truncInt_int16 _ h'⟩

/-- C17: for every sample index of each generated buffer, the value handed to the
16-bit conversion, `sample * 32767` over the reals, has magnitude at most
`0.5 * 32767` for kick, `0.3 * 32767` for snare, `0.2 * 32767` for hihat and for
synth at every frequency (envelope in `[0, 1]`, saw wave in `[-1, 1)`), so the
value and its truncation lie in the signed 16-bit range. -/
theorem sample_values_in_int16 (i : Nat) (f : ℝ) :
    (i < sampleCount (F64.ofDecimal 5 1) →
        |kickSample i * 32767| ≤ 0.5 * 32767 ∧
        (-32768 ≤ kickSample i * 32767 ∧ kickSample i * 32767 ≤ 32767) ∧
        (-32768 ≤ truncInt (kickSample i * 32767) ∧ truncInt (kickSample i * 32767) ≤ 32767)) ∧
      (i < sampleCount (F64.ofDecimal 2 1) →
        |snareSample i * 32767| ≤ 0.3 * 32767 ∧
        (-32768 ≤ snareSample i * 32767 ∧ snareSample i * 32767 ≤ 32767) ∧
        (-32768 ≤ truncInt (snareSample i * 32767) ∧
          truncInt (snareSample i * 32767) ≤ 32767)) ∧
      (i < sampleCount (F64.ofDecimal 1 1) →
        |hihatSample i * 32767| ≤ 0.2 * 32767 ∧
        (-32768 ≤ hihatSample i * 32767 ∧ hihatSample i * 32767 ≤ 32767) ∧
        (-32768 ≤ truncInt (hihatSample i * 32767) ∧
          truncInt (hihatSample i * 32767) ≤ 32767)) ∧
      (i < sampleCount (F64.ofDecimal 3 1) →
        (0 ≤ synthEnvelope ((i : ℝ) / (sampleRate : ℝ)) ∧
          synthEnvelope ((i : ℝ) / (sampleRate : ℝ)) ≤ 1) ∧
        (-1 ≤ sawWave f ((i : ℝ) / (sampleRate : ℝ)) ∧
          sawWave f ((i : ℝ) / (sampleRate : ℝ)) < 1) ∧
        |synthSample f i * 32767| ≤ 0.2 * 32767 ∧
        (-32768 ≤ synthSample f i * 32767 ∧ synthSample f i * 32767 ≤ 32767) ∧
        (-32768 ≤ truncInt (synthSample f i * 32767) ∧
          truncInt (synthSample f i * 32767) ≤ 32767)) := by
  refine ⟨fun _ => ?_, fun _ => ?_, fun _ => ?_, fun hi => ?_⟩
  · have hb := kickSample_bound i
    obtain ⟨h1, h2⟩ := in_int16_of_bound _ 0.5 hb (by norm_num)
    exact ⟨hb, h1, h2⟩
  · have hb := snareSample_bound i
    obtain ⟨h1, h2⟩ := in_int16_of_bound _ 0.3 hb (by norm_num)
    exact ⟨hb, h1, h2⟩
  · have hb := hihatSample_bound i
    obtain ⟨h1, h2⟩ := in_int16_of_bound _ 0.2 hb (by norm_num)
    exact ⟨hb, h1, h2⟩
  · have hi' : i < 13230 := by
      rw [sampleCount_values.2.2.2] at hi
      exact hi
    obtain ⟨ht0, ht1⟩ := sampleTime_bounds i hi'
    have hb := synthSample_bound f i hi'
    obtain ⟨h1, h2⟩ := in_int16_of_bound _ 0.2 hb (by norm_num)
    exact ⟨synthEnvelope_bounds _ ht0 ht1, sawWave_bounds f _, hb, h1, h2⟩

theorem sample_values_in_int16_witness :
    |synthSample (440 : ℝ) 6615 * 32767| ≤ 0.2 * 32767 ∧
      (-32768 ≤ synthSample (440 : ℝ) 6615 * 32767 ∧ synthSample (440 : ℝ) 6615 * 32767 ≤ 32767) :=
  ⟨((sample_values_in_int16 6615 (440 : ℝ)).2.2.2 (by decide)).2.2.1,
    ((sample_values_in_int16 6615 (440 : ℝ)).2.2.2 (by decide)).2.2.2.1⟩

/-! ## The sustain arm -/

theorem synthEnvelope_junction : synthEnvelope (0.15 : ℝ) = 0.5 := by
  rw [synthEnvelope_release (0.15 : ℝ) (le_refl _)]
  norm_num

theorem synthEnvelope_continuousAt : ContinuousAt (fun t : ℝ => synthEnvelope t) 0.15 := by
  rw [Metric.continuousAt_iff]
  intro ε hε
  refine ⟨min (ε / 5) 0.1, lt_min (by positivity) (by norm_num), ?_⟩
  intro x hx
  rw [Real.dist_eq] at hx ⊢
  have h1 : |x - 0.15| < ε / 5 := lt_of_lt_of_le hx (min_le_left _ _)
  have h2 : |x - 0.15| < 0.1 := lt_of_lt_of_le hx (min_le_right _ _)
  have hx5 : (0.05 : ℝ) ≤ x := by
    have := (abs_lt.mp h2).1
    norm_num at this ⊢
    linarith
  rw [synthEnvelope_junction]
  calc |synthEnvelope x - 0.5| ≤ 5 * |x - 0.15| := synthEnvelope_near x hx5
    _ < 5 * (ε / 5) := by linarith
    _ = ε := by ring

theorem sampleRate_toRat : (F64.ofNat sampleRate).toRat = 44100 := by
  rw [f64_ofNat_exact sampleRate (by decide)]
  norm_num [sampleRate]

/-- The float64 sample time is within relative error `2 ^ (-53)` of `i / 44100`. -/
theorem sampleTime_err (i : Nat) (h0 : 0 < i) (hi : i < 2 ^ 53) :
    |(sampleTime i).toRat - (i : ℚ) / 44100| ≤ (i : ℚ) / 44100 * (2 : ℚ) ^ (-53 : Int) := by
  have h := f64_div_err (F64.ofNat i) (F64.ofNat sampleRate) (f64_ofNat_sig_pos i h0)
    (f64_ofNat_sig_pos sampleRate (by decide))
  rw [f64_ofNat_exact i hi, sampleRate_toRat] at h
  exact h

theorem attack_toRat : (F64.ofDecimal 5 2).toRat = 7205759403792794 / 2 ^ 57 := by
  have h : F64.ofDecimal 5 2 = ⟨7205759403792794, -57⟩ := by decide
  rw [h]
  unfold F64.toRat
  norm_num

theorem attackDecay_toRat :
    (F64.add (F64.ofDecimal 5 2) (F64.ofDecimal 1 1)).toRat = 5404319552844596 / 2 ^ 55 := by
  have h : F64.add (F64.ofDecimal 5 2) (F64.ofDecimal 1 1) = ⟨5404319552844596, -55⟩ := by
    decide
  rw [h]
  unfold F64.toRat
  norm_num

theorem durationRelease_toRat :
    (F64.sub (F64.ofDecimal 3 1) (F64.ofDecimal 15 2)).toRat = 5404319552844595 / 2 ^ 55 := by
  have h : F64.sub (F64.ofDecimal 3 1) (F64.ofDecimal 15 2) = ⟨5404319552844595, -55⟩ := by
    decide
  rw [h]
  unfold F64.toRat
  norm_num

theorem synthBranchF64_attack (t : F64) (h : t.toRat < 7205759403792794 / 2 ^ 57) :
    synthBranchF64 t = .attack := by
  unfold synthBranchF64
  rw [if_pos ((f64_lt_iff _ _).mpr (by rw [attack_toRat]; exact h))]

theorem synthBranchF64_decay (t : F64) (h1 : 7205759403792794 / 2 ^ 57 ≤ t.toRat)
    (h2 : t.toRat < 5404319552844596 / 2 ^ 55) : synthBranchF64 t = .decay := by
  unfold synthBranchF64
  rw [if_neg (fun hc => absurd ((f64_lt_iff _ _).mp hc) (by rw [attack_toRat]; exact not_lt.mpr h1)),
    if_pos ((f64_lt_iff _ _).mpr (by rw [attackDecay_toRat]; exact h2))]

theorem synthBranchF64_release (t : F64) (h : 5404319552844596 / 2 ^ 55 ≤ t.toRat) :
    synthBranchF64 t = .release := by
  have h0 : (7205759403792794 : ℚ) / 2 ^ 57 ≤ t.toRat := le_trans (by norm_num) h
  have h3 : (5404319552844595 : ℚ) / 2 ^ 55 ≤ t.toRat := le_trans (by norm_num) h
  unfold synthBranchF64
  rw [if_neg (fun hc => absurd ((f64_lt_iff _ _).mp hc) (by rw [attack_toRat]; exact not_lt.mpr h0)),
    if_neg (fun hc => absurd ((f64_lt_iff _ _).mp hc)
      (by rw [attackDecay_toRat]; exact not_lt.mpr h)),
    if_neg (fun hc => absurd ((f64_lt_iff _ _).mp hc)
      (by rw [durationRelease_toRat]; exact not_lt.mpr h3))]

/-- The arm of the envelope chain taken at each sample index. -/
theorem synthBranchF64_sampleTime (i : Nat) (hi : i < 2 ^ 53) :
    synthBranchF64 (sampleTime i) =
      if i < 2205 then .attack else if i ≤ 6615 then .decay else .release := by
  have hu : (2 : ℚ) ^ (-53 : Int) = 1 / 9007199254740992 := by norm_num
  by_cases h0 : i = 0
  · subst h0; decide
  by_cases h1 : i = 2205
  · subst h1; decide
  by_cases h2 : i = 6615
  · subst h2; decide
  have herr := abs_le.mp (sampleTime_err i (Nat.pos_of_ne_zero h0) hi)
  rw [hu] at herr
  have hi0 : (0 : ℚ) ≤ (i : ℚ) := by positivity
  by_cases ha : i < 2205
  · rw [if_pos ha]
    apply synthBranchF64_attack
    have : (i : ℚ) ≤ 2204 := by exact_mod_cast Nat.le_of_lt_succ ha
    have e := herr.2
    norm_num at e ⊢
    linarith
  · rw [if_neg ha]
    have hlo : (2206 : ℚ) ≤ (i : ℚ) := by
      have : 2206 ≤ i := by omega
      exact_mod_cast this
    by_cases hd : i ≤ 6615
    · rw [if_pos hd]
      have hhi : (i : ℚ) ≤ 6614 := by
        have : i ≤ 6614 := by omega
        exact_mod_cast this
      apply synthBranchF64_decay
      · have e := herr.1
        norm_num at e ⊢
        linarith
      · have e := herr.2
        norm_num at e ⊢
        linarith
    · rw [if_neg hd]
      have hlo2 : (6616 : ℚ) ≤ (i : ℚ) := by
        have : 6616 ≤ i := by omega
        exact_mod_cast this
      apply synthBranchF64_release
      have e := herr.1
      norm_num at e ⊢
      linarith

/-- C20 as stated fails: in float64 `duration - release` is the double nearest to
0.15 while `attack + decay` is the next double above it, and the sample of index
6615, whose time `6615 / 44100 = 0.15` is computed as the double nearest to 0.15,
is in the decay arm, not in the release arm. -/
theorem synth_threshold_sample_decay :
    (6615 : ℚ) / (sampleRate : ℚ) = 0.15 ∧
      sampleTime 6615 = F64.ofDecimal 15 2 ∧
      F64.lt (sampleTime 6615) (F64.ofDecimal 15 2) = false ∧
      synthBranchF64 (sampleTime 6615) = .decay ∧
      F64.lt (F64.sub (F64.ofDecimal 3 1) (F64.ofDecimal 15 2))
        (F64.add (F64.ofDecimal 5 2) (F64.ofDecimal 1 1)) = true := by
  refine ⟨?_, by decide, by decide, by decide, by decide⟩
  norm_num [sampleRate]

/-- C20 (amended): in `generateSynth` the sustain arm of the envelope is never
taken: in float64 `attack + decay` is `5404319552844596 * 2 ^ (-55)` and
`duration - release` is `5404319552844595 * 2 ^ (-55)`, one unit in the last place
below it, and of the 13230 samples the one of index `i` is in the attack arm when
`i < 2205` (`i / 44100 < 0.05`), in the decay arm when `2205 ≤ i ≤ 6615`
(`0.05 ≤ i / 44100 ≤ 0.15`) and in the release arm when `6616 ≤ i`; the float64
envelope of the sample at time 0.15 is 0.5, and the envelope formula read over the
reals is 0.5 at 0.15 and continuous there. -/
theorem synth_sustain_never (i : Nat) (hi : i < sampleCount (F64.ofDecimal 3 1)) :
    sampleCount (F64.ofDecimal 3 1) = 13230 ∧
      F64.add (F64.ofDecimal 5 2) (F64.ofDecimal 1 1) = ⟨5404319552844596, -55⟩ ∧
      F64.sub (F64.ofDecimal 3 1) (F64.ofDecimal 15 2) = ⟨5404319552844595, -55⟩ ∧
      synthBranchF64 (sampleTime i) ≠ .sustain ∧
      (synthBranchF64 (sampleTime i) = .attack ↔ i < 2205) ∧
      (synthBranchF64 (sampleTime i) = .decay ↔ 2205 ≤ i ∧ i ≤ 6615) ∧
      (synthBranchF64 (sampleTime i) = .release ↔ 6616 ≤ i) ∧
      ((2205 : ℚ) / (sampleRate : ℚ) = 0.05 ∧ (6615 : ℚ) / (sampleRate : ℚ) = 0.15) ∧
      synthEnvelopeF64 (sampleTime 6615) = F64.ofDecimal 5 1 ∧
      synthEnvelope (0.15 : ℝ) = 0.5 ∧
      ContinuousAt (fun t : ℝ => synthEnvelope t) 0.15 := by
  have h13230 : sampleCount (F64.ofDecimal 3 1) = 13230 := sampleCount_values.2.2.2
  have hb := synthBranchF64_sampleTime i (by rw [h13230] at hi; omega)
  refine ⟨h13230, by decide, by decide, ?_, ?_, ?_, ?_, ⟨?_, ?_⟩, by decide,
    synthEnvelope_junction, synthEnvelope_continuousAt⟩
  · rw [hb]
    split_ifs <;> decide
  · rw [hb]
    split_ifs with h1 h2
    · exact ⟨fun _ => h1, fun _ => rfl⟩
    · exact ⟨fun h => (by cases h), fun h => absurd h h1⟩
    · exact ⟨fun h => (by cases h), fun h => absurd h h1⟩
  · rw [hb]
    split_ifs with h1 h2
    · exact ⟨fun h => (by cases h), fun h => absurd h1 (by omega)⟩
    · exact ⟨fun _ => ⟨by omega, h2⟩, fun _ => rfl⟩
    · exact ⟨fun h => (by cases h), fun h => absurd h.2 h2⟩
  · rw [hb]
    split_ifs with h1 h2
    · exact ⟨fun h => (by cases h), fun h => (by omega)⟩
    · exact ⟨fun h => (by cases h), fun h => (by omega)⟩
    · exact ⟨fun _ => (by omega), fun _ => rfl⟩
  · norm_num [sampleRate]
  · norm_num [sampleRate]

theorem synth_sustain_never_witness :
    synthBranchF64 (sampleTime 6616) ≠ .sustain ∧
      (synthBranchF64 (sampleTime 6616) = .release ↔ 6616 ≤ 6616) :=
  ⟨(synth_sustain_never 6616 (by decide)).2.2.2.1,
    (synth_sustain_never 6616 (by decide)).2.2.2.2.2.2.1⟩

end Strudel
